import Mathlib

/-!
Verification of the generalized (r,b)-core/quotient abacus engine of the
`pyparti` repository (`abacus_extension.py`).

Partitions are modelled as weakly decreasing lists of positive naturals.
The SageMath `Partition` primitives consumed by the engine
(`zero_one_sequence`, the `zero_one=` constructor, `to_dyck_word`,
`conjugate`, `upper_hook` lengths and `gcd`) are external collaborator
capabilities; they are modelled here faithfully to their documented
behaviour, at the boundary described in the design (north/east binary
boundary words, bijective with partitions).

The engine functions themselves (`G_abacus`, `G_charges`, `G_quotient`,
`G_core`, `is_G_core`, `from_G_abacus`, `from_G_charges_and_quotient`,
`from_G_core_and_quotient`) are direct translations of the Python source.
Python `assert` statements on inputs become explicit error results, as the
design document prescribes; the unbounded `while` loop of `from_G_abacus`
is run with an explicit fuel equal to the iteration bound stated in the
source comment (`r * (number of stored symbols) + r`), which is proved
sufficient below.
-/

namespace PyParti

/-- A partition value: weakly decreasing list of positive row lengths.
The padded entry `getD (i+1) 0 = 0` makes the final comparison vacuous, so
the first clause says exactly that consecutive parts weakly decrease. -/
def isPartition (p : List Nat) : Prop :=
  (∀ i, i < p.length → p.getD (i + 1) 0 ≤ p.getD i 0) ∧ ∀ x ∈ p, 0 < x

instance (p : List Nat) : Decidable (isPartition p) :=
  inferInstanceAs
    (Decidable ((∀ i < p.length, p.getD (i + 1) 0 ≤ p.getD i 0) ∧ ∀ x ∈ p, 0 < x))

/-- A binary word: every symbol is 0 or 1. -/
def isBinary (s : List Nat) : Prop := ∀ x ∈ s, x ≤ 1

instance (s : List Nat) : Decidable (isBinary s) :=
  inferInstanceAs (Decidable (∀ x ∈ s, x ≤ 1))

/-- Error taxonomy of the reconstruction entry points (design section 7).
The Python source signals all of these through `assert`; `runtimeError`
stands for Python runtime failures (`ZeroDivisionError` on `% 0`,
`ValueError` on `max` of an empty collection), `assertionFailed` for the
two output-validation assertions of `from_G_charges_and_quotient`, and
`fuelExhausted` for a merge loop that fails to finish within the bound
stated in the source comment (i.e. the Python loop does not terminate). -/
inductive AbacusError where
  | invalidAction
  | shapeMismatch
  | chargeImbalance
  | notACore
  | runtimeError
  | assertionFailed
  | fuelExhausted
deriving DecidableEq

/-- Modelled from the SageMath codec: swap the entries 0 and 1 of a binary
sequence (`invert_zero_one` in the source, src lines 181-183). -/
def invert_zero_one (s : List Nat) : List Nat :=
  s.map (fun code => 1 - code)

/-- Modelled from the SageMath codec (`Partition.zero_one_sequence`):
the finite 0-1 word of a partition, convention 1 = east and 0 = north,
entry at index `t` is 0 exactly when `t - len(p) + 1` is one of the
values `p[i] - i`.  Length is `p[0] + len(p)`. -/
def zero_one_sequence (p : List Nat) : List Nat :=
  let k := p.length
  let tmp : List Int := (List.range k).map (fun i => (p.getD i 0 : Int) - (i : Int))
  (List.range (p.headD 0 + k)).map
    (fun (t : Nat) => if tmp.contains ((t : Int) - (k : Int) + 1) then 0 else 1)

/-- Strip the trailing zero entries of a list (the SageMath `Partition`
constructor normalizes its input this way). -/
def stripTrailingZeros (l : List Nat) : List Nat :=
  (l.reverse.dropWhile (fun x => x == 0)).reverse

/-- Positions of the 0 symbols of a word, in increasing order. -/
def zeroPositions (s : List Nat) : List Nat :=
  (s.enum.filter (fun ic => ic.2 == 0)).map Prod.fst

/-- Modelled from the SageMath codec (`Partitions.from_zero_one`, reached
through the `Partition(zero_one=...)` constructor): with `tmp` the list of
positions of 0 symbols, the parts are `tmp[i] - i` read from the last zero
to the first; the constructor then strips trailing zero parts. -/
def from_zero_one (s : List Nat) : List Nat :=
  let tmp := zeroPositions s
  stripTrailingZeros (((List.range tmp.length).map (fun i => tmp.getD i 0 - i)).reverse)

/-- Positions of the 0 symbols when the word is enumerated from index `k`
(generalizes `zeroPositions` for reasoning about concatenations). -/
def zeroPositionsFrom (k : Nat) (s : List Nat) : List Nat :=
  ((s.enumFrom k).filter (fun ic => ic.2 == 0)).map Prod.fst

/-- The parts list read off by `from_zero_one` before the partition
constructor strips trailing zero parts. -/
def partsRaw (s : List Nat) : List Nat :=
  ((List.range (zeroPositions s).length).map (fun i => (zeroPositions s).getD i 0 - i)).reverse

/-- The list `tmp = [p[i] - i]` used by `zero_one_sequence`. -/
def tmpInt (p : List Nat) : List Int :=
  (List.range p.length).map (fun i => (p.getD i 0 : Int) - (i : Int))

/-- Modelled from the SageMath codec (`Partition.to_dyck_word(n)`) and
design section 4.5 step 2: the balanced Dyck-style word of half-length `n`
encoding a partition; it is the unique word with `n` ones and `n` zeros
whose decoded partition is `p`, namely the inverted boundary word of `p`
extended with `n - len(p)` leading ones and `n - p[0]` trailing zeros. -/
def to_dyck_word (p : List Nat) (n : Nat) : List Nat :=
  List.replicate (n - p.length) 1 ++ invert_zero_one (zero_one_sequence p)
    ++ List.replicate (n - p.headD 0) 0

/-- Modelled from the SageMath codec: the minimal half-length for which a
partition fits in the Dyck-word encoding, `max(i + p[i] + 1)` over rows
(`0` for the empty partition). -/
def dyck_half (p : List Nat) : Nat :=
  (p.enum.map (fun il => il.1 + il.2 + 1)).foldr max 0

/-- The SageMath `to_dyck_word` with its minimal half-length (the
`mu.to_dyck_word()` calls of the source). -/
def to_dyck_word_min (p : List Nat) : List Nat :=
  to_dyck_word p (dyck_half p)

/-- Modelled from the SageMath codec: conjugate partition, entry `j` counts
the rows longer than `j`. -/
def conjugate (p : List Nat) : List Nat :=
  (List.range (p.headD 0)).map (fun j => p.countP (fun x => decide (j < x)))

/-- Modelled from the SageMath primitive `Partition.upper_hook_lengths(alpha)`:
the table of values `conjugate[j] - (i+1) + alpha * (p[i] - j)` over the
cells `(i, j)` of the diagram. -/
def upper_hook_lengths (p : List Nat) (alpha : Int) : List (List Int) :=
  let conj := conjugate p
  (List.range p.length).map (fun i =>
    (List.range (p.getD i 0)).map (fun j =>
      (conj.getD j 0 : Int) - ((i : Int) + 1) + alpha * ((p.getD i 0 : Int) - (j : Int))))

/-- Direct translation of `PartitionExt.is_G_core` (src lines 84-92):
no entry of `upper_hook_lengths(-b)` is divisible by `r`. -/
def is_G_core (p : List Nat) (r : Nat) (b : Int) : Bool :=
  ! (upper_hook_lengths p (-b)).any (fun row => row.any (fun cell => cell % (r : Int) == 0))

/-- Wire-update rule as written in `PartitionExt.G_abacus` (src line 116):
add `b` to the wire index after a 0, subtract 1 after a 1, reduce mod `r`. -/
def G_abacus_step (r : Nat) (b : Int) (wire : Int) (code : Nat) : Int :=
  (wire + b * (1 - (code : Int)) - (code : Int)) % (r : Int)

/-- Wire-update rule as written in `from_G_abacus` (src line 292). -/
def from_G_abacus_step (r : Nat) (b : Int) (wire : Int) (code : Nat) : Int :=
  (wire + b * (1 - (code : Int)) - (code : Int)) % (r : Int)

/-- Append a symbol at the right end of wire `w` (Python `abacus[w].append(code)`). -/
def appendAt (abacus : List (List Nat)) (w : Nat) (code : Nat) : List (List Nat) :=
  abacus.set w (abacus.getD w [] ++ [code])

/-- The distribution loop of `PartitionExt.G_abacus` (src lines 110-116):
walk the word left to right, appending each symbol to the current wire and
stepping the wire index; returns the abacus and the final wire index. -/
def distributeFrom (r : Nat) (b : Int) (seq : List Nat) (abacus : List (List Nat)) (w0 : Int) :
    List (List Nat) × Int :=
  seq.foldl (fun st code => (appendAt st.1 st.2.toNat code, G_abacus_step r b st.2 code)) (abacus, w0)

/-- Starting wire index of `G_abacus` (src line 111): number of 1 symbols mod `r`. -/
def G_abacus_start (seq : List Nat) (r : Nat) : Int :=
  ((seq.sum : Int)) % (r : Int)

/-- Direct translation of `PartitionExt.G_abacus` (src lines 95-117), with the
default `fast` method: distribute the inverted 0-1 word over `r` wires. -/
def G_abacus (p : List Nat) (r : Nat) (b : Int) : List (List Nat) :=
  let seq := invert_zero_one (zero_one_sequence p)
  (distributeFrom r b seq (List.replicate r []) (G_abacus_start seq r)).1

/-- Direct translation of `PartitionExt.G_charges` (src lines 157-178).
The internal assertions of the source (`sum(expected) == total` and
`sum(charges) == 0`) are proved below as theorems. -/
def G_charges (p : List Nat) (r : Nat) (b : Int) : List Int :=
  let abacus := G_abacus p r b
  let total := (abacus.map List.sum).sum
  let expected : List Nat :=
    (List.range r).map (fun i => total / r + if 0 < i ∧ i ≤ total % r then 1 else 0)
  abacus.enum.map (fun iw => (expected.getD iw.1 0 : Int) - (iw.2.sum : Int))

/-- Direct translation of `PartitionExt.G_quotient` (src lines 133-154):
decode each wire, then optionally reflect the labels after index 0. -/
def G_quotient (p : List Nat) (r : Nat) (b : Int) (label_swap_xy : Bool) : List (List Nat) :=
  let p_list := (G_abacus p r b).map (fun wire => from_zero_one (invert_zero_one wire))
  if label_swap_xy then
    match p_list with
    | [] => []
    | h :: t => h :: t.reverse
  else p_list

/-- State of the merge loop of `from_G_abacus`: remaining wires, current
wire index, flattened output word so far, number of 1 symbols read. -/
structure MState where
  abacus : List (List Nat)
  wire : Int
  out : List Nat
  read : Nat
deriving DecidableEq

/-- One iteration of the merge loop of `from_G_abacus` (src lines 278-292):
pop the front of the current wire (a synthetic 0 if it is exhausted),
append it to the output, count it, and step the wire index.  Python would
raise `IndexError` for a wire index beyond the wire count; the states
reached from `from_G_abacus` always have the index below `r` and below the
wire count. -/
def mergeStep (r : Nat) (b : Int) (st : MState) : MState :=
  let w := st.wire.toNat
  match st.abacus.getD w [] with
  | [] =>
    { abacus := st.abacus, wire := from_G_abacus_step r b st.wire 0,
      out := st.out ++ [0], read := st.read }
  | code :: rest =>
    { abacus := st.abacus.set w rest, wire := from_G_abacus_step r b st.wire code,
      out := st.out ++ [code], read := st.read + code }

/-- The merge loop itself: iterate `mergeStep` while fewer than `total`
1 symbols have been read, within the given fuel. -/
def mergeRun (r : Nat) (b : Int) (total : Nat) : Nat → MState → Option MState
  | 0, st => if st.read < total then none else some st
  | fuel + 1, st =>
    if st.read < total then mergeRun r b total fuel (mergeStep r b st) else some st

/-- Starting wire index of the merge loop (src line 277). -/
def from_G_abacus_start (abacus : List (List Nat)) (r : Nat) : Int :=
  (((abacus.map List.sum).sum : Int)) % (r : Int)

/-- Direct translation of `from_G_abacus` (src lines 257-297).  When `ropt`
is `none` the wire count is used for `r` (Python default `r=None`).  The
fuel is the iteration bound stated in the source comment on the loop
(`at most r*sum(len(wire) for wire in abacus) steps`, plus `r` slack);
coprimality makes it sufficient, which is proved below. -/
def from_G_abacus (abacus : List (List Nat)) (ropt : Option Nat) (b : Int) :
    Except AbacusError (List Nat) :=
  let r := ropt.getD abacus.length
  if Int.gcd (r : Int) b ≠ 1 then .error .invalidAction
  else if r = 0 then .error .runtimeError
  else
    let total := (abacus.map List.sum).sum
    let fuel := r * ((abacus.map List.length).sum + 1)
    match mergeRun r b total fuel (MState.mk abacus (from_G_abacus_start abacus r) [] 0) with
    | some st => .ok (from_zero_one (invert_zero_one st.out))
    | none => .error .fuelExhausted

/-- Direct translation of `from_G_charges_and_quotient` (src lines 210-254).
Input `assert` statements become the error kinds of design section 7; the
two output-validation assertions on the constructed abacus are modelled as
checks producing `assertionFailed`. -/
def from_G_charges_and_quotient (charges : List Int) (quotient : Option (List (List Nat)))
    (r : Nat) (b : Int) : Except AbacusError (List Nat) :=
  if charges.length ≠ r then .error .shapeMismatch
  else if charges.sum ≠ 0 then .error .chargeImbalance
  else
    let build : Except AbacusError (Nat × List (List Nat)) :=
      match quotient with
      | none => .ok (0, List.replicate r [])
      | some q =>
        if q.length ≠ r then .error .shapeMismatch
        else
          match (q.map (fun mu => (to_dyck_word_min mu).length)).max? with
          | none => .error .runtimeError
          | some len2 => .ok (len2 / 2, q.map (fun mu => to_dyck_word mu (len2 / 2)))
    match build with
    | .error e => .error e
    | .ok (n, abacus0) =>
      match charges.max? with
      | none => .error .runtimeError
      | some c_max =>
        let abacus : List (List Nat) := (List.range r).map (fun i =>
          List.replicate (c_max - charges.getD i 0).toNat (1 : Nat) ++ abacus0.getD i [])
        if ((abacus.map List.length).sum : Int) ≠ (r : Int) * (2 * (n : Int) + c_max) then
          .error .assertionFailed
        else if ((abacus.map List.sum).sum : Int) ≠ (r : Int) * ((n : Int) + c_max) then
          .error .assertionFailed
        else from_G_abacus abacus (some r) b

/-- Direct translation of `from_G_core_and_quotient` (src lines 186-207). -/
def from_G_core_and_quotient (core : List Nat) (quotient : Option (List (List Nat)))
    (r : Nat) (b : Int) : Except AbacusError (List Nat) :=
  if is_G_core core r b then
    match quotient with
    | none => .ok core
    | some q => from_G_charges_and_quotient (G_charges core r b) (some q) r b
  else .error .notACore

/-- Direct translation of `PartitionExt.G_core` (src lines 120-130). -/
def G_core (p : List Nat) (r : Nat) (b : Int) : Except AbacusError (List Nat) :=
  from_G_charges_and_quotient (G_charges p r b) none r b

/-- The shared Dyck half-length used by `from_G_charges_and_quotient`
(`max(len(mu.to_dyck_word()) for mu in quotient) // 2`). -/
def quotient_n (q : List (List Nat)) : Nat :=
  ((q.map (fun mu => (to_dyck_word_min mu).length)).max?.getD 0) / 2

/-- The intermediate abacus constructed by `from_G_charges_and_quotient`
(src lines 236-248): each quotient partition encoded as a Dyck word of
half-length `quotient_n q`, with `max(charges) - charges[i]` extra ones on
the front of wire `i`. -/
def charges_quotient_abacus (charges : List Int) (q : List (List Nat)) (r : Nat) :
    List (List Nat) :=
  (List.range r).map (fun i =>
    List.replicate ((charges.max?.getD 0) - charges.getD i 0).toNat (1 : Nat)
      ++ (q.map (fun mu => to_dyck_word mu (quotient_n q))).getD i [])

/-- Number of 1 symbols stored on an abacus. -/
def abacusOnes (abacus : List (List Nat)) : Nat :=
  (abacus.map List.sum).sum

/-- Number of stored symbols of an abacus. -/
def abacusSize (abacus : List (List Nat)) : Nat :=
  (abacus.map List.length).sum

/-- Two abaci are equal up to trailing zeros when corresponding wires agree
after padding each with enough trailing 0 symbols (the stored suffix of the
conceptually infinite zero tail of design section 3). -/
def eqUpToTrailZeros (A B : List (List Nat)) : Prop :=
  A.length = B.length ∧ ∀ i, ∃ x y,
    A.getD i [] ++ List.replicate x 0 = B.getD i [] ++ List.replicate y 0

/-- Number of consecutive east steps needed before the merge walk reaches a
nonempty wire (`r` when every wire is empty); the termination measure of
the merge loop. -/
def distToNonempty (r : Nat) (b : Int) (A : List (List Nat)) (w : Int) : Nat :=
  (((List.range r).filter
    (fun (t : Nat) => !(A.getD ((w + (t : Int) * b) % (r : Int)).toNat []).isEmpty)).headD r)

/-- Number of integers `cc` in `[1, T]` with `cc ≡ i (mod r)`: the counting
form of the reference distribution of `G_charges`. -/
def eCount (r T i : Nat) : Nat :=
  ((List.range T).filter (fun t => (t + 1) % r == i)).length

/-- Number of integers `cc` in `(T, T + L]` with `cc ≡ i (mod r)`: how many
of `L` extra leading 1 symbols land on wire `i`. -/
def uCount (r T L i : Nat) : Nat :=
  ((List.range L).filter (fun t => (T + 1 + t) % r == i)).length

/-- A wire whose stored word is a run of 1 symbols followed by a run of 0
symbols (the abacus shape characterizing generalized cores). -/
def isSortedWire (v : List Nat) : Prop :=
  ∃ x y, v = List.replicate x 1 ++ List.replicate y 0

/-- The wire index reached by the distribution walk after processing a
word, starting from wire `w0` (proof device for the hook theorem). -/
def walkFrom (r : Nat) (b : Int) : List Nat → Int → Int
  | [], w0 => w0
  | c :: s, w0 => walkFrom r b s (G_abacus_step r b w0 c)

/-- A 0 symbol stored strictly before a 1 symbol on the same wire: the
obstruction to being a generalized core. -/
def hasInversion (v : List Nat) : Prop :=
  ∃ t1 t2, t1 < t2 ∧ t2 < v.length ∧ v.getD t1 9 = 0 ∧ v.getD t2 9 = 1

/-! ### Basic facts about the stepping rule and the distribution loop -/

theorem from_G_abacus_step_eq (r : Nat) (b : Int) (wire : Int) (code : Nat) :
    from_G_abacus_step r b wire code = G_abacus_step r b wire code := rfl

theorem G_abacus_step_nonneg (r : Nat) (b : Int) (w : Int) (c : Nat) (hr : 0 < r) :
    0 ≤ G_abacus_step r b w c :=
  Int.emod_nonneg _ (by exact_mod_cast hr.ne')

theorem G_abacus_step_lt (r : Nat) (b : Int) (w : Int) (c : Nat) (hr : 0 < r) :
    G_abacus_step r b w c < r :=
  Int.emod_lt_of_pos _ (by exact_mod_cast hr)

theorem distributeFrom_nil (r : Nat) (b : Int) (A : List (List Nat)) (w : Int) :
    distributeFrom r b [] A w = (A, w) := rfl

theorem distributeFrom_cons (r : Nat) (b : Int) (c : Nat) (s : List Nat)
    (A : List (List Nat)) (w : Int) :
    distributeFrom r b (c :: s) A w
      = distributeFrom r b s (appendAt A w.toNat c) (G_abacus_step r b w c) := rfl

theorem appendAt_length (A : List (List Nat)) (w : Nat) (c : Nat) :
    (appendAt A w c).length = A.length := by
  simp [appendAt]

theorem distributeFrom_fst_length (r : Nat) (b : Int) (s : List Nat) :
    ∀ (A : List (List Nat)) (w : Int), ((distributeFrom r b s A w).1).length = A.length := by
  induction s with
  | nil => intro A w; rfl
  | cons c s ih =>
    intro A w
    rw [distributeFrom_cons, ih]
    exact appendAt_length A w.toNat c

theorem G_abacus_length (p : List Nat) (r : Nat) (b : Int) :
    (G_abacus p r b).length = r := by
  unfold G_abacus
  rw [distributeFrom_fst_length]
  exact List.length_replicate r []

theorem appendAt_ones (A : List (List Nat)) (c : Nat) :
    ∀ (w : Nat), w < A.length →
      abacusOnes (appendAt A w c) = abacusOnes A + c := by
  induction A with
  | nil => intro w h; simp at h
  | cons a A ih =>
    intro w h
    cases w with
    | zero => simp [appendAt, abacusOnes, List.set]; ring
    | succ w =>
      have h' : w < A.length := by simpa using h
      have hc : appendAt (a :: A) (w + 1) c = a :: appendAt A w c := by
        simp [appendAt, List.getD_cons_succ]
      rw [hc]
      have := ih w h'
      simp only [abacusOnes, List.map_cons, List.sum_cons] at this ⊢
      omega

theorem appendAt_size (A : List (List Nat)) (c : Nat) :
    ∀ (w : Nat), w < A.length →
      abacusSize (appendAt A w c) = abacusSize A + 1 := by
  induction A with
  | nil => intro w h; simp at h
  | cons a A ih =>
    intro w h
    cases w with
    | zero => simp [appendAt, abacusSize, List.set]; ring
    | succ w =>
      have h' : w < A.length := by simpa using h
      have hc : appendAt (a :: A) (w + 1) c = a :: appendAt A w c := by
        simp [appendAt, List.getD_cons_succ]
      rw [hc]
      have := ih w h'
      simp only [abacusSize, List.map_cons, List.sum_cons] at this ⊢
      omega

theorem distributeFrom_ones (r : Nat) (b : Int) (hr : 0 < r) (s : List Nat) :
    ∀ (A : List (List Nat)) (w : Int), A.length = r → 0 ≤ w → w < r →
      abacusOnes (distributeFrom r b s A w).1 = abacusOnes A + s.sum := by
  induction s with
  | nil => intro A w _ _ _; simp [distributeFrom, abacusOnes]
  | cons c s ih =>
    intro A w hA hw0 hwr
    rw [distributeFrom_cons,
      ih _ _ (by rw [appendAt_length]; exact hA)
        (G_abacus_step_nonneg r b w c hr) (G_abacus_step_lt r b w c hr),
      appendAt_ones A c w.toNat (by rw [hA]; omega)]
    simp; ring

theorem distributeFrom_size (r : Nat) (b : Int) (hr : 0 < r) (s : List Nat) :
    ∀ (A : List (List Nat)) (w : Int), A.length = r → 0 ≤ w → w < r →
      abacusSize (distributeFrom r b s A w).1 = abacusSize A + s.length := by
  induction s with
  | nil => intro A w _ _ _; simp [distributeFrom, abacusSize]
  | cons c s ih =>
    intro A w hA hw0 hwr
    rw [distributeFrom_cons,
      ih _ _ (by rw [appendAt_length]; exact hA)
        (G_abacus_step_nonneg r b w c hr) (G_abacus_step_lt r b w c hr),
      appendAt_size A c w.toNat (by rw [hA]; omega)]
    simp; ring

theorem G_abacus_start_nonneg (seq : List Nat) (r : Nat) (hr : 0 < r) :
    0 ≤ G_abacus_start seq r :=
  Int.emod_nonneg _ (by exact_mod_cast hr.ne')

theorem G_abacus_start_lt (seq : List Nat) (r : Nat) (hr : 0 < r) :
    G_abacus_start seq r < r :=
  Int.emod_lt_of_pos _ (by exact_mod_cast hr)

theorem G_abacus_ones (p : List Nat) (r : Nat) (b : Int) (hr : 0 < r) :
    abacusOnes (G_abacus p r b) = (invert_zero_one (zero_one_sequence p)).sum := by
  unfold G_abacus
  rw [distributeFrom_ones r b hr _ _ _ (List.length_replicate r [])
    (G_abacus_start_nonneg _ r hr) (G_abacus_start_lt _ r hr)]
  simp [abacusOnes, List.map_replicate]

theorem G_abacus_size (p : List Nat) (r : Nat) (b : Int) (hr : 0 < r) :
    abacusSize (G_abacus p r b) = (invert_zero_one (zero_one_sequence p)).length := by
  unfold G_abacus
  rw [distributeFrom_size r b hr _ _ _ (List.length_replicate r [])
    (G_abacus_start_nonneg _ r hr) (G_abacus_start_lt _ r hr)]
  simp [abacusSize, List.map_replicate]

theorem appendAt_binary (A : List (List Nat)) (w : Nat) (c : Nat) (hc : c ≤ 1)
    (hA : ∀ wire ∈ A, isBinary wire) :
    ∀ wire ∈ appendAt A w c, isBinary wire := by
  intro wire hw
  rcases List.mem_or_eq_of_mem_set hw with h | h
  · exact hA wire h
  · subst h
    intro x hx
    rcases List.mem_append.mp hx with h | h
    · by_cases hw : w < A.length
      · refine hA _ ?_ x h
        rw [List.getD_eq_getElem A [] hw]
        exact List.getElem_mem hw
      · rw [List.getD_eq_default A [] (by omega)] at h
        simp at h
    · simp at h; omega

theorem distributeFrom_binary (r : Nat) (b : Int) (s : List Nat) (hs : isBinary s) :
    ∀ (A : List (List Nat)) (w : Int), (∀ wire ∈ A, isBinary wire) →
      ∀ wire ∈ (distributeFrom r b s A w).1, isBinary wire := by
  induction s with
  | nil => intro A w hA; exact hA
  | cons c s ih =>
    intro A w hA
    rw [distributeFrom_cons]
    exact ih (fun x hx => hs x (List.mem_cons_of_mem c hx)) _ _
      (appendAt_binary A w.toNat c (hs c (List.mem_cons_self c s)) hA)

theorem invert_zero_one_binary (s : List Nat) : isBinary (invert_zero_one s) := by
  intro x hx
  rcases List.mem_map.mp hx with ⟨c, _, rfl⟩
  omega

theorem zero_one_sequence_binary (p : List Nat) : isBinary (zero_one_sequence p) := by
  intro x hx
  unfold zero_one_sequence at hx
  rcases List.mem_map.mp hx with ⟨t, _, rfl⟩
  split <;> omega

theorem G_abacus_binary (p : List Nat) (r : Nat) (b : Int) :
    ∀ wire ∈ G_abacus p r b, isBinary wire := by
  unfold G_abacus
  refine distributeFrom_binary r b _ (invert_zero_one_binary _) _ _ ?_
  intro wire hw
  rw [List.eq_of_mem_replicate hw]
  intro x hx
  simp at hx

theorem binary_sum_eq_count (l : List Nat) (hl : isBinary l) : l.sum = l.count 1 := by
  induction l with
  | nil => rfl
  | cons c l ih =>
    have hc := hl c (List.mem_cons_self c l)
    have ih' := ih (fun x hx => hl x (List.mem_cons_of_mem c hx))
    interval_cases c <;> simp [List.count_cons, ih'] <;> omega

/-- Sum of the reference distribution of `G_charges`: `r` copies of
`T / r` plus one extra for each index `i` with `0 < i ≤ T % r`. -/
theorem expected_sum_aux (D s : Nat) :
    ∀ n : Nat, ((List.range n).map (fun i => D + if 0 < i ∧ i ≤ s then 1 else 0)).sum
      = n * D + min s (n - 1) := by
  intro n
  induction n with
  | zero => simp
  | succ n ih =>
    rw [List.range_succ, List.map_append, List.sum_append, ih]
    simp only [List.map_cons, List.map_nil, List.sum_cons, List.sum_nil]
    have hD : (n + 1) * D = n * D + D := by ring
    split <;> omega

theorem expected_sum (T r : Nat) (hr : 0 < r) :
    ((List.range r).map (fun i => T / r + if 0 < i ∧ i ≤ T % r then 1 else 0)).sum = T := by
  rw [expected_sum_aux]
  have h1 : T % r < r := Nat.mod_lt _ hr
  have h2 : r * (T / r) + T % r = T := Nat.div_add_mod T r
  omega

theorem enumFrom_map_eq {β : Type} (g : Nat → List Nat → β) :
    ∀ (A : List (List Nat)) (k : Nat),
      (A.enumFrom k).map (fun iw => g iw.1 iw.2)
        = (List.range A.length).map (fun t => g (k + t) (A.getD t [])) := by
  intro A
  induction A with
  | nil => intro k; rfl
  | cons a A ih =>
    intro k
    simp only [List.enumFrom, List.map_cons, List.length_cons, List.range_succ_eq_map,
      List.map_map, ih (k + 1)]
    refine congrArg₂ _ (by simp) ?_
    refine List.map_congr_left ?_
    intro t _
    simp [Nat.add_comm, Nat.add_assoc, Nat.add_left_comm]

theorem getD_range_map {β : Type} [Inhabited β] (f : Nat → β) (n i : Nat) (d : β) (h : i < n) :
    ((List.range n).map f).getD i d = f i := by
  rw [List.getD_eq_getElem?_getD]
  simp [List.getElem?_map, List.getElem?_range h]

/-- Closed form of `G_charges`: entry `i` is the reference count minus the
number of 1 symbols stored on wire `i`. -/
theorem G_charges_eq (p : List Nat) (r : Nat) (b : Int) :
    G_charges p r b = (List.range r).map (fun i =>
      ((abacusOnes (G_abacus p r b) / r
          + if 0 < i ∧ i ≤ abacusOnes (G_abacus p r b) % r then 1 else 0 : Nat) : Int)
        - (((G_abacus p r b).getD i []).sum : Int)) := by
  have hlen := G_abacus_length p r b
  unfold G_charges
  dsimp only
  rw [show (G_abacus p r b).enum = (G_abacus p r b).enumFrom 0 from rfl,
    enumFrom_map_eq (fun i wire =>
      ((((List.range r).map (fun i => (List.map List.sum (G_abacus p r b)).sum / r
          + if 0 < i ∧ i ≤ (List.map List.sum (G_abacus p r b)).sum % r then 1 else 0)).getD i 0
        : Nat) : Int) - (wire.sum : Int)) (G_abacus p r b), hlen]
  simp only [Nat.zero_add]
  refine List.map_congr_left ?_
  intro i hi
  rw [List.mem_range] at hi
  rw [getD_range_map _ r i 0 hi]
  rfl

theorem G_charges_length (p : List Nat) (r : Nat) (b : Int) :
    (G_charges p r b).length = r := by
  unfold G_charges
  rw [List.length_map, List.enum_length]
  exact G_abacus_length p r b

/-! ### Claims C3, C4, C5, C6, C8 -/

/-- C3: the wire-stepping rule is one and the same in both directions.
The update rule written in `G_abacus` and the one written in
`from_G_abacus` are the same function `(wire + b*(1-code) - code) mod r`;
after a 0 it is `(wire + b) mod r`, after a 1 it is `(wire - 1) mod r`;
and both directions start at wire index `total_ones mod r`, where for the
builder `total_ones` counts the 1 symbols of the boundary word, and for
the merge step it counts the 1 symbols stored on the wires. -/
theorem C3_stepping_rule_shared :
    (∀ (r : Nat) (b : Int) (wire : Int) (code : Nat),
        from_G_abacus_step r b wire code = G_abacus_step r b wire code)
    ∧ (∀ (r : Nat) (b : Int) (wire : Int), G_abacus_step r b wire 0 = (wire + b) % (r : Int))
    ∧ (∀ (r : Nat) (b : Int) (wire : Int), G_abacus_step r b wire 1 = (wire - 1) % (r : Int))
    ∧ (∀ (seq : List Nat) (r : Nat), G_abacus_start seq r = ((seq.sum : Int)) % (r : Int))
    ∧ (∀ (abacus : List (List Nat)) (r : Nat),
        from_G_abacus_start abacus r = G_abacus_start abacus.flatten r) := by
  refine ⟨fun _ _ _ _ => rfl, ?_, ?_, fun _ _ => rfl, ?_⟩
  · intro r b wire
    unfold G_abacus_step
    norm_num
  · intro r b wire
    unfold G_abacus_step
    norm_num
  · intro abacus r
    unfold from_G_abacus_start G_abacus_start
    rw [List.sum_flatten]

theorem sum_map_sub (l : List Nat) (f g : Nat → Int) :
    (l.map (fun i => f i - g i)).sum = (l.map f).sum - (l.map g).sum := by
  induction l with
  | nil => simp
  | cons a l ih => simp [ih]; ring

theorem map_getD_self (A : List (List Nat)) :
    (List.range A.length).map (fun i => A.getD i []) = A := by
  induction A with
  | nil => rfl
  | cons a A ih =>
    rw [List.length_cons, List.range_succ_eq_map, List.map_cons, List.map_map]
    refine congrArg₂ _ rfl ?_
    rw [show ((fun i => (a :: A).getD i []) ∘ Nat.succ) = (fun i => A.getD i []) from rfl, ih]

theorem cast_sum_map (l : List Nat) (f : Nat → Nat) :
    (l.map (fun i => ((f i : Nat) : Int))).sum = (((l.map f).sum : Nat) : Int) := by
  induction l with
  | nil => rfl
  | cons a l ih => simp [ih]

theorem map_getD_sum (A : List (List Nat)) (r : Nat) (hA : A.length = r) :
    (List.range r).map (fun i => (A.getD i []).sum) = A.map List.sum := by
  subst hA
  rw [show (fun i => (A.getD i []).sum) = List.sum ∘ (fun i => A.getD i []) from rfl,
    ← List.map_map, map_getD_self]

/-- The charge coordinates always sum to zero (the source's internal
`assert sum(charges) == 0`). -/
theorem charges_sum_zero (p : List Nat) (r : Nat) (b : Int) (hr : 1 ≤ r) :
    (G_charges p r b).sum = 0 := by
  rw [G_charges_eq p r b, sum_map_sub]
  rw [cast_sum_map, cast_sum_map, expected_sum _ _ hr,
    map_getD_sum _ r (G_abacus_length p r b)]
  simp [abacusOnes]

/-- C4: for every partition, every `r ≥ 1` and every `b`, the charge
coordinates returned by `G_charges` sum to zero. -/
theorem C4_charges_sum_zero (p : List Nat) (r : Nat) (b : Int)
    (_hp : isPartition p) (hr : 1 ≤ r) :
    (G_charges p r b).sum = 0 :=
  charges_sum_zero p r b hr

/-- Witness for C4 at `p = [3,1]`, `r = 2`, `b = 1`. -/
theorem C4_charges_sum_zero_witness :
    isPartition [3, 1] ∧ 1 ≤ 2 ∧ (G_charges [3, 1] 2 1).sum = 0 :=
  ⟨by decide, by decide, C4_charges_sum_zero [3, 1] 2 1 (by decide) (by decide)⟩

theorem G_abacus_getD_binary (p : List Nat) (r : Nat) (b : Int) (i : Nat) :
    isBinary ((G_abacus p r b).getD i []) := by
  by_cases hi : i < (G_abacus p r b).length
  · refine G_abacus_binary p r b _ ?_
    rw [List.getD_eq_getElem _ [] hi]
    exact List.getElem_mem hi
  · rw [List.getD_eq_default _ [] (by omega)]
    intro x hx
    simp at hx

/-- C5: `G_charges` computes wire `i` as `expected[i]` minus the count of
1 symbols stored on wire `i`, where `expected[0] = floor(total/r)` and, for
`i ≥ 1`, `expected[i]` has one extra exactly when `i ≤ total mod r`: the
remainder surplus goes to the lowest-indexed wires after wire 0 and never
to wire 0 itself. -/
theorem C5_charges_formula (p : List Nat) (r : Nat) (b : Int)
    (_hp : isPartition p) (_hr : 1 ≤ r) :
    G_charges p r b = (List.range r).map (fun i =>
      ((if i = 0 then abacusOnes (G_abacus p r b) / r
        else abacusOnes (G_abacus p r b) / r
          + if i ≤ abacusOnes (G_abacus p r b) % r then 1 else 0 : Nat) : Int)
        - (((G_abacus p r b).getD i []).count 1 : Int)) := by
  rw [G_charges_eq]
  refine List.map_congr_left ?_
  intro i _
  rw [binary_sum_eq_count _ (G_abacus_getD_binary p r b i)]
  refine congrArg₂ _ (congrArg _ ?_) rfl
  rcases Nat.eq_zero_or_pos i with h0 | h0
  · simp [h0]
  · have : (0 < i) = True := by simp [h0]
    simp only [this, true_and, if_neg (by omega : ¬ i = 0)]

/-- Witness for C5 at `p = [3,1]`, `r = 2`, `b = 1`. -/
theorem C5_charges_formula_witness :
    isPartition [3, 1] ∧ 1 ≤ 2 ∧
      G_charges [3, 1] 2 1 = (List.range 2).map (fun i =>
        ((if i = 0 then abacusOnes (G_abacus [3, 1] 2 1) / 2
          else abacusOnes (G_abacus [3, 1] 2 1) / 2
            + if i ≤ abacusOnes (G_abacus [3, 1] 2 1) % 2 then 1 else 0 : Nat) : Int)
          - (((G_abacus [3, 1] 2 1).getD i []).count 1 : Int)) :=
  ⟨by decide, by decide, C5_charges_formula [3, 1] 2 1 (by decide) (by decide)⟩

/-- Cell criterion of `is_G_core`, as a reusable equivalence. -/
theorem is_G_core_iff_cells (p : List Nat) (r : Nat) (b : Int) :
    is_G_core p r b = true ↔
      ∀ i, i < p.length → ∀ j, j < p.getD i 0 →
        ¬ ((((conjugate p).getD j 0 : Int) - (i : Int) - 1
            - b * ((((p.getD i 0 : Int) - (j : Int) - 1) + 1))) % (r : Int) = 0) := by
  have harith : ∀ (x y : Int) (i j : Nat),
      x - ((i : Int) + 1) + (-b) * (y - (j : Int))
        = x - (i : Int) - 1 - b * (((y - (j : Int) - 1) + 1)) := by
    intro x y i j
    ring
  unfold is_G_core upper_hook_lengths
  dsimp only
  rw [Bool.not_eq_true', List.any_eq_false]
  constructor
  · intro h i hi j hj hcontra
    have h1 := h _ (List.mem_map.mpr ⟨i, List.mem_range.mpr hi, rfl⟩)
    rw [List.any_eq_true] at h1
    refine h1 ⟨_, List.mem_map.mpr ⟨j, List.mem_range.mpr hj, rfl⟩, ?_⟩
    rw [beq_iff_eq, harith]
    exact hcontra
  · intro h row hrow hany
    rcases List.mem_map.mp hrow with ⟨i, hi, rfl⟩
    rw [List.any_eq_true] at hany
    rcases hany with ⟨cell, hcell, hc⟩
    rcases List.mem_map.mp hcell with ⟨j, hj, rfl⟩
    rw [beq_iff_eq, harith] at hc
    exact h i (List.mem_range.mp hi) j (List.mem_range.mp hj) hc

/-- C6: `is_G_core p r b` holds exactly when no cell `(i, j)` of `p`
satisfies `(leg(i,j) - b*(arm(i,j)+1)) ≡ 0 (mod r)`, with
`arm(i,j) = p[i] - j - 1` and `leg(i,j) = conjugate(p)[j] - i - 1`. -/
theorem C6_is_core_iff (p : List Nat) (r : Nat) (b : Int)
    (_hp : isPartition p) (_hr : 1 ≤ r) :
    is_G_core p r b = true ↔
      ∀ i, i < p.length → ∀ j, j < p.getD i 0 →
        ¬ ((((conjugate p).getD j 0 : Int) - (i : Int) - 1
            - b * ((((p.getD i 0 : Int) - (j : Int) - 1) + 1))) % (r : Int) = 0) :=
  is_G_core_iff_cells p r b

/-! ### The boundary-word codec: recursive decomposition and round trip -/

theorem from_zero_one_eq_strip (s : List Nat) :
    from_zero_one s = stripTrailingZeros (partsRaw s) := rfl

theorem zero_one_sequence_eq (p : List Nat) :
    zero_one_sequence p = (List.range (p.headD 0 + p.length)).map
      (fun (t : Nat) =>
        if (tmpInt p).contains ((t : Int) - (p.length : Int) + 1) then 0 else 1) := rfl

theorem zero_one_sequence_length (p : List Nat) :
    (zero_one_sequence p).length = p.headD 0 + p.length := by
  rw [zero_one_sequence_eq, List.length_map, List.length_range]

theorem isPartition_tail (m : Nat) (q : List Nat) (h : isPartition (m :: q)) :
    isPartition q ∧ q.headD 0 ≤ m ∧ 0 < m := by
  obtain ⟨hmono, hpos⟩ := h
  refine ⟨⟨?_, ?_⟩, ?_, hpos m (List.mem_cons_self m q)⟩
  · intro i hi
    have := hmono (i + 1) (by simp only [List.length_cons]; omega)
    simpa using this
  · intro x hx; exact hpos x (List.mem_cons_of_mem m hx)
  · cases q with
    | nil => exact Nat.zero_le m
    | cons a q' =>
      have := hmono 0 (by simp)
      simpa using this

theorem isPartition_getD_mono (q : List Nat) (hq : isPartition q) :
    ∀ d i, q.getD (i + d) 0 ≤ q.getD i 0 := by
  intro d
  induction d with
  | zero => intro i; exact Nat.le_refl _
  | succ d ih =>
    intro i
    have h1 : q.getD (i + d + 1) 0 ≤ q.getD (i + d) 0 := by
      by_cases h : i + d < q.length
      · exact hq.1 _ h
      · rw [List.getD_eq_default _ _ (by omega)]
        exact Nat.zero_le _
    exact le_trans h1 (ih i)

theorem isPartition_getD_le_head (q : List Nat) (hq : isPartition q) (i : Nat) :
    q.getD i 0 ≤ q.headD 0 := by
  have h := isPartition_getD_mono q hq i 0
  rw [Nat.zero_add] at h
  cases q with
  | nil => simpa using h
  | cons a q' => simpa using h

theorem mem_tmpInt (p : List Nat) (x : Int) :
    x ∈ tmpInt p ↔ ∃ i, i < p.length ∧ (p.getD i 0 : Int) - (i : Int) = x := by
  unfold tmpInt
  simp only [List.mem_map, List.mem_range]

theorem tmpInt_le_head (p : List Nat) (hp : isPartition p) :
    ∀ x ∈ tmpInt p, x ≤ (p.headD 0 : Int) := by
  intro x hx
  rw [mem_tmpInt] at hx
  obtain ⟨i, _, rfl⟩ := hx
  have := isPartition_getD_le_head p hp i
  omega

theorem tmpInt_cons (m : Nat) (q : List Nat) :
    tmpInt (m :: q) = (m : Int) :: (tmpInt q).map (fun v => v - 1) := by
  unfold tmpInt
  rw [List.length_cons, List.range_succ_eq_map, List.map_cons, List.map_map, List.map_map]
  refine congrArg₂ _ (by simp) (List.map_congr_left ?_)
  intro i _
  simp only [Function.comp_apply, List.getD_cons_succ]
  push_cast
  ring

theorem contains_tmpInt_cons (m : Nat) (q : List Nat) (x : Int)
    (hx : x < (m : Int)) :
    (tmpInt (m :: q)).contains x = (tmpInt q).contains (x + 1) := by
  rw [Bool.eq_iff_iff, List.elem_iff, List.elem_iff, tmpInt_cons]
  simp only [List.mem_cons, List.mem_map]
  constructor
  · rintro (rfl | ⟨v, hv, rfl⟩)
    · omega
    · have : v = v - 1 + 1 := by ring
      rw [← this]; exact hv
  · intro h
    right
    exact ⟨x + 1, h, by ring⟩

/-- Recursive decomposition of the boundary word: prepending a largest part
`m` appends `m - q[0]` east steps and one north step (in the 1 = east
convention: ones and then a zero) to the word of the remaining rows. -/
theorem zero_one_sequence_cons (m : Nat) (q : List Nat) (hp : isPartition (m :: q)) :
    zero_one_sequence (m :: q)
      = zero_one_sequence q ++ (List.replicate (m - q.headD 0) 1 ++ [0]) := by
  obtain ⟨hq, hle, hm⟩ := isPartition_tail m q hp
  rw [zero_one_sequence_eq (m :: q)]
  have hlen : (m :: q).headD 0 + (m :: q).length
      = (q.headD 0 + q.length) + ((m - q.headD 0) + 1) := by
    simp only [List.headD_cons, List.length_cons]
    omega
  rw [hlen, List.range_add, List.map_append]
  refine congrArg₂ _ ?_ ?_
  · -- first block is the word of q
    rw [zero_one_sequence_eq q]
    refine List.map_congr_left ?_
    intro t ht
    rw [List.mem_range] at ht
    have harg : (t : Int) - ((m :: q).length : Int) + 1 = (t : Int) - (q.length : Int) := by
      simp only [List.length_cons]
      push_cast
      ring
    rw [harg, contains_tmpInt_cons m q _ (by push_cast; omega)]
  · -- second block: m - q[0] ones then the closing zero
    rw [List.map_map, List.range_succ, List.map_append]
    refine congrArg₂ _ ?_ ?_
    · -- the ones
      refine List.eq_replicate_iff.mpr ⟨by simp, ?_⟩
      intro c hc
      rcases List.mem_map.mp hc with ⟨u, hu, rfl⟩
      rw [List.mem_range] at hu
      simp only [Function.comp_apply]
      have harg : ((q.headD 0 + q.length + u : Nat) : Int) - ((m :: q).length : Int) + 1
          = (q.headD 0 : Int) + (u : Int) := by
        simp only [List.length_cons]
        push_cast
        ring
      rw [harg, contains_tmpInt_cons m q _ (by push_cast; omega)]
      have hfalse : (tmpInt q).contains ((q.headD 0 : Int) + (u : Int) + 1) = false := by
        rw [Bool.eq_false_iff]
        intro hmem
        rw [List.elem_iff] at hmem
        have := tmpInt_le_head q hq _ hmem
        omega
      rw [hfalse]
      rfl
    · -- the closing zero
      simp only [Function.comp_apply, List.map_cons, List.map_nil]
      have harg : ((q.headD 0 + q.length + (m - q.headD 0) : Nat) : Int)
          - ((m :: q).length : Int) + 1 = (m : Int) := by
        simp only [List.length_cons]
        push_cast [hle]
        ring
      rw [harg]
      have htrue : (tmpInt (m :: q)).contains (m : Int) = true := by
        rw [List.elem_iff, tmpInt_cons]
        exact List.mem_cons_self _ _
      rw [htrue]
      rfl

theorem zeroPositionsFrom_zero (s : List Nat) : zeroPositions s = zeroPositionsFrom 0 s := rfl

theorem zeroPositionsFrom_cons (k : Nat) (c : Nat) (s : List Nat) :
    zeroPositionsFrom k (c :: s)
      = (if c = 0 then [k] else []) ++ zeroPositionsFrom (k + 1) s := by
  unfold zeroPositionsFrom
  by_cases hc : c = 0 <;> simp [List.enumFrom, List.filter_cons, hc]

theorem zeroPositionsFrom_shift (s : List Nat) :
    ∀ k, zeroPositionsFrom k s = (zeroPositionsFrom 0 s).map (fun t => t + k) := by
  induction s with
  | nil => intro k; rfl
  | cons c s ih =>
    intro k
    rw [zeroPositionsFrom_cons, zeroPositionsFrom_cons, ih (k + 1), ih 1,
      List.map_append, List.map_map]
    refine congrArg₂ _ ?_ ?_
    · by_cases hc : c = 0 <;> simp [hc]
    · refine List.map_congr_left ?_
      intro t _
      simp only [Function.comp_apply]
      omega

theorem zeroPositionsFrom_append (s t : List Nat) :
    ∀ k, zeroPositionsFrom k (s ++ t)
      = zeroPositionsFrom k s ++ zeroPositionsFrom (k + s.length) t := by
  induction s with
  | nil => intro k; simp [zeroPositionsFrom]
  | cons c s ih =>
    intro k
    rw [List.cons_append, zeroPositionsFrom_cons, ih (k + 1), zeroPositionsFrom_cons,
      List.append_assoc]
    refine congrArg₂ _ rfl (congrArg₂ _ rfl ?_)
    refine congrArg₂ _ ?_ rfl
    simp only [List.length_cons]
    omega

theorem zeroPositions_append (s t : List Nat) :
    zeroPositions (s ++ t) = zeroPositions s ++ (zeroPositions t).map (fun u => u + s.length) := by
  rw [zeroPositionsFrom_zero, zeroPositionsFrom_append, ← zeroPositionsFrom_zero,
    Nat.zero_add, zeroPositionsFrom_shift, ← zeroPositionsFrom_zero]

theorem zeroPositions_replicate_one (a : Nat) : zeroPositions (List.replicate a 1) = [] := by
  rw [zeroPositionsFrom_zero]
  suffices h : ∀ k, zeroPositionsFrom k (List.replicate a 1) = [] from h 0
  induction a with
  | zero => intro k; rfl
  | succ a ih =>
    intro k
    rw [List.replicate_succ, zeroPositionsFrom_cons, ih]
    simp

/-- Appending `a` east steps and a north step to a word appends one zero
position, at offset `a` past the end of the word. -/
theorem zeroPositions_block (s : List Nat) (a : Nat) :
    zeroPositions (s ++ (List.replicate a 1 ++ [0])) = zeroPositions s ++ [a + s.length] := by
  rw [zeroPositions_append, zeroPositions_append, zeroPositions_replicate_one]
  have h0 : zeroPositions [0] = [0] := rfl
  rw [h0]
  simp [List.length_replicate]

theorem partsRaw_block (s : List Nat) (a : Nat) :
    partsRaw (s ++ (List.replicate a 1 ++ [0]))
      = (a + s.length - (zeroPositions s).length) :: partsRaw s := by
  unfold partsRaw
  rw [zeroPositions_block, List.length_append]
  simp only [List.length_singleton]
  rw [List.range_succ, List.map_append, List.reverse_append]
  simp only [List.map_cons, List.map_nil, List.reverse_cons, List.reverse_nil,
    List.nil_append, List.singleton_append]
  refine congrArg₂ _ ?_ ?_
  · rw [List.getD_append_right _ _ _ _ (Nat.le_refl _)]
    simp
  · refine congrArg _ (List.map_congr_left ?_)
    intro i hi
    rw [List.mem_range] at hi
    rw [List.getD_append _ _ _ _ hi]

theorem zeroPositions_length_seq (p : List Nat) (hp : isPartition p) :
    (zeroPositions (zero_one_sequence p)).length = p.length := by
  induction p with
  | nil => rfl
  | cons m q ih =>
    obtain ⟨hq, _, _⟩ := isPartition_tail m q hp
    rw [zero_one_sequence_cons m q hp, zeroPositions_block, List.length_append, ih hq]
    simp

theorem partsRaw_seq (p : List Nat) (hp : isPartition p) :
    partsRaw (zero_one_sequence p) = p := by
  induction p with
  | nil => rfl
  | cons m q ih =>
    obtain ⟨hq, hle, _⟩ := isPartition_tail m q hp
    rw [zero_one_sequence_cons m q hp, partsRaw_block, ih hq, zeroPositions_length_seq q hq,
      zero_one_sequence_length q]
    refine congrArg₂ _ ?_ rfl
    omega

theorem stripTrailingZeros_eq_self (p : List Nat) (hp : ∀ x ∈ p, 0 < x) :
    stripTrailingZeros p = p := by
  unfold stripTrailingZeros
  cases hrev : p.reverse with
  | nil =>
    have : p = [] := by simpa using congrArg List.reverse hrev
    subst this; rfl
  | cons a t =>
    have ha : a ∈ p := by
      rw [← List.mem_reverse, hrev]
      exact List.mem_cons_self a t
    have hfa : (a == 0) = false := by
      have := hp a ha
      simp only [beq_eq_false_iff_ne, ne_eq]
      omega
    have hd : List.dropWhile (fun x => x == 0) (a :: t) = a :: t := by
      rw [List.dropWhile_cons_of_neg]
      simp [hfa]
    rw [hd, ← hrev, List.reverse_reverse]

/-- The codec round trip: decoding the boundary word of a partition
recovers the partition. -/
theorem from_zero_one_zero_one_sequence (p : List Nat) (hp : isPartition p) :
    from_zero_one (zero_one_sequence p) = p := by
  rw [from_zero_one_eq_strip, partsRaw_seq p hp, stripTrailingZeros_eq_self p hp.2]

theorem zeroPositions_cons_length (c : Nat) (s : List Nat) :
    (zeroPositions (c :: s)).length
      = (if c = 0 then 1 else 0) + (zeroPositions s).length := by
  rw [zeroPositionsFrom_zero, zeroPositionsFrom_cons, List.length_append,
    zeroPositionsFrom_shift s 1, List.length_map, ← zeroPositionsFrom_zero]
  by_cases hc : c = 0 <;> simp [hc]

theorem invert_sum_eq_zeros (s : List Nat) (hs : isBinary s) :
    (invert_zero_one s).sum = (zeroPositions s).length := by
  induction s with
  | nil => rfl
  | cons c s ih =>
    have hc := hs c (List.mem_cons_self c s)
    have ih' := ih (fun x hx => hs x (List.mem_cons_of_mem c hx))
    rw [zeroPositions_cons_length]
    interval_cases c <;> simp [invert_zero_one] at ih' ⊢ <;> omega

/-- The inverted boundary word of a partition has one 1 symbol per row. -/
theorem seq_ones_count (p : List Nat) (hp : isPartition p) :
    (invert_zero_one (zero_one_sequence p)).sum = p.length := by
  rw [invert_sum_eq_zeros _ (zero_one_sequence_binary p), zeroPositions_length_seq p hp]

/-! ### Pointwise structure of the distribution loop -/

theorem getD_set_self (A : List (List Nat)) (w : Nat) (v : List Nat) (h : w < A.length) :
    (A.set w v).getD w [] = v := by
  simp [List.getD_eq_getElem?_getD, List.getElem?_set, h]

theorem getD_set_other (A : List (List Nat)) (w : Nat) (v : List Nat) (i : Nat) (h : i ≠ w) :
    (A.set w v).getD i [] = A.getD i [] := by
  have hws : ¬ (w = i) := fun hh => h hh.symm
  simp [List.getD_eq_getElem?_getD, List.getElem?_set, hws]

theorem getD_replicate_nil (r i : Nat) : (List.replicate r ([] : List Nat)).getD i [] = [] := by
  by_cases h : i < r
  · simp [List.getD_eq_getElem?_getD, List.getElem?_replicate, h]
  · rw [List.getD_eq_default _ _ (by simp only [List.length_replicate]; omega)]

theorem appendAt_getD (A : List (List Nat)) (w c i : Nat) (hw : w < A.length) :
    (appendAt A w c).getD i [] = if i = w then A.getD i [] ++ [c] else A.getD i [] := by
  unfold appendAt
  by_cases h : i = w
  · subst h; rw [getD_set_self _ _ _ hw, if_pos rfl]
  · rw [getD_set_other _ _ _ _ h, if_neg h]

theorem distributeFrom_getD (r : Nat) (b : Int) (hr : 0 < r) (s : List Nat) :
    ∀ (A : List (List Nat)) (w : Int), A.length = r → 0 ≤ w → w < r → ∀ i,
      ((distributeFrom r b s A w).1).getD i []
        = A.getD i [] ++ ((distributeFrom r b s (List.replicate r []) w).1).getD i [] := by
  induction s with
  | nil =>
    intro A w _ _ _ i
    rw [distributeFrom_nil, distributeFrom_nil]
    simp [getD_replicate_nil]
  | cons c s ih =>
    intro A w hA hw0 hwr i
    have hwnat : w.toNat < r := by omega
    rw [distributeFrom_cons, distributeFrom_cons]
    rw [ih (appendAt A w.toNat c) _ (by rw [appendAt_length]; exact hA)
      (G_abacus_step_nonneg r b w c hr) (G_abacus_step_lt r b w c hr) i]
    rw [ih (appendAt (List.replicate r []) w.toNat c) _
      (by rw [appendAt_length]; exact List.length_replicate r [])
      (G_abacus_step_nonneg r b w c hr) (G_abacus_step_lt r b w c hr) i]
    rw [appendAt_getD A w.toNat c i (by omega),
      appendAt_getD (List.replicate r []) w.toNat c i
        (by rw [List.length_replicate]; exact hwnat)]
    by_cases h : i = w.toNat
    · simp [h, getD_replicate_nil]
    · simp [h, getD_replicate_nil]

theorem distributeFrom_cons_getD (r : Nat) (b : Int) (hr : 0 < r) (c : Nat) (s : List Nat)
    (w : Int) (hw0 : 0 ≤ w) (hwr : w < r) (i : Nat) :
    ((distributeFrom r b (c :: s) (List.replicate r []) w).1).getD i []
      = (if i = w.toNat then
          c :: ((distributeFrom r b s (List.replicate r [])
            (G_abacus_step r b w c)).1).getD i []
        else ((distributeFrom r b s (List.replicate r [])
          (G_abacus_step r b w c)).1).getD i []) := by
  have hwnat : w.toNat < r := by omega
  rw [distributeFrom_cons]
  rw [distributeFrom_getD r b hr s _ _ (by rw [appendAt_length]; exact List.length_replicate r [])
    (G_abacus_step_nonneg r b w c hr) (G_abacus_step_lt r b w c hr) i]
  rw [appendAt_getD (List.replicate r []) w.toNat c i
    (by rw [List.length_replicate]; exact hwnat)]
  by_cases h : i = w.toNat
  · simp [h, getD_replicate_nil]
  · simp [h, getD_replicate_nil]

/-! ### Trailing-zero normal forms of words -/

theorem stripTrailingZeros_nil : stripTrailingZeros [] = [] := rfl

theorem dropWhile_zero_append (u v : List Nat) (h : ∃ x ∈ u, x ≠ 0) :
    List.dropWhile (fun x => x == 0) (u ++ v)
      = List.dropWhile (fun x => x == 0) u ++ v := by
  induction u with
  | nil => simp at h
  | cons a u ih =>
    by_cases ha : a = 0
    · subst ha
      rw [List.cons_append, List.dropWhile_cons_of_pos (by simp),
        List.dropWhile_cons_of_pos (by simp)]
      refine ih ?_
      rcases h with ⟨x, hx, hxne⟩
      rcases List.mem_cons.mp hx with rfl | hx'
      · omega
      · exact ⟨x, hx', hxne⟩
    · rw [List.cons_append, List.dropWhile_cons_of_neg (by simp [ha]),
        List.dropWhile_cons_of_neg (by simp [ha])]
      rfl

theorem dropWhile_zero_append_all (u v : List Nat) (h : ∀ x ∈ u, x = 0) :
    List.dropWhile (fun x => x == 0) (u ++ v) = List.dropWhile (fun x => x == 0) v := by
  induction u with
  | nil => rfl
  | cons a u ih =>
    rw [List.cons_append, List.dropWhile_cons_of_pos
      (by simp [h a (List.mem_cons_self a u)])]
    exact ih (fun x hx => h x (List.mem_cons_of_mem a hx))

theorem stripTrailingZeros_of_sum_zero (s : List Nat) (h : s.sum = 0) :
    stripTrailingZeros s = [] := by
  have hall : ∀ x ∈ s, x = 0 := List.sum_eq_zero_iff.mp h
  unfold stripTrailingZeros
  have hd : List.dropWhile (fun x => x == 0) s.reverse = [] := by
    rw [List.dropWhile_eq_nil_iff]
    intro x hx
    simp [hall x (List.mem_reverse.mp hx)]
  rw [hd]
  rfl

theorem stripTrailingZeros_cons_of_sum_pos (c : Nat) (s : List Nat) (h : 0 < s.sum) :
    stripTrailingZeros (c :: s) = c :: stripTrailingZeros s := by
  have hex : ∃ x ∈ s.reverse, x ≠ 0 := by
    by_contra hc
    push_neg at hc
    have : s.reverse.sum = 0 := List.sum_eq_zero_iff.mpr (fun x hx => hc x hx)
    rw [List.sum_reverse] at this
    omega
  unfold stripTrailingZeros
  rw [List.reverse_cons, dropWhile_zero_append _ _ hex, List.reverse_append]
  simp

theorem strip_cons_sum_pos (c : Nat) (s : List Nat) (hcs : 0 < c + s.sum) :
    stripTrailingZeros (c :: s) = c :: stripTrailingZeros s := by
  rcases Nat.eq_zero_or_pos s.sum with h0 | hpos
  · have hc : 0 < c := by omega
    rw [stripTrailingZeros_of_sum_zero s h0]
    unfold stripTrailingZeros
    rw [List.reverse_cons, dropWhile_zero_append_all _ _
      (fun x hx => List.sum_eq_zero_iff.mp h0 x (List.mem_reverse.mp hx))]
    rw [List.dropWhile_cons_of_neg (by simp; omega)]
    rfl
  · exact stripTrailingZeros_cons_of_sum_pos c s hpos

theorem eqUpToTrailZeros_refl (A : List (List Nat)) : eqUpToTrailZeros A A :=
  ⟨rfl, fun _ => ⟨0, 0, rfl⟩⟩

/-! ### The merge loop replays the distribution walk -/

/-- Lockstep replay: merging any abacus that agrees, up to trailing zeros
on each wire, with the distribution of a word `s` started at wire `w`,
emits exactly `s` shorn of its trailing zeros, and reads all its ones. -/
theorem mergeRun_lockstep (r : Nat) (b : Int) (hr : 0 < r) :
    ∀ (s : List Nat), ∀ (w : Int), 0 ≤ w → w < r →
    ∀ (B : List (List Nat)),
      eqUpToTrailZeros B (distributeFrom r b s (List.replicate r []) w).1 →
    ∀ (out : List Nat) (read total fuel : Nat),
      read + s.sum = total →
      (stripTrailingZeros s).length ≤ fuel →
      ∃ st : MState,
        mergeRun r b total fuel (MState.mk B w out read) = some st
          ∧ st.out = out ++ stripTrailingZeros s ∧ st.read = total := by
  intro s
  induction s with
  | nil =>
    intro w _ _ B _ out read total fuel hread _
    have hnr : ¬ read < total := by simp at hread; omega
    refine ⟨MState.mk B w out read, ?_, by simp [stripTrailingZeros_nil], ?_⟩
    · cases fuel with
      | zero => simp only [mergeRun, if_neg hnr]
      | succ f => simp only [mergeRun, if_neg hnr]
    · simp at hread ⊢; omega
  | cons c s ih =>
    intro w hw0 hwr B hB out read total fuel hread hfuel
    have hBlen : B.length = r := by
      have h1 := hB.1
      rw [distributeFrom_fst_length, List.length_replicate] at h1
      exact h1
    rcases Nat.eq_zero_or_pos ((c :: s).sum) with hz | hpos
    · have hnr : ¬ read < total := by omega
      have hstrip : stripTrailingZeros (c :: s) = [] := stripTrailingZeros_of_sum_zero _ hz
      refine ⟨MState.mk B w out read, ?_, by simp [hstrip], by show read = total; omega⟩
      cases fuel with
      | zero => simp only [mergeRun, if_neg hnr]
      | succ f => simp only [mergeRun, if_neg hnr]
    · have hread' : read < total := by
        have : (c :: s).sum = c + s.sum := by simp
        omega
      have hstrip : stripTrailingZeros (c :: s) = c :: stripTrailingZeros s :=
        strip_cons_sum_pos c s (by simpa using hpos)
      obtain ⟨f, rfl⟩ : ∃ f, fuel = f + 1 := by
        have h1 : 1 ≤ (stripTrailingZeros (c :: s)).length := by
          rw [hstrip]
          simp
        exact ⟨fuel - 1, by omega⟩
      have hfuel' : (stripTrailingZeros s).length ≤ f := by
        rw [hstrip] at hfuel
        simp only [List.length_cons] at hfuel
        omega
      rw [show mergeRun r b total (f + 1) (MState.mk B w out read)
          = mergeRun r b total f (mergeStep r b (MState.mk B w out read)) from by
        simp only [mergeRun, if_pos hread']]
      obtain ⟨x, y, hxy⟩ := hB.2 w.toNat
      have hD := distributeFrom_cons_getD r b hr c s w hw0 hwr w.toNat
      rw [if_pos rfl] at hD
      rw [hD] at hxy
      cases hBw : B.getD w.toNat [] with
      | nil =>
        rw [hBw, List.nil_append, List.cons_append] at hxy
        obtain ⟨x', rfl⟩ : ∃ x', x = x' + 1 := by
          cases x with
          | zero => simp at hxy
          | succ x' => exact ⟨x', rfl⟩
        rw [List.replicate_succ] at hxy
        have hc0 : (0 : Nat) = c := (List.cons.injEq _ _ _ _).mp hxy |>.1
        subst hc0
        have htl : List.replicate x' 0
            = ((distributeFrom r b s (List.replicate r [])
                (G_abacus_step r b w 0)).1).getD w.toNat [] ++ List.replicate y 0 :=
          (List.cons.injEq _ _ _ _).mp hxy |>.2
        have hstep : mergeStep r b (MState.mk B w out read)
            = MState.mk B (from_G_abacus_step r b w 0) (out ++ [0]) read := by
          unfold mergeStep
          dsimp only
          rw [hBw]
        rw [hstep, from_G_abacus_step_eq]
        have hrel : eqUpToTrailZeros B
            (distributeFrom r b s (List.replicate r []) (G_abacus_step r b w 0)).1 := by
          refine ⟨?_, ?_⟩
          · rw [distributeFrom_fst_length, List.length_replicate, hBlen]
          · intro i
            by_cases hi : i = w.toNat
            · subst hi
              rw [hBw]
              exact ⟨x', y, by rw [List.nil_append]; exact htl⟩
            · obtain ⟨x2, y2, hxy2⟩ := hB.2 i
              have hDi := distributeFrom_cons_getD r b hr 0 s w hw0 hwr i
              rw [if_neg hi] at hDi
              rw [hDi] at hxy2
              exact ⟨x2, y2, hxy2⟩
        obtain ⟨st, hrun, hout, hrd⟩ := ih (G_abacus_step r b w 0)
          (G_abacus_step_nonneg r b w 0 hr) (G_abacus_step_lt r b w 0 hr) B hrel
          (out ++ [0]) read total f (by simp at hread; omega) hfuel'
        refine ⟨st, hrun, ?_, hrd⟩
        rw [hout, hstrip]
        simp
      | cons c' rest =>
        rw [hBw, List.cons_append, List.cons_append] at hxy
        have hc' : c' = c := (List.cons.injEq _ _ _ _).mp hxy |>.1
        have htl : rest ++ List.replicate x 0
            = ((distributeFrom r b s (List.replicate r [])
                (G_abacus_step r b w c)).1).getD w.toNat [] ++ List.replicate y 0 :=
          (List.cons.injEq _ _ _ _).mp hxy |>.2
        subst hc'
        have hstep : mergeStep r b (MState.mk B w out read)
            = MState.mk (B.set w.toNat rest) (from_G_abacus_step r b w c')
                (out ++ [c']) (read + c') := by
          unfold mergeStep
          dsimp only
          rw [hBw]
        rw [hstep, from_G_abacus_step_eq]
        have hrel : eqUpToTrailZeros (B.set w.toNat rest)
            (distributeFrom r b s (List.replicate r []) (G_abacus_step r b w c')).1 := by
          refine ⟨?_, ?_⟩
          · rw [distributeFrom_fst_length, List.length_replicate, List.length_set, hBlen]
          · intro i
            by_cases hi : i = w.toNat
            · subst hi
              rw [getD_set_self _ _ _ (by rw [hBlen]; omega)]
              exact ⟨x, y, htl⟩
            · rw [getD_set_other _ _ _ _ hi]
              obtain ⟨x2, y2, hxy2⟩ := hB.2 i
              have hDi := distributeFrom_cons_getD r b hr c' s w hw0 hwr i
              rw [if_neg hi] at hDi
              rw [hDi] at hxy2
              exact ⟨x2, y2, hxy2⟩
        obtain ⟨st, hrun, hout, hrd⟩ := ih (G_abacus_step r b w c')
          (G_abacus_step_nonneg r b w c' hr) (G_abacus_step_lt r b w c' hr)
          (B.set w.toNat rest) hrel (out ++ [c']) (read + c') total f
          (by simp at hread; omega) hfuel'
        refine ⟨st, hrun, ?_, hrd⟩
        rw [hout, hstrip]
        simp

theorem invert_invert (s : List Nat) (hs : isBinary s) :
    invert_zero_one (invert_zero_one s) = s := by
  induction s with
  | nil => rfl
  | cons c s ih =>
    have hc := hs c (List.mem_cons_self c s)
    have h2 := ih (fun x hx => hs x (List.mem_cons_of_mem c hx))
    unfold invert_zero_one at h2 ⊢
    simp only [List.map_cons, List.cons.injEq]
    exact ⟨by omega, h2⟩

theorem strip_append_one (u : List Nat) :
    stripTrailingZeros (u ++ [1]) = u ++ [1] := by
  unfold stripTrailingZeros
  have h1 : (u ++ [1]).reverse = 1 :: u.reverse := by simp
  rw [h1, List.dropWhile_cons_of_neg (by simp)]
  rw [← h1, List.reverse_reverse]

/-- The inverted boundary word of a partition has no trailing zeros: it is
empty, or it ends with the 1 closing the first row. -/
theorem seq_strip (p : List Nat) (hp : isPartition p) :
    stripTrailingZeros (invert_zero_one (zero_one_sequence p))
      = invert_zero_one (zero_one_sequence p) := by
  cases p with
  | nil => rfl
  | cons m q =>
    rw [zero_one_sequence_cons m q hp]
    unfold invert_zero_one
    rw [List.map_append, List.map_append,
      show List.map (fun code => 1 - code) [0] = [1] from rfl, ← List.append_assoc]
    exact strip_append_one _

/-- C1: rebuilding a partition from its own abacus inverts the
construction, for every partition, every `r ≥ 1` and every `b` coprime
to `r`. -/
theorem C1_round_trip_abacus (p : List Nat) (r : Nat) (b : Int)
    (hp : isPartition p) (hr : 1 ≤ r) (hgcd : Int.gcd (r : Int) b = 1) :
    from_G_abacus (G_abacus p r b) (some r) b = Except.ok p := by
  have hr0 : 0 < r := hr
  have hones : abacusOnes (G_abacus p r b) = (invert_zero_one (zero_one_sequence p)).sum :=
    G_abacus_ones p r b hr0
  have hsize : abacusSize (G_abacus p r b) = (invert_zero_one (zero_one_sequence p)).length :=
    G_abacus_size p r b hr0
  have hB : G_abacus p r b
      = (distributeFrom r b (invert_zero_one (zero_one_sequence p)) (List.replicate r [])
          (G_abacus_start (invert_zero_one (zero_one_sequence p)) r)).1 := rfl
  have hstart : from_G_abacus_start (G_abacus p r b) r
      = G_abacus_start (invert_zero_one (zero_one_sequence p)) r := by
    unfold from_G_abacus_start G_abacus_start
    unfold abacusOnes at hones
    rw [hones]
  have hstrip : stripTrailingZeros (invert_zero_one (zero_one_sequence p))
      = invert_zero_one (zero_one_sequence p) := seq_strip p hp
  have hfuel : (stripTrailingZeros (invert_zero_one (zero_one_sequence p))).length
      ≤ r * ((List.map List.length (G_abacus p r b)).sum + 1) := by
    rw [hstrip]
    unfold abacusSize at hsize
    rw [hsize]
    calc (invert_zero_one (zero_one_sequence p)).length
        ≤ 1 * ((invert_zero_one (zero_one_sequence p)).length + 1) := by omega
      _ ≤ r * ((invert_zero_one (zero_one_sequence p)).length + 1) :=
          Nat.mul_le_mul_right _ hr
  obtain ⟨st, hrun, hout, hread⟩ := mergeRun_lockstep r b hr0
    (invert_zero_one (zero_one_sequence p))
    (G_abacus_start (invert_zero_one (zero_one_sequence p)) r)
    (G_abacus_start_nonneg _ r hr0) (G_abacus_start_lt _ r hr0)
    (G_abacus p r b) (hB ▸ eqUpToTrailZeros_refl (G_abacus p r b))
    [] 0 ((List.map List.sum (G_abacus p r b)).sum)
    (r * ((List.map List.length (G_abacus p r b)).sum + 1))
    (by unfold abacusOnes at hones; omega) hfuel
  unfold from_G_abacus
  dsimp only
  rw [Option.getD_some]
  rw [if_neg (by simp [hgcd])]
  rw [if_neg (by omega : ¬ r = 0)]
  rw [hstart, hrun]
  show Except.ok (from_zero_one (invert_zero_one st.out)) = Except.ok p
  rw [hout, hstrip, List.nil_append]
  rw [invert_invert (zero_one_sequence p) (zero_one_sequence_binary p)]
  rw [from_zero_one_zero_one_sequence p hp]

/-- Witness for C1 at the design document's concrete example 2:
`p = [3,1]`, `r = 2`, `b = 1`. -/
theorem C1_round_trip_abacus_witness :
    isPartition [3, 1] ∧ 1 ≤ 2 ∧ Int.gcd (2 : Int) 1 = 1
      ∧ from_G_abacus (G_abacus [3, 1] 2 1) (some 2) 1 = Except.ok [3, 1] :=
  ⟨by decide, by decide, by decide,
    C1_round_trip_abacus [3, 1] 2 1 (by decide) (by decide) (by decide)⟩

/-! ### Termination of the merge loop under coprimality -/

/-- Coprimality makes the east-stepping walk hit every wire within `r`
steps: this is the reason the source requires `gcd(r, b) == 1`. -/
theorem exists_step_hit (r : Nat) (hr : 0 < r) (b : Int) (hgcd : Int.gcd (r : Int) b = 1)
    (w : Int) (i : Nat) (hi : i < r) :
    ∃ t, t < r ∧ ((w + (t : Int) * b) % (r : Int)).toNat = i := by
  have hrz : (r : Int) ≠ 0 := by exact_mod_cast hr.ne'
  have hrpos : (0 : Int) < r := by exact_mod_cast hr
  let f : Fin r → Fin r := fun t =>
    ⟨((w + (t : Int) * b) % (r : Int)).toNat, by
      have h1 := Int.emod_nonneg (w + (t : Int) * b) hrz
      have h2 := Int.emod_lt_of_pos (w + (t : Int) * b) hrpos
      omega⟩
  have hinj : Function.Injective f := by
    intro t1 t2 heq
    have hv : ((w + (t1 : Int) * b) % (r : Int)).toNat
        = ((w + (t2 : Int) * b) % (r : Int)).toNat := congrArg Fin.val heq
    have h1 := Int.emod_nonneg (w + (t1 : Int) * b) hrz
    have h2 := Int.emod_nonneg (w + (t2 : Int) * b) hrz
    have hmod : (w + (t1 : Int) * b) % (r : Int) = (w + (t2 : Int) * b) % (r : Int) := by
      omega
    rw [Int.emod_eq_emod_iff_emod_sub_eq_zero] at hmod
    have hdvd : (r : Int) ∣ ((t1 : Int) - (t2 : Int)) * b := by
      have h3 := Int.dvd_of_emod_eq_zero hmod
      have h4 : w + (t1 : Int) * b - (w + (t2 : Int) * b) = ((t1 : Int) - (t2 : Int)) * b := by
        ring
      rwa [h4] at h3
    have hcop : IsCoprime (r : Int) b := Int.gcd_eq_one_iff_coprime.mp hgcd
    have hdvd2 : (r : Int) ∣ ((t1 : Int) - (t2 : Int)) := hcop.dvd_of_dvd_mul_right hdvd
    have hzero : ((t1 : Int) - (t2 : Int)) = 0 := by
      refine Int.eq_zero_of_abs_lt_dvd hdvd2 ?_
      have ht1 := t1.isLt
      have ht2 := t2.isLt
      rw [abs_lt]
      constructor <;> [skip; skip] <;> push_cast <;> omega
    have : (t1 : Nat) = (t2 : Nat) := by omega
    exact Fin.ext this
  have hsurj : Function.Surjective f := Finite.injective_iff_surjective.mp hinj
  obtain ⟨t, ht⟩ := hsurj ⟨i, hi⟩
  exact ⟨t, t.isLt, congrArg Fin.val ht⟩

/-- Characterization of the head of a filtered range: either nothing below
`n` satisfies the test and the default is returned, or it is the least
index satisfying the test. -/
theorem filter_range_headD (p : Nat → Bool) :
    ∀ n : Nat,
      ((((List.range n).filter p).headD n = n ∧ ∀ t, t < n → p t = false)
      ∨ ((((List.range n).filter p).headD n) < n
          ∧ p (((List.range n).filter p).headD n) = true
          ∧ ∀ t, t < ((List.range n).filter p).headD n → p t = false)) := by
  intro n
  induction n with
  | zero => exact Or.inl ⟨rfl, fun t ht => absurd ht (Nat.not_lt_zero t)⟩
  | succ n ih =>
    rw [List.range_succ, List.filter_append]
    cases hL : (List.range n).filter p with
    | nil =>
      rw [hL] at ih
      have hall : ∀ t, t < n → p t = false := by
        rcases ih with ⟨_, h⟩ | ⟨hlt, _, _⟩
        · exact h
        · rw [List.headD_nil] at hlt
          exact absurd hlt (lt_irrefl n)
      cases hpn : p n with
      | true =>
        have hfil : List.filter p [n] = [n] := by simp [List.filter_singleton, hpn]
        rw [hfil, List.nil_append, List.headD_cons]
        exact Or.inr ⟨Nat.lt_succ_self n, hpn, hall⟩
      | false =>
        have hfil : List.filter p [n] = [] := by simp [List.filter_singleton, hpn]
        rw [hfil, List.nil_append, List.headD_nil]
        refine Or.inl ⟨rfl, ?_⟩
        intro t ht
        rcases Nat.lt_succ_iff_lt_or_eq.mp ht with h | rfl
        · exact hall t h
        · exact hpn
    | cons a L' =>
      have ha : a ∈ (List.range n).filter p := by
        rw [hL]
        exact List.mem_cons_self a L'
      have haa := List.mem_filter.mp ha
      have han : a < n := List.mem_range.mp haa.1
      have hpa : p a = true := haa.2
      rw [hL] at ih
      rcases ih with ⟨heq, _⟩ | ⟨_, _, hbelow⟩
      · rw [List.headD_cons] at heq
        rw [heq] at han
        exact absurd han (lt_irrefl n)
      · rw [List.headD_cons] at hbelow
        rw [List.cons_append, List.headD_cons]
        exact Or.inr ⟨by omega, hpa, hbelow⟩

theorem distToNonempty_eq_headD (r : Nat) (b : Int) (A : List (List Nat)) (w : Int) :
    distToNonempty r b A w
      = (((List.range r).filter
          (fun (t : Nat) => !(A.getD ((w + (t : Int) * b) % (r : Int)).toNat []).isEmpty)).headD
        r) := rfl

theorem distToNonempty_le (r : Nat) (b : Int) (A : List (List Nat)) (w : Int) :
    distToNonempty r b A w ≤ r := by
  rw [distToNonempty_eq_headD]
  rcases filter_range_headD
      (fun (t : Nat) => !(A.getD ((w + (t : Int) * b) % (r : Int)).toNat []).isEmpty) r with
    ⟨h, _⟩ | ⟨h, _, _⟩
  · omega
  · omega

theorem distToNonempty_lt (r : Nat) (hr : 0 < r) (b : Int)
    (hgcd : Int.gcd (r : Int) b = 1) (A : List (List Nat)) (w : Int)
    (hex : ∃ i, i < r ∧ A.getD i [] ≠ []) :
    distToNonempty r b A w < r := by
  obtain ⟨i, hi, hne⟩ := hex
  obtain ⟨t, htr, hteq⟩ := exists_step_hit r hr b hgcd w i hi
  have hPt : (!(A.getD ((w + (t : Int) * b) % (r : Int)).toNat []).isEmpty) = true := by
    rw [hteq]
    cases hAi : A.getD i [] with
    | nil => exact absurd hAi hne
    | cons c l => rfl
  rw [distToNonempty_eq_headD]
  rcases filter_range_headD
      (fun (t : Nat) => !(A.getD ((w + (t : Int) * b) % (r : Int)).toNat []).isEmpty) r with
    ⟨_, hall⟩ | ⟨h, _, _⟩
  · rw [hall t htr] at hPt
    exact absurd hPt (by simp)
  · exact h

theorem distToNonempty_zero_of_nonempty (r : Nat) (hr : 0 < r) (b : Int)
    (A : List (List Nat)) (w : Int) (hw0 : 0 ≤ w) (hwr : w < r)
    (hne : A.getD w.toNat [] ≠ []) :
    distToNonempty r b A w = 0 := by
  have harg : (w + ((0 : Nat) : Int) * b) % (r : Int) = w := by
    rw [show w + ((0 : Nat) : Int) * b = w by push_cast; ring]
    exact Int.emod_eq_of_lt hw0 hwr
  have hP0 : (!(A.getD ((w + ((0 : Nat) : Int) * b) % (r : Int)).toNat []).isEmpty) = true := by
    rw [harg]
    cases hAi : A.getD w.toNat [] with
    | nil => exact absurd hAi hne
    | cons c l => rfl
  rw [distToNonempty_eq_headD]
  rcases filter_range_headD
      (fun (t : Nat) => !(A.getD ((w + (t : Int) * b) % (r : Int)).toNat []).isEmpty) r with
    ⟨_, hall⟩ | ⟨_, _, hbelow⟩
  · rw [hall 0 hr] at hP0
    exact absurd hP0 (by simp)
  · by_contra hnz
    have := hbelow 0 (by omega)
    rw [this] at hP0
    exact absurd hP0 (by simp)

theorem distToNonempty_pos_of_empty (r : Nat) (hr : 0 < r) (b : Int)
    (A : List (List Nat)) (w : Int) (hw0 : 0 ≤ w) (hwr : w < r)
    (hemp : A.getD w.toNat [] = []) :
    distToNonempty r b A w ≠ 0 := by
  have harg : (w + ((0 : Nat) : Int) * b) % (r : Int) = w := by
    rw [show w + ((0 : Nat) : Int) * b = w by push_cast; ring]
    exact Int.emod_eq_of_lt hw0 hwr
  have hP0 : (!(A.getD ((w + ((0 : Nat) : Int) * b) % (r : Int)).toNat []).isEmpty) = false := by
    rw [harg, hemp]
    rfl
  intro hz
  rw [distToNonempty_eq_headD] at hz
  rcases filter_range_headD
      (fun (t : Nat) => !(A.getD ((w + (t : Int) * b) % (r : Int)).toNat []).isEmpty) r with
    ⟨heq, _⟩ | ⟨_, hP, _⟩
  · rw [hz] at heq
    omega
  · rw [hz, hP0] at hP
    exact absurd hP (by simp)

theorem distToNonempty_step (r : Nat) (hr : 0 < r) (b : Int)
    (A : List (List Nat)) (w : Int)
    (hlt : distToNonempty r b A w < r) (hpos : distToNonempty r b A w ≠ 0) :
    distToNonempty r b A (G_abacus_step r b w 0) = distToNonempty r b A w - 1 := by
  have hshift : ∀ t : Nat,
      (G_abacus_step r b w 0 + (t : Int) * b) % (r : Int)
        = (w + ((t + 1 : Nat) : Int) * b) % (r : Int) := by
    intro t
    unfold G_abacus_step
    push_cast
    rw [show w + b * 1 - 0 = w + b from by ring, Int.emod_add_emod]
    refine congrArg₂ _ (by ring) rfl
  have hPshift : (fun (t : Nat) =>
      !(A.getD ((G_abacus_step r b w 0 + (t : Int) * b) % (r : Int)).toNat []).isEmpty)
        = (fun (t : Nat) =>
      !(A.getD ((w + ((t + 1 : Nat) : Int) * b) % (r : Int)).toNat []).isEmpty) := by
    funext t
    rw [hshift t]
  set d := distToNonempty r b A w with hd
  rcases filter_range_headD
      (fun (t : Nat) => !(A.getD ((w + (t : Int) * b) % (r : Int)).toNat []).isEmpty) r with
    ⟨heq, _⟩ | ⟨_, hPd, hbelow⟩
  · rw [distToNonempty_eq_headD] at hd
    omega
  · rw [← distToNonempty_eq_headD] at hPd hbelow
    rw [distToNonempty_eq_headD, hPshift]
    rcases filter_range_headD
        (fun (t : Nat) => !(A.getD ((w + ((t + 1 : Nat) : Int) * b) % (r : Int)).toNat
          []).isEmpty) r with
      ⟨_, hall'⟩ | ⟨_, hPd', hbelow'⟩
    · have h1 := hall' (d - 1) (by omega)
      have h2 : d - 1 + 1 = d := by omega
      rw [h2] at h1
      rw [h1] at hPd
      exact absurd hPd (by simp)
    · set d' := (((List.range r).filter
          (fun (t : Nat) => !(A.getD ((w + ((t + 1 : Nat) : Int) * b) % (r : Int)).toNat
            []).isEmpty)).headD r) with hd'
      have hge : d ≤ d' + 1 := by
        by_contra hc
        have := hbelow (d' + 1) (by omega)
        rw [this] at hPd'
        exact absurd hPd' (by simp)
      have hle2 : d' ≤ d - 1 := by
        by_contra hc
        have h1 := hbelow' (d - 1) (by omega)
        have h2 : d - 1 + 1 = d := by omega
        rw [h2] at h1
        rw [h1] at hPd
        exact absurd hPd (by simp)
      omega

theorem abacusSize_set_cons (c : Nat) (rest : List Nat) :
    ∀ (A : List (List Nat)) (w : Nat), w < A.length → A.getD w [] = c :: rest →
      abacusSize (A.set w rest) + 1 = abacusSize A := by
  intro A
  induction A with
  | nil => intro w h _; simp at h
  | cons a A ih =>
    intro w hw hA
    cases w with
    | zero =>
      rw [List.getD_cons_zero] at hA
      subst hA
      simp only [List.set, abacusSize, List.map_cons, List.sum_cons, List.length_cons]
      omega
    | succ w =>
      have h1 : w < A.length := by simpa using hw
      rw [List.getD_cons_succ] at hA
      have := ih w h1 hA
      simp only [List.set, abacusSize, List.map_cons, List.sum_cons] at this ⊢
      omega

theorem abacusOnes_set_cons (c : Nat) (rest : List Nat) :
    ∀ (A : List (List Nat)) (w : Nat), w < A.length → A.getD w [] = c :: rest →
      abacusOnes (A.set w rest) + c = abacusOnes A := by
  intro A
  induction A with
  | nil => intro w h _; simp at h
  | cons a A ih =>
    intro w hw hA
    cases w with
    | zero =>
      rw [List.getD_cons_zero] at hA
      subst hA
      simp only [List.set, abacusOnes, List.map_cons, List.sum_cons]
      omega
    | succ w =>
      have h1 : w < A.length := by simpa using hw
      rw [List.getD_cons_succ] at hA
      have := ih w h1 hA
      simp only [List.set, abacusOnes, List.map_cons, List.sum_cons] at this ⊢
      omega

theorem abacusOnes_eq_zero_of_size_zero (A : List (List Nat)) (h : abacusSize A = 0) :
    abacusOnes A = 0 := by
  unfold abacusSize at h
  unfold abacusOnes
  rw [List.sum_eq_zero_iff] at h ⊢
  intro x hx
  obtain ⟨wire, hw, rfl⟩ := List.mem_map.mp hx
  have hlen : wire.length = 0 := h _ (List.mem_map.mpr ⟨wire, hw, rfl⟩)
  rw [List.length_eq_zero] at hlen
  subst hlen
  rfl

theorem exists_nonempty_wire (A : List (List Nat)) (r : Nat) (hA : A.length = r)
    (h : 0 < abacusOnes A) :
    ∃ i, i < r ∧ A.getD i [] ≠ [] := by
  by_contra hc
  push_neg at hc
  have hz : abacusOnes A = 0 := by
    unfold abacusOnes
    rw [List.sum_eq_zero_iff]
    intro x hx
    obtain ⟨wire, hw, rfl⟩ := List.mem_map.mp hx
    obtain ⟨j, hj, hwj⟩ := List.mem_iff_getElem.mp hw
    have hjr : j < r := by omega
    have hemp := hc j hjr
    rw [List.getD_eq_getElem _ [] hj, hwj] at hemp
    subst hemp
    rfl
  omega

/-- The merge loop reaches its stop condition within the fuel bound:
coprimality bounds each run of synthetic zeros by `r - 1`, and every pop
consumes a stored symbol, so `r` times the stored-symbol count plus the
distance to the next nonempty wire is a strictly decreasing measure. -/
theorem mergeRun_completes (r : Nat) (b : Int) (hr : 0 < r)
    (hgcd : Int.gcd (r : Int) b = 1) (total : Nat) :
    ∀ (fuel : Nat) (st : MState),
      st.abacus.length = r → 0 ≤ st.wire → st.wire < r →
      st.read + abacusOnes st.abacus = total →
      r * abacusSize st.abacus + distToNonempty r b st.abacus st.wire ≤ fuel →
      ∃ st', mergeRun r b total fuel st = some st' := by
  intro fuel
  induction fuel with
  | zero =>
    intro st hlen hw0 hwr hinv hM
    by_cases hrt : st.read < total
    · exfalso
      have hones : 0 < abacusOnes st.abacus := by omega
      have hsz : 1 ≤ abacusSize st.abacus := by
        by_contra hszc
        have h0 : abacusSize st.abacus = 0 := by omega
        have := abacusOnes_eq_zero_of_size_zero _ h0
        omega
      have hmul : r * 1 ≤ r * abacusSize st.abacus := Nat.mul_le_mul (Nat.le_refl r) hsz
      omega
    · exact ⟨st, by simp only [mergeRun, if_neg hrt]⟩
  | succ f ih =>
    intro st hlen hw0 hwr hinv hM
    by_cases hrt : st.read < total
    · rw [show mergeRun r b total (f + 1) st = mergeRun r b total f (mergeStep r b st) from
        by simp only [mergeRun, if_pos hrt]]
      have hones : 0 < abacusOnes st.abacus := by omega
      obtain ⟨i, hi, hne⟩ := exists_nonempty_wire st.abacus r hlen hones
      have hdlt : distToNonempty r b st.abacus st.wire < r :=
        distToNonempty_lt r hr b hgcd _ _ ⟨i, hi, hne⟩
      cases hW : st.abacus.getD st.wire.toNat [] with
      | nil =>
        have hstep : mergeStep r b st
            = MState.mk st.abacus (G_abacus_step r b st.wire 0) (st.out ++ [0]) st.read := by
          unfold mergeStep
          dsimp only
          rw [hW]
          rfl
        have hd0 : distToNonempty r b st.abacus st.wire ≠ 0 :=
          distToNonempty_pos_of_empty r hr b _ _ hw0 hwr hW
        have hdstep := distToNonempty_step r hr b st.abacus st.wire hdlt hd0
        refine ih (mergeStep r b st) ?_ ?_ ?_ ?_ ?_
        · rw [hstep]
          exact hlen
        · rw [hstep]
          exact G_abacus_step_nonneg r b st.wire 0 hr
        · rw [hstep]
          exact G_abacus_step_lt r b st.wire 0 hr
        · rw [hstep]
          exact hinv
        · rw [hstep]
          show r * abacusSize st.abacus
            + distToNonempty r b st.abacus (G_abacus_step r b st.wire 0) ≤ f
          rw [hdstep]
          omega
      | cons c rest =>
        have hwlt : st.wire.toNat < st.abacus.length := by omega
        have hstep : mergeStep r b st
            = MState.mk (st.abacus.set st.wire.toNat rest) (G_abacus_step r b st.wire c)
                (st.out ++ [c]) (st.read + c) := by
          unfold mergeStep
          dsimp only
          rw [hW]
          rfl
        have hd0 : distToNonempty r b st.abacus st.wire = 0 :=
          distToNonempty_zero_of_nonempty r hr b _ _ hw0 hwr (by rw [hW]; simp)
        have hsz := abacusSize_set_cons c rest st.abacus st.wire.toNat hwlt hW
        have hon := abacusOnes_set_cons c rest st.abacus st.wire.toNat hwlt hW
        by_cases hrt' : st.read + c < total
        · have hones' : 0 < abacusOnes (st.abacus.set st.wire.toNat rest) := by omega
          have hdlt' : distToNonempty r b (st.abacus.set st.wire.toNat rest)
              (G_abacus_step r b st.wire c) < r := by
            refine distToNonempty_lt r hr b hgcd _ _ ?_
            exact exists_nonempty_wire _ r (by rw [List.length_set]; exact hlen) hones'
          have hms : r * abacusSize st.abacus
              = r * abacusSize (st.abacus.set st.wire.toNat rest) + r := by
            rw [← hsz]
            ring
          refine ih (mergeStep r b st) ?_ ?_ ?_ ?_ ?_
          · rw [hstep]
            show (st.abacus.set st.wire.toNat rest).length = r
            rw [List.length_set]
            exact hlen
          · rw [hstep]
            exact G_abacus_step_nonneg r b st.wire c hr
          · rw [hstep]
            exact G_abacus_step_lt r b st.wire c hr
          · rw [hstep]
            show st.read + c + abacusOnes (st.abacus.set st.wire.toNat rest) = total
            omega
          · rw [hstep]
            show r * abacusSize (st.abacus.set st.wire.toNat rest)
              + distToNonempty r b (st.abacus.set st.wire.toNat rest)
                  (G_abacus_step r b st.wire c) ≤ f
            omega
        · refine ⟨mergeStep r b st, ?_⟩
          cases f with
          | zero =>
            rw [hstep]
            simp only [mergeRun]
            rw [if_neg hrt']
          | succ f2 =>
            rw [hstep]
            simp only [mergeRun]
            rw [if_neg hrt']
    · exact ⟨st, by simp only [mergeRun, if_neg hrt]⟩

/-- C7 counterexample: with an explicit `r` different from the wire count
the merge loop of `from_G_abacus` need not terminate even though
`gcd(r, b) = 1`.  With wires `[[], [1]]` and `r = 1` the walk only ever
reads wire 0, which is empty, while the stored 1 on wire 1 keeps
`total_ones = 1` unreached: one loop iteration maps the state back to
itself except for the growing output, so the Python loop runs forever and
the fueled model exhausts the documented iteration bound. -/
theorem C7_counterexample :
    Int.gcd (1 : Int) 1 = 1
      ∧ from_G_abacus [[], [1]] (some 1) 1 = Except.error AbacusError.fuelExhausted
      ∧ mergeStep 1 1 (MState.mk [[], [1]] 0 [] 0) = MState.mk [[], [1]] 0 [0] 0 :=
  ⟨rfl, rfl, rfl⟩

/-- C7 (amended): for every finite list of finite binary wires and every
`b` coprime to the number of wires, with `r` equal to the wire count (as
inferred when `r` is omitted, and as every in-repository caller passes
it), the merge loop of `from_G_abacus` terminates within
`r * (stored symbols + 1)` iterations and the function totally returns a
partition. -/
theorem C7_merge_terminates (abacus : List (List Nat)) (b : Int)
    (_hbin : ∀ wire ∈ abacus, isBinary wire)
    (hr : 1 ≤ abacus.length) (hgcd : Int.gcd (abacus.length : Int) b = 1) :
    ∃ p, from_G_abacus abacus none b = Except.ok p := by
  unfold from_G_abacus
  dsimp only
  rw [Option.getD_none]
  rw [if_neg (by simp [hgcd])]
  rw [if_neg (by omega : ¬ abacus.length = 0)]
  have hrz : ((abacus.length : Int)) ≠ 0 := by
    have : (0 : Int) < (abacus.length : Int) := by exact_mod_cast hr
    omega
  have hrpos : (0 : Int) < (abacus.length : Int) := by exact_mod_cast hr
  obtain ⟨st', hrun⟩ := mergeRun_completes abacus.length b (by omega) hgcd
    ((abacus.map List.sum).sum)
    (abacus.length * ((abacus.map List.length).sum + 1))
    (MState.mk abacus (from_G_abacus_start abacus abacus.length) [] 0)
    rfl
    (Int.emod_nonneg _ hrz)
    (Int.emod_lt_of_pos _ hrpos)
    (by show 0 + abacusOnes abacus = (abacus.map List.sum).sum
        unfold abacusOnes
        omega)
    (by show abacus.length * abacusSize abacus
          + distToNonempty abacus.length b abacus (from_G_abacus_start abacus abacus.length)
          ≤ abacus.length * (abacusSize abacus + 1)
        have hd := distToNonempty_le abacus.length b abacus
          (from_G_abacus_start abacus abacus.length)
        have hh : abacus.length * (abacusSize abacus + 1)
            = abacus.length * abacusSize abacus + abacus.length := by ring
        omega)
  rw [hrun]
  exact ⟨_, rfl⟩

/-- Witness for C7 (amended) at the abacus of `[3,1]` for `r = 2`,
`b = 1`. -/
theorem C7_merge_terminates_witness :
    (∀ wire ∈ [[0, 0, 1], [1, 0]], isBinary wire) ∧ 1 ≤ ([[0, 0, 1], [1, 0]] : List (List Nat)).length
      ∧ Int.gcd (([[0, 0, 1], [1, 0]] : List (List Nat)).length : Int) 1 = 1
      ∧ ∃ p, from_G_abacus [[0, 0, 1], [1, 0]] none 1 = Except.ok p :=
  ⟨by decide, by decide, by decide,
    C7_merge_terminates [[0, 0, 1], [1, 0]] 1 (by decide) (by decide) (by decide)⟩

/-- Witness for C6 at `p = [2,1]`, `r = 2`, `b = 1`. -/
theorem C6_is_core_iff_witness :
    isPartition [2, 1] ∧ 1 ≤ 2 ∧
      (is_G_core [2, 1] 2 1 = true ↔
        ∀ i, i < ([2, 1] : List Nat).length → ∀ j, j < ([2, 1] : List Nat).getD i 0 →
          ¬ ((((conjugate [2, 1]).getD j 0 : Int) - (i : Int) - 1
              - (1 : Int) * ((((([2, 1] : List Nat).getD i 0 : Int) - (j : Int) - 1) + 1)))
            % ((2 : Nat) : Int) = 0)) :=
  ⟨by decide, by decide, C6_is_core_iff [2, 1] 2 1 (by decide) (by decide)⟩

/-- C8: a core argument failing the structural core test makes
`from_G_core_and_quotient` signal `notACore`, whatever the quotient is. -/
theorem C8_not_a_core_error (core : List Nat) (quotient : Option (List (List Nat)))
    (r : Nat) (b : Int) (h : is_G_core core r b = false) :
    from_G_core_and_quotient core quotient r b = .error .notACore := by
  unfold from_G_core_and_quotient
  rw [h]
  rfl

/-- Witness for C8 at the non-core `[1]` with `r = 1`, `b = 1`. -/
theorem C8_not_a_core_error_witness :
    is_G_core [1] 1 1 = false
      ∧ from_G_core_and_quotient [1] (some [[]]) 1 1 = .error .notACore :=
  ⟨by decide, C8_not_a_core_error [1] (some [[]]) 1 1 (by decide)⟩

/-! ### The intermediate abacus built by `from_G_charges_and_quotient` -/

theorem getD_mem_of_lt {α : Type} (l : List α) (n : Nat) (d : α) (h : n < l.length) :
    l.getD n d ∈ l := by
  rw [List.getD_eq_getElem?_getD, List.getElem?_eq_getElem h]
  simp only [Option.getD_some]
  exact List.getElem_mem h

theorem getD_map_lt {α β : Type} (f : α → β) (l : List α) (i : Nat) (h : i < l.length)
    (d : β) (d' : α) : (l.map f).getD i d = f (l.getD i d') := by
  rw [List.getD_eq_getElem?_getD, List.getD_eq_getElem?_getD, List.getElem?_map,
    List.getElem?_eq_getElem h]
  rfl

theorem enumFrom_foldr_length (l : List Nat) : ∀ (j : Nat), l ≠ [] →
    j + l.length
      ≤ ((l.enumFrom j).map (fun (il : Nat × Nat) => il.1 + il.2 + 1)).foldr max 0 := by
  induction l with
  | nil => intro j h; exact absurd rfl h
  | cons a t ih =>
    intro j _
    simp only [List.enumFrom, List.map_cons, List.foldr_cons, List.length_cons]
    rcases eq_or_ne t [] with rfl | hne
    · simp only [List.enumFrom, List.map_nil, List.foldr_nil, List.length_nil]
      omega
    · refine le_trans ?_ (le_max_right (j + a + 1) _)
      have h2 := ih (j + 1) hne
      omega

theorem enumFrom_foldr_head (a : Nat) (t : List Nat) (j : Nat) :
    j + a + 1
      ≤ (((a :: t).enumFrom j).map (fun (il : Nat × Nat) => il.1 + il.2 + 1)).foldr max 0 := by
  simp only [List.enumFrom, List.map_cons, List.foldr_cons]
  exact le_max_left _ _

theorem dyck_half_ge_length (mu : List Nat) : mu.length ≤ dyck_half mu := by
  rcases eq_or_ne mu [] with rfl | hne
  · simp [dyck_half]
  · have h := enumFrom_foldr_length mu 0 hne
    have hd : dyck_half mu
        = ((mu.enumFrom 0).map (fun (il : Nat × Nat) => il.1 + il.2 + 1)).foldr max 0 := rfl
    omega

theorem dyck_half_ge_head (mu : List Nat) : mu.headD 0 ≤ dyck_half mu := by
  cases mu with
  | nil => simp [dyck_half]
  | cons a t =>
    have h := enumFrom_foldr_head a t 0
    have hd : dyck_half (a :: t)
        = (((a :: t).enumFrom 0).map (fun (il : Nat × Nat) => il.1 + il.2 + 1)).foldr max 0 :=
      rfl
    show a ≤ dyck_half (a :: t)
    omega

/-- Padding to any adequate half-length `n` yields a word of `2n` symbols. -/
theorem to_dyck_word_length (mu : List Nat) (n : Nat)
    (hk : mu.length ≤ n) (hm : mu.headD 0 ≤ n) :
    (to_dyck_word mu n).length = 2 * n := by
  unfold to_dyck_word invert_zero_one
  rw [List.length_append, List.length_append, List.length_replicate, List.length_replicate,
    List.length_map, zero_one_sequence_length]
  omega

/-- Padding to any adequate half-length `n` yields a word with `n` ones. -/
theorem to_dyck_word_ones (mu : List Nat) (hmu : isPartition mu) (n : Nat)
    (hk : mu.length ≤ n) :
    (to_dyck_word mu n).sum = n := by
  unfold to_dyck_word
  rw [List.sum_append, List.sum_append, seq_ones_count mu hmu,
    List.sum_replicate, List.sum_replicate]
  simp only [smul_eq_mul, Nat.mul_one, Nat.mul_zero]
  omega

theorem to_dyck_word_min_length (mu : List Nat) :
    (to_dyck_word_min mu).length = 2 * dyck_half mu :=
  to_dyck_word_length mu (dyck_half mu) (dyck_half_ge_length mu) (dyck_half_ge_head mu)

/-- The shared half-length accommodates every quotient component. -/
theorem quotient_n_bound (q : List (List Nat)) (mu : List Nat) (hmu : mu ∈ q) :
    dyck_half mu ≤ quotient_n q := by
  cases hmax : (q.map (fun nu => (to_dyck_word_min nu).length)).max? with
  | none =>
    rw [List.max?_eq_none_iff, List.map_eq_nil_iff] at hmax
    exact absurd hmu (by simp [hmax])
  | some L =>
    have hmem : (to_dyck_word_min mu).length
        ∈ q.map (fun nu => (to_dyck_word_min nu).length) :=
      List.mem_map_of_mem _ hmu
    have hle : (to_dyck_word_min mu).length ≤ L :=
      (List.max?_eq_some_iff'.mp hmax).2 _ hmem
    have h2 : 2 * dyck_half mu ≤ L := by rw [← to_dyck_word_min_length]; exact hle
    have hq : quotient_n q = L / 2 := by rw [quotient_n, hmax]; rfl
    omega

theorem int_max?_mem (l : List Int) (M : Int) (h : l.max? = some M) : M ∈ l :=
  List.max?_mem (fun a b => max_choice a b) h

theorem int_max?_ge (l : List Int) (M : Int) (h : l.max? = some M) :
    ∀ x ∈ l, x ≤ M :=
  (List.max?_le_iff (fun a b c => max_le_iff) h).mp le_rfl

theorem sum_map_add_nat (l : List Nat) (f g : Nat → Nat) :
    (l.map (fun i => f i + g i)).sum = (l.map f).sum + (l.map g).sum := by
  induction l with
  | nil => rfl
  | cons a l ih =>
    simp only [List.map_cons, List.sum_cons, ih]
    omega

theorem sum_map_const_nat (l : List Nat) (c : Nat) :
    (l.map (fun i => c)).sum = l.length * c := by
  induction l with
  | nil => simp
  | cons a l ih =>
    simp only [List.map_cons, List.sum_cons, List.length_cons, ih]
    ring

theorem sum_map_const_int (l : List Nat) (c : Int) :
    (l.map (fun i => c)).sum = (l.length : Int) * c := by
  induction l with
  | nil => simp
  | cons a l ih =>
    simp only [List.map_cons, List.sum_cons, List.length_cons, ih]
    push_cast
    ring

theorem map_getD_self_int (l : List Int) :
    (List.range l.length).map (fun i => l.getD i 0) = l := by
  induction l with
  | nil => rfl
  | cons a l ih =>
    rw [List.length_cons, List.range_succ_eq_map, List.map_cons, List.map_map]
    refine congrArg₂ _ rfl ?_
    rw [show ((fun i => (a :: l).getD i 0) ∘ Nat.succ) = (fun i => l.getD i 0) from rfl, ih]

/-- Sum of the charge deficits: with `M = max(charges)` and zero-sum charges,
the total count of prepended padding ones is `r * M`. -/
theorem sum_deficits (charges : List Int) (r : Nat) (M : Int)
    (hlen : charges.length = r) (hsum : charges.sum = 0) (hmax : charges.max? = some M) :
    (((List.range r).map (fun i => (M - charges.getD i 0).toNat)).sum : Int)
      = (r : Int) * M := by
  have hcast := cast_sum_map (List.range r) (fun i => (M - charges.getD i 0).toNat)
  rw [← hcast]
  have hpt : ∀ i ∈ List.range r,
      (((M - charges.getD i 0).toNat : Nat) : Int) = M - charges.getD i 0 := by
    intro i hi
    rw [List.mem_range] at hi
    have hmem : charges.getD i 0 ∈ charges := getD_mem_of_lt charges i 0 (by omega)
    have := int_max?_ge charges M hmax _ hmem
    omega
  rw [List.map_congr_left hpt, sum_map_sub (List.range r) (fun i => M)
    (fun i => charges.getD i 0), sum_map_const_int]
  subst hlen
  rw [map_getD_self_int, hsum, List.length_range]
  ring

/-- Size of the abacus built by `from_G_charges_and_quotient`:
`r * (2n + c_max)` symbols in total. -/
theorem cqa_size (charges : List Int) (q : List (List Nat)) (r : Nat) (M : Int)
    (hr : 1 ≤ r) (hlen : charges.length = r) (hsum : charges.sum = 0)
    (hq : q.length = r) (hparts : ∀ mu ∈ q, isPartition mu)
    (hmax : charges.max? = some M) :
    ((abacusSize (charges_quotient_abacus charges q r) : Nat) : Int)
      = (r : Int) * (2 * (quotient_n q : Int) + M) := by
  have hsz : abacusSize (charges_quotient_abacus charges q r)
      = ((List.range r).map
          (fun i => (M - charges.getD i 0).toNat + 2 * quotient_n q)).sum := by
    unfold abacusSize charges_quotient_abacus
    rw [List.map_map]
    refine congrArg List.sum (List.map_congr_left ?_)
    intro i hi
    rw [List.mem_range] at hi
    show (List.replicate ((charges.max?.getD 0) - charges.getD i 0).toNat 1
        ++ (q.map (fun mu => to_dyck_word mu (quotient_n q))).getD i []).length
      = (M - charges.getD i 0).toNat + 2 * quotient_n q
    rw [hmax]
    rw [List.length_append, List.length_replicate,
      getD_map_lt (fun mu => to_dyck_word mu (quotient_n q)) q i (by omega) [] []]
    have hmem : q.getD i [] ∈ q := getD_mem_of_lt q i [] (by omega)
    have hb := quotient_n_bound q (q.getD i []) hmem
    rw [to_dyck_word_length _ _ (le_trans (dyck_half_ge_length _) hb)
      (le_trans (dyck_half_ge_head _) hb)]
    rfl
  rw [hsz, sum_map_add_nat (List.range r) (fun i => (M - charges.getD i 0).toNat)
    (fun i => 2 * quotient_n q), sum_map_const_nat, List.length_range]
  have hd := sum_deficits charges r M hlen hsum hmax
  push_cast at hd ⊢
  rw [hd]
  ring

/-- Ones of the abacus built by `from_G_charges_and_quotient`:
`r * (n + c_max)` ones in total. -/
theorem cqa_ones (charges : List Int) (q : List (List Nat)) (r : Nat) (M : Int)
    (hr : 1 ≤ r) (hlen : charges.length = r) (hsum : charges.sum = 0)
    (hq : q.length = r) (hparts : ∀ mu ∈ q, isPartition mu)
    (hmax : charges.max? = some M) :
    ((abacusOnes (charges_quotient_abacus charges q r) : Nat) : Int)
      = (r : Int) * ((quotient_n q : Int) + M) := by
  have hsz : abacusOnes (charges_quotient_abacus charges q r)
      = ((List.range r).map
          (fun i => (M - charges.getD i 0).toNat + quotient_n q)).sum := by
    unfold abacusOnes charges_quotient_abacus
    rw [List.map_map]
    refine congrArg List.sum (List.map_congr_left ?_)
    intro i hi
    rw [List.mem_range] at hi
    show (List.replicate ((charges.max?.getD 0) - charges.getD i 0).toNat 1
        ++ (q.map (fun mu => to_dyck_word mu (quotient_n q))).getD i []).sum
      = (M - charges.getD i 0).toNat + quotient_n q
    rw [hmax]
    rw [List.sum_append, List.sum_replicate,
      getD_map_lt (fun mu => to_dyck_word mu (quotient_n q)) q i (by omega) [] []]
    have hmem : q.getD i [] ∈ q := getD_mem_of_lt q i [] (by omega)
    have hb := quotient_n_bound q (q.getD i []) hmem
    rw [to_dyck_word_ones _ (hparts _ hmem) _ (le_trans (dyck_half_ge_length _) hb)]
    simp only [smul_eq_mul, Nat.mul_one, Option.getD_some]
  rw [hsz, sum_map_add_nat (List.range r) (fun i => (M - charges.getD i 0).toNat)
    (fun i => quotient_n q), sum_map_const_nat, List.length_range]
  have hd := sum_deficits charges r M hlen hsum hmax
  push_cast at hd ⊢
  rw [hd]
  ring

/-- With valid shapes the two output-validation checks of
`from_G_charges_and_quotient` pass and the call hands the constructed
abacus straight to `from_G_abacus`. -/
theorem from_G_charges_and_quotient_unfold (charges : List Int) (q : List (List Nat))
    (r : Nat) (b : Int)
    (hr : 1 ≤ r) (hlen : charges.length = r) (hsum : charges.sum = 0)
    (hq : q.length = r) (hparts : ∀ mu ∈ q, isPartition mu) :
    from_G_charges_and_quotient charges (some q) r b
      = from_G_abacus (charges_quotient_abacus charges q r) (some r) b := by
  cases hmaxd : (q.map (fun mu => (to_dyck_word_min mu).length)).max? with
  | none =>
    rw [List.max?_eq_none_iff, List.map_eq_nil_iff] at hmaxd
    have : q.length = 0 := by rw [hmaxd]; rfl
    omega
  | some L =>
  cases hmax : charges.max? with
  | none =>
    rw [List.max?_eq_none_iff] at hmax
    have : charges.length = 0 := by rw [hmax]; rfl
    omega
  | some M =>
  have hn : quotient_n q = L / 2 := by rw [quotient_n, hmaxd]; rfl
  have hA : charges_quotient_abacus charges q r
      = (List.range r).map (fun i =>
          List.replicate ((M - charges.getD i 0).toNat) 1
            ++ (q.map (fun mu => to_dyck_word mu (L / 2))).getD i []) := by
    simp only [charges_quotient_abacus, quotient_n, hmax, hmaxd, Option.getD_some]
  have hszA := cqa_size charges q r M hr hlen hsum hq hparts hmax
  have honA := cqa_ones charges q r M hr hlen hsum hq hparts hmax
  rw [hn, hA] at hszA honA
  unfold from_G_charges_and_quotient
  dsimp only
  rw [if_neg (show ¬charges.length ≠ r by omega),
    if_neg (show ¬charges.sum ≠ 0 by omega),
    if_neg (show ¬q.length ≠ r by omega), hmaxd, hmax]
  dsimp only
  rw [hA]
  split
  · next h => exact absurd hszA h
  · split
    · next h2 => exact absurd honA h2
    · rfl

/-- C10: with charges of length `r` summing to zero and a quotient of `r`
partitions, the intermediate abacus built by `from_G_charges_and_quotient`
holds exactly `r*(2n + c_max)` symbols, exactly `r*(n + c_max)` of them 1
symbols (`n` the shared half-length, `c_max` the largest charge), and the
two output-validation assertions never fail: the call reduces to
`from_G_abacus` on that abacus. -/
theorem C10_abacus_counts (charges : List Int) (q : List (List Nat)) (r : Nat) (b : Int)
    (hr : 1 ≤ r) (hlen : charges.length = r) (hsum : charges.sum = 0)
    (hq : q.length = r) (hparts : ∀ mu ∈ q, isPartition mu) :
    ((abacusSize (charges_quotient_abacus charges q r) : Nat) : Int)
        = (r : Int) * (2 * (quotient_n q : Int) + charges.max?.getD 0)
      ∧ ((abacusOnes (charges_quotient_abacus charges q r) : Nat) : Int)
        = (r : Int) * ((quotient_n q : Int) + charges.max?.getD 0)
      ∧ from_G_charges_and_quotient charges (some q) r b
        = from_G_abacus (charges_quotient_abacus charges q r) (some r) b := by
  cases hmax : charges.max? with
  | none =>
    rw [List.max?_eq_none_iff] at hmax
    have : charges.length = 0 := by rw [hmax]; rfl
    omega
  | some M =>
    simp only [Option.getD_some]
    exact ⟨cqa_size charges q r M hr hlen hsum hq hparts hmax,
      cqa_ones charges q r M hr hlen hsum hq hparts hmax,
      from_G_charges_and_quotient_unfold charges q r b hr hlen hsum hq hparts⟩

/-- Witness for C10 at `charges = [1,-1]`, `q = [[1],[]]`, `r = 2`, `b = 1`. -/
theorem C10_abacus_counts_witness :
    (1 ≤ 2 ∧ ([(1 : Int), -1]).length = 2 ∧ ([(1 : Int), -1]).sum = 0
        ∧ ([[1],[]] : List (List Nat)).length = 2
        ∧ ∀ mu ∈ ([[1],[]] : List (List Nat)), isPartition mu)
      ∧ (((abacusSize (charges_quotient_abacus [1, -1] [[1], []] 2) : Nat) : Int)
            = ((2 : Nat) : Int)
                * (2 * (quotient_n [[1], []] : Int) + ([(1 : Int), -1]).max?.getD 0)
          ∧ ((abacusOnes (charges_quotient_abacus [1, -1] [[1], []] 2) : Nat) : Int)
            = ((2 : Nat) : Int)
                * ((quotient_n [[1], []] : Int) + ([(1 : Int), -1]).max?.getD 0)
          ∧ from_G_charges_and_quotient [1, -1] (some [[1], []]) 2 1
            = from_G_abacus (charges_quotient_abacus [1, -1] [[1], []] 2) (some 2) 1) :=
  ⟨⟨by decide, by decide, by decide, by decide, by decide⟩,
    C10_abacus_counts [1, -1] [[1], []] 2 1 (by decide) (by decide) (by decide)
      (by decide) (by decide)⟩

/-! ### Padding invariance of the decoder -/

theorem strip_append_zero (l : List Nat) :
    stripTrailingZeros (l ++ [0]) = stripTrailingZeros l := by
  unfold stripTrailingZeros
  rw [List.reverse_append]
  show ((0 :: l.reverse).dropWhile (fun x => x == 0)).reverse = _
  rw [List.dropWhile_cons_of_pos (by simp)]

theorem zeroPositions_cons_zero (s : List Nat) :
    zeroPositions (0 :: s) = 0 :: (zeroPositions s).map (fun t => t + 1) := by
  rw [zeroPositionsFrom_zero, zeroPositionsFrom_cons, zeroPositionsFrom_shift s 1,
    ← zeroPositionsFrom_zero]
  simp

theorem partsRaw_cons_zero (s : List Nat) :
    partsRaw (0 :: s) = partsRaw s ++ [0] := by
  unfold partsRaw
  rw [zeroPositions_cons_zero, List.length_cons, List.length_map,
    List.range_succ_eq_map, List.map_cons, List.map_map, List.reverse_cons]
  refine congrArg₂ _ (congrArg _ ?_) ?_
  · refine List.map_congr_left ?_
    intro i hi
    rw [List.mem_range] at hi
    show (0 :: (zeroPositions s).map (fun t => t + 1)).getD (i + 1) 0 - (i + 1)
      = (zeroPositions s).getD i 0 - i
    rw [List.getD_cons_succ, getD_map_lt (fun t => t + 1) _ i hi 0 0]
    omega
  · rfl

theorem from_zero_one_cons_zero (s : List Nat) :
    from_zero_one (0 :: s) = from_zero_one s := by
  rw [from_zero_one_eq_strip, from_zero_one_eq_strip, partsRaw_cons_zero, strip_append_zero]

theorem from_zero_one_replicate_zero (z : Nat) (s : List Nat) :
    from_zero_one (List.replicate z 0 ++ s) = from_zero_one s := by
  induction z with
  | zero => rfl
  | succ z ih => rw [List.replicate_succ, List.cons_append, from_zero_one_cons_zero, ih]

theorem zeroPositions_append_one (s : List Nat) :
    zeroPositions (s ++ [1]) = zeroPositions s := by
  rw [zeroPositions_append]
  show zeroPositions s ++ (zeroPositions [1]).map (fun u => u + s.length) = zeroPositions s
  simp [show zeroPositions [1] = [] from rfl]

theorem from_zero_one_append_one (s : List Nat) :
    from_zero_one (s ++ [1]) = from_zero_one s := by
  rw [from_zero_one_eq_strip, from_zero_one_eq_strip]
  unfold partsRaw
  rw [zeroPositions_append_one]

theorem from_zero_one_append_replicate_one (s : List Nat) (e : Nat) :
    from_zero_one (s ++ List.replicate e 1) = from_zero_one s := by
  induction e with
  | zero => simp
  | succ e ih =>
    rw [List.replicate_succ' e 1, ← List.append_assoc, from_zero_one_append_one, ih]

/-- For a binary word the zero count and the one count add up to the length. -/
theorem zeros_add_sum (s : List Nat) (hs : isBinary s) :
    (zeroPositions s).length + s.sum = s.length := by
  induction s with
  | nil => rfl
  | cons c s ih =>
    have hc := hs c (List.mem_cons_self c s)
    have ih' := ih (fun x hx => hs x (List.mem_cons_of_mem c hx))
    rw [zeroPositions_cons_length, List.sum_cons, List.length_cons]
    have hc01 : c = 0 ∨ c = 1 := by omega
    rcases hc01 with rfl | rfl <;> simp <;> omega

theorem isPartition_cons (m : Nat) (q : List Nat) (hq : isPartition q)
    (hle : q.headD 0 ≤ m) (hm : 0 < m) : isPartition (m :: q) := by
  obtain ⟨hmono, hpos⟩ := hq
  refine ⟨?_, ?_⟩
  · intro i hi
    cases i with
    | zero =>
      show q.getD 0 0 ≤ m
      cases q with
      | nil => simp
      | cons a t => exact hle
    | succ i =>
      rw [List.getD_cons_succ, List.getD_cons_succ]
      rw [List.length_cons] at hi
      exact hmono i (by omega)
  · intro x hx
    rcases List.mem_cons.mp hx with rfl | hx'
    · exact hm
    · exact hpos x hx'

/-- Split off the maximal run of trailing 1 symbols of a binary word. -/
theorem exists_trail_ones (u : List Nat) (hu : isBinary u) :
    ∃ a u₂, u = u₂ ++ List.replicate a 1 ∧ u₂.getLastD 0 = 0 := by
  refine ⟨(u.reverse.takeWhile (fun x => x == 1)).length,
    (u.reverse.dropWhile (fun x => x == 1)).reverse, ?_, ?_⟩
  · have h2 : u.reverse.takeWhile (fun x => x == 1)
        = List.replicate (u.reverse.takeWhile (fun x => x == 1)).length 1 := by
      refine List.eq_replicate_of_mem ?_
      intro x hx
      have := List.mem_takeWhile_imp hx
      simpa using this
    calc u = u.reverse.reverse := (List.reverse_reverse u).symm
      _ = (u.reverse.takeWhile (fun x => x == 1)
            ++ u.reverse.dropWhile (fun x => x == 1)).reverse := by
          rw [List.takeWhile_append_dropWhile (fun x => x == 1) u.reverse]
      _ = (u.reverse.dropWhile (fun x => x == 1)).reverse
            ++ (u.reverse.takeWhile (fun x => x == 1)).reverse := by
          rw [List.reverse_append]
      _ = _ := by
          conv_lhs => rw [h2, List.reverse_replicate]
  · cases hd : u.reverse.dropWhile (fun x => x == 1) with
    | nil => rfl
    | cons c t =>
      have hne : u.reverse.dropWhile (fun x => x == 1) ≠ [] := by rw [hd]; simp
      have hc := List.head_dropWhile_not (fun x => x == 1) u.reverse hne
      simp only [hd, List.head_cons, beq_eq_false_iff_ne, ne_eq] at hc
      have hcmem : c ∈ u := by
        have : c ∈ u.reverse.dropWhile (fun x => x == 1) := by rw [hd]; simp
        exact List.mem_reverse.mp ((List.dropWhile_sublist _).subset this)
      have hc0 : c = 0 := by have := hu c hcmem; omega
      subst hc0
      rw [List.reverse_cons]
      cases ht : t.reverse with
      | nil => simp
      | cons x y =>
        show ((x :: y) ++ [0]).getLast?.getD 0 = 0
        rw [List.getLast?_concat]
        rfl

/-- Split off the maximal run of leading 0 symbols of a binary word. -/
theorem exists_lead_zeros (s : List Nat) (hs : isBinary s) :
    ∃ z s₁, s = List.replicate z 0 ++ s₁ ∧ s₁.headD 1 = 1 := by
  refine ⟨(s.takeWhile (fun x => x == 0)).length, s.dropWhile (fun x => x == 0), ?_, ?_⟩
  · have h2 : s.takeWhile (fun x => x == 0)
        = List.replicate (s.takeWhile (fun x => x == 0)).length 0 := by
      refine List.eq_replicate_of_mem ?_
      intro x hx
      have := List.mem_takeWhile_imp hx
      simpa using this
    conv_lhs => rw [← List.takeWhile_append_dropWhile (fun x => x == 0) s]
    rw [← h2]
  · cases hd : s.dropWhile (fun x => x == 0) with
    | nil => rfl
    | cons c t =>
      have hne : s.dropWhile (fun x => x == 0) ≠ [] := by rw [hd]; simp
      have hc := List.head_dropWhile_not (fun x => x == 0) s hne
      simp only [hd, List.head_cons, beq_eq_false_iff_ne, ne_eq] at hc
      have hcmem : c ∈ s := by
        have : c ∈ s.dropWhile (fun x => x == 0) := by rw [hd]; simp
        exact (List.dropWhile_sublist _).subset this
      have hc1 : c = 1 := by have := hs c hcmem; omega
      rw [hc1]
      rfl

/-- Canonical-form induction: a binary word with no leading 0 and no
trailing 1 is exactly the boundary word of its decoded partition, which
is a partition whose largest part counts the east steps of the word. -/
theorem decode_canonical (N : Nat) : ∀ (s : List Nat), s.length ≤ N → isBinary s →
    s.headD 1 = 1 → s.getLastD 0 = 0 →
    isPartition (from_zero_one s) ∧ (from_zero_one s).headD 0 = s.sum
      ∧ zero_one_sequence (from_zero_one s) = s := by
  induction N with
  | zero =>
    intro s hlen _ _ _
    have hs : s = [] := by
      cases s with
      | nil => rfl
      | cons a t => simp at hlen
    subst hs
    exact ⟨by decide, rfl, rfl⟩
  | succ N ih =>
    intro s hlen hbin hh hl
    rcases eq_or_ne s [] with rfl | hne
    · exact ⟨by decide, rfl, rfl⟩
    · obtain ⟨u, rfl⟩ : ∃ u, s = u ++ [0] := by
        cases hrev : s.reverse with
        | nil => exact absurd (by simpa using congrArg List.reverse hrev) hne
        | cons c t =>
          have hs2 : s = t.reverse ++ [c] := by
            have := congrArg List.reverse hrev
            rw [List.reverse_reverse] at this
            rw [this, List.reverse_cons]
          have hc : c = 0 := by
            rw [hs2, List.getLastD_eq_getLast?, List.getLast?_concat, Option.getD_some] at hl
            exact hl
          exact ⟨t.reverse, by rw [hs2, hc]⟩
      have hbinu : isBinary u := fun x hx => hbin x (by simp [hx])
      obtain ⟨a, u₂, rfl, hu2last⟩ := exists_trail_ones u hbinu
      have hshape : (u₂ ++ List.replicate a 1) ++ [0]
          = u₂ ++ (List.replicate a 1 ++ [0]) := by rw [List.append_assoc]
      have hbin₂ : isBinary u₂ := fun x hx => hbinu x (by simp [hx])
      have hm : 1 ≤ a + u₂.sum := by
        cases u₂ with
        | nil =>
          cases a with
          | zero => simp at hh
          | succ a2 => omega
        | cons c t₂ =>
          have hc1 : c = 1 := by simpa using hh
          rw [List.sum_cons, hc1]
          omega
      have hz := zeros_add_sum u₂ hbin₂
      have hmeq : a + u₂.length - (zeroPositions u₂).length = a + u₂.sum := by omega
      have hdec : from_zero_one ((u₂ ++ List.replicate a 1) ++ [0])
          = (a + u₂.sum) :: from_zero_one u₂ := by
        rw [hshape, from_zero_one_eq_strip, partsRaw_block u₂ a, hmeq,
          strip_cons_sum_pos _ _ (by omega), ← from_zero_one_eq_strip]
      have hh₂ : u₂.headD 1 = 1 := by
        cases u₂ with
        | nil => rfl
        | cons c t₂ => simpa using hh
      have hlen₂ : u₂.length ≤ N := by
        rw [List.length_append, List.length_append, List.length_replicate,
          List.length_singleton] at hlen
        omega
      obtain ⟨hP₁, hHd₁, hSeq₁⟩ := ih u₂ hlen₂ hbin₂ hh₂ hu2last
      have hpart : isPartition ((a + u₂.sum) :: from_zero_one u₂) :=
        isPartition_cons _ _ hP₁ (by rw [hHd₁]; omega) (by omega)
      refine ⟨?_, ?_, ?_⟩
      · rw [hdec]; exact hpart
      · rw [hdec, List.headD_cons]
        rw [List.sum_append, List.sum_append, List.sum_replicate]
        simp only [smul_eq_mul, Nat.mul_one, List.sum_cons, List.sum_nil]
        omega
      · rw [hdec, zero_one_sequence_cons _ _ hpart, hSeq₁, hHd₁, hshape]
        rw [show a + u₂.sum - u₂.sum = a from by omega]

/-- Canonical form of a binary word on the SageMath convention: leading
north steps and trailing east steps around the boundary word of the
decoded partition. -/
theorem word_canonical (s : List Nat) (hs : isBinary s) :
    isPartition (from_zero_one s)
      ∧ ∃ z e, s = List.replicate z 0 ++ zero_one_sequence (from_zero_one s)
          ++ List.replicate e 1 := by
  obtain ⟨z, s₁, rfl, hh₁⟩ := exists_lead_zeros s hs
  have hbin₁ : isBinary s₁ := fun x hx => hs x (by simp [hx])
  obtain ⟨e, s₂, rfl, hl₂⟩ := exists_trail_ones s₁ hbin₁
  have hbin₂ : isBinary s₂ := fun x hx => hbin₁ x (by simp [hx])
  have hh₂ : s₂.headD 1 = 1 := by
    cases s₂ with
    | nil => rfl
    | cons c t => simpa using hh₁
  have hdec : from_zero_one (List.replicate z 0 ++ (s₂ ++ List.replicate e 1))
      = from_zero_one s₂ := by
    rw [from_zero_one_replicate_zero, from_zero_one_append_replicate_one]
  obtain ⟨hP, hHd, hSeq⟩ := decode_canonical s₂.length s₂ le_rfl hbin₂ hh₂ hl₂
  refine ⟨by rw [hdec]; exact hP, z, e, ?_⟩
  rw [hdec, hSeq, List.append_assoc]

/-- Canonical form of a stored wire on the engine convention: leading 1
(north) padding and trailing 0 (east) padding around the inverted boundary
word of the wire's decoded partition. -/
theorem wire_canonical (v : List Nat) (hv : isBinary v) :
    isPartition (from_zero_one (invert_zero_one v))
      ∧ ∃ a e, v = List.replicate a 1
          ++ invert_zero_one (zero_one_sequence (from_zero_one (invert_zero_one v)))
          ++ List.replicate e 0 := by
  obtain ⟨hP, z, e, hw⟩ := word_canonical (invert_zero_one v) (invert_zero_one_binary v)
  refine ⟨hP, z, e, ?_⟩
  have h2 := congrArg invert_zero_one hw
  rw [invert_invert v hv] at h2
  conv_lhs => rw [h2]
  unfold invert_zero_one
  rw [List.map_append, List.map_append, List.map_replicate, List.map_replicate]

/-! ### Residue counting in intervals -/

theorem eCount_succ (r T i : Nat) :
    eCount r (T + 1) i = eCount r T i + (if (T + 1) % r = i then 1 else 0) := by
  unfold eCount
  rw [List.range_succ, List.filter_append, List.length_append]
  refine congrArg₂ _ rfl ?_
  by_cases h : (T + 1) % r = i <;> simp [List.filter_cons, h]

theorem uCount_succ (r T L i : Nat) :
    uCount r T (L + 1) i = uCount r T L i + (if (T + 1 + L) % r = i then 1 else 0) := by
  unfold uCount
  rw [List.range_succ, List.filter_append, List.length_append]
  refine congrArg₂ _ rfl ?_
  by_cases h : (T + 1 + L) % r = i <;> simp [List.filter_cons, h]

/-- Closed form of the interval residue count: it is exactly the reference
distribution `expected[i]` of `G_charges` for a total of `T` ones. -/
theorem eCount_formula (r : Nat) (hr : 0 < r) (i : Nat) (hi : i < r) (T : Nat) :
    eCount r T i = T / r + (if 0 < i ∧ i ≤ T % r then 1 else 0) := by
  induction T with
  | zero =>
    show 0 = 0 / r + (if 0 < i ∧ i ≤ 0 % r then 1 else 0)
    rw [Nat.zero_div, Nat.zero_mod, if_neg (by omega)]
  | succ T ih =>
    rw [eCount_succ, ih]
    have hmod : T % r < r := Nat.mod_lt T hr
    have h3 := Nat.div_add_mod T r
    by_cases hcase : T % r + 1 < r
    · have h2 : (T + 1) / r = T / r ∧ (T + 1) % r = T % r + 1 :=
        (Nat.div_mod_unique hr).mpr ⟨by omega, by omega⟩
      rw [h2.1, h2.2]
      split_ifs <;> omega
    · have h2 : (T + 1) / r = T / r + 1 ∧ (T + 1) % r = 0 :=
        (Nat.div_mod_unique hr).mpr ⟨by
          have hexp : r * (T / r + 1) = r * (T / r) + r := by ring
          omega, by omega⟩
      rw [h2.1, h2.2]
      split_ifs <;> omega

theorem eCount_mul (r : Nat) (hr : 0 < r) (i : Nat) (hi : i < r) (N : Nat) :
    eCount r (r * N) i = N := by
  rw [eCount_formula r hr i hi, Nat.mul_div_cancel_left N hr, Nat.mul_mod_right,
    if_neg (by omega)]
  omega

theorem eCount_add (r T i : Nat) : ∀ L, eCount r (T + L) i = eCount r T i + uCount r T L i := by
  intro L
  induction L with
  | zero =>
    show eCount r (T + 0) i = eCount r T i + 0
    rw [Nat.add_zero, Nat.add_zero]
  | succ L ih =>
    rw [show T + (L + 1) = (T + L) + 1 from rfl, eCount_succ, ih, uCount_succ,
      show T + L + 1 = T + 1 + L from by omega]
    omega

/-! ### Distributing a run of leading ones -/

theorem distributeFrom_append (r : Nat) (b : Int) (s t : List Nat) (A : List (List Nat))
    (w : Int) :
    distributeFrom r b (s ++ t) A w
      = distributeFrom r b t (distributeFrom r b s A w).1 (distributeFrom r b s A w).2 := by
  unfold distributeFrom
  rw [List.foldl_append]

theorem distributeFrom_snd (r : Nat) (b : Int) (s : List Nat) :
    ∀ (A B : List (List Nat)) (w : Int),
      (distributeFrom r b s A w).2 = (distributeFrom r b s B w).2 := by
  induction s with
  | nil => intro A B w; rfl
  | cons c s ih =>
    intro A B w
    rw [distributeFrom_cons, distributeFrom_cons]
    exact ih _ _ _

theorem emod_sub_one_shift (r : Nat) (X : Int) :
    ((X + 1) % (r : Int) - 1) % (r : Int) = X % (r : Int) := by
  conv_lhs => rw [Int.sub_emod]
  rw [Int.emod_emod_of_dvd _ dvd_rfl, ← Int.sub_emod,
    show X + 1 - 1 = X from by ring]

theorem cast_mod_cast (a r : Nat) : ((a : Int)) % ((r : Nat) : Int) = ((a % r : Nat) : Int) :=
  (Int.ofNat_emod a r).symm

/-- Distributing a run of `L` ones starting from wire `(T + L) mod r`
fills wire `i` with as many ones as there are `cc ≡ i (mod r)` in
`(T, T + L]`, and leaves the walk at wire `T mod r`. -/
theorem distribute_ones (r : Nat) (b : Int) (hr : 0 < r) :
    ∀ (L T : Nat),
      (distributeFrom r b (List.replicate L 1) (List.replicate r [])
          (((T + L : Nat) : Int) % (r : Int))).2 = ((T : Nat) : Int) % (r : Int)
      ∧ ∀ i, i < r →
        (distributeFrom r b (List.replicate L 1) (List.replicate r [])
            (((T + L : Nat) : Int) % (r : Int))).1.getD i []
          = List.replicate (uCount r T L i) 1 := by
  intro L
  induction L with
  | zero =>
    intro T
    constructor
    · show (((T + 0 : Nat) : Int) % (r : Int)) = ((T : Nat) : Int) % (r : Int)
      rw [Nat.add_zero]
    · intro i hi
      show (List.replicate r ([] : List Nat)).getD i [] = List.replicate (uCount r T 0 i) 1
      rw [getD_replicate_nil]
      rfl
  | succ L ih =>
    intro T
    have hw0 : (0 : Int) ≤ ((T + (L + 1) : Nat) : Int) % (r : Int) := by
      apply Int.emod_nonneg
      exact_mod_cast hr.ne'
    have hw1 : ((T + (L + 1) : Nat) : Int) % (r : Int) < (r : Int) := by
      apply Int.emod_lt_of_pos
      exact_mod_cast hr
    have hstep : G_abacus_step r b (((T + (L + 1) : Nat) : Int) % (r : Int)) 1
        = ((T + L : Nat) : Int) % (r : Int) := by
      unfold G_abacus_step
      have h1 : ((T + (L + 1) : Nat) : Int) = ((T + L : Nat) : Int) + 1 := by push_cast; ring
      rw [h1]
      have h2 := emod_sub_one_shift r ((T + L : Nat) : Int)
      rw [← h2]
      refine congrArg₂ _ ?_ rfl
      push_cast
      ring
    have hrep : List.replicate (L + 1) 1 = 1 :: List.replicate L 1 := rfl
    have hcons : distributeFrom r b (List.replicate (L + 1) 1) (List.replicate r [])
          (((T + (L + 1) : Nat) : Int) % (r : Int))
        = distributeFrom r b (List.replicate L 1)
            (appendAt (List.replicate r [])
              ((((T + (L + 1) : Nat) : Int) % (r : Int))).toNat 1)
            (((T + L : Nat) : Int) % (r : Int)) := by
      rw [hrep, distributeFrom_cons, hstep]
    obtain ⟨ih2, ih1⟩ := ih T
    constructor
    · rw [hcons, distributeFrom_snd r b _ _ (List.replicate r []), ih2]
    · intro i hi
      have hlen : (appendAt (List.replicate r [])
          ((((T + (L + 1) : Nat) : Int) % (r : Int))).toNat 1).length = r := by
        rw [appendAt_length, List.length_replicate]
      rw [hcons, distributeFrom_getD r b hr _ _ _ hlen
        (by
          apply Int.emod_nonneg
          exact_mod_cast hr.ne')
        (by
          apply Int.emod_lt_of_pos
          exact_mod_cast hr) i, ih1 i hi]
      rw [appendAt_getD _ _ _ _ (by rw [List.length_replicate]; omega),
        getD_replicate_nil]
      have htn : ((((T + (L + 1) : Nat) : Int) % (r : Int))).toNat = (T + L + 1) % r := by
        rw [cast_mod_cast]
        rw [show T + (L + 1) = T + L + 1 from rfl]
        rfl
      rw [htn]
      have hu := uCount_succ r T L i
      rw [show T + 1 + L = T + L + 1 from by omega] at hu
      by_cases hcond : i = (T + L + 1) % r
      · rw [if_pos hcond, hu, if_pos hcond.symm, List.replicate_succ]
        rfl
      · rw [if_neg hcond, hu, if_neg (fun hx => hcond hx.symm), Nat.add_zero,
          List.nil_append]

/-! ### Facts about the quotient list and the boundary word head -/

theorem G_quotient_eq_map (p : List Nat) (r : Nat) (b : Int) :
    G_quotient p r b false
      = (G_abacus p r b).map (fun wire => from_zero_one (invert_zero_one wire)) := rfl

theorem G_quotient_length (p : List Nat) (r : Nat) (b : Int) :
    (G_quotient p r b false).length = r := by
  rw [G_quotient_eq_map, List.length_map]
  exact G_abacus_length p r b

theorem G_quotient_getD (p : List Nat) (r : Nat) (b : Int) (i : Nat) (hi : i < r) :
    (G_quotient p r b false).getD i []
      = from_zero_one (invert_zero_one ((G_abacus p r b).getD i [])) := by
  rw [G_quotient_eq_map,
    getD_map_lt _ _ i (by rw [G_abacus_length]; omega) [] []]

theorem G_quotient_mem_partition (p : List Nat) (r : Nat) (b : Int) :
    ∀ mu ∈ G_quotient p r b false, isPartition mu := by
  intro mu hmu
  rw [G_quotient_eq_map] at hmu
  rcases List.mem_map.mp hmu with ⟨wire, hwire, rfl⟩
  exact (wire_canonical wire (G_abacus_binary p r b wire hwire)).1

/-- The boundary word of a nonempty partition starts with an east step. -/
theorem seq_head_one (p : List Nat) (hp : isPartition p) (hne : p ≠ []) :
    (zero_one_sequence p).getD 0 2 = 1 := by
  have hlen0 : 0 < p.headD 0 + p.length := by
    cases p with
    | nil => exact absurd rfl hne
    | cons m t => simp
  rw [zero_one_sequence_eq, getD_range_map _ _ 0 2 hlen0]
  rw [if_neg ?_]
  intro hcontra
  rw [List.contains_eq_any_beq] at hcontra
  rw [List.any_eq_true] at hcontra
  obtain ⟨x, hxmem, hxeq⟩ := hcontra
  rw [beq_iff_eq] at hxeq
  obtain ⟨i, hilt, hieq⟩ := (mem_tmpInt p x).mp hxmem
  have hpos : 0 < p.getD i 0 := hp.2 _ (getD_mem_of_lt p i 0 hilt)
  omega

/-- The `quotient = None` branch of `from_G_charges_and_quotient` builds
the pure padding abacus of the charges (`charges_quotient_abacus` with an
empty quotient list) and hands it to `from_G_abacus`. -/
theorem from_G_charges_none_unfold (charges : List Int) (r : Nat) (b : Int)
    (hr : 1 ≤ r) (hlen : charges.length = r) (hsum : charges.sum = 0) :
    from_G_charges_and_quotient charges none r b
      = from_G_abacus (charges_quotient_abacus charges [] r) (some r) b := by
  obtain ⟨M, hmax⟩ : ∃ M, charges.max? = some M := by
    cases hmx : charges.max? with
    | none =>
      rw [List.max?_eq_none_iff] at hmx
      rw [hmx] at hlen
      simp at hlen
      omega
    | some M => exact ⟨M, rfl⟩
  have hA : charges_quotient_abacus charges [] r
      = (List.range r).map (fun i =>
          List.replicate ((M - charges.getD i 0).toNat) (1 : Nat)
            ++ (List.replicate r ([] : List Nat)).getD i []) := by
    unfold charges_quotient_abacus
    rw [hmax]
    refine List.map_congr_left ?_
    intro i _
    simp only [Option.getD_some, List.map_nil, List.getD_nil, getD_replicate_nil]
  have hwire : ∀ i ∈ List.range r,
      (List.replicate ((M - charges.getD i 0).toNat) (1 : Nat)
        ++ (List.replicate r ([] : List Nat)).getD i []).length
      = (M - charges.getD i 0).toNat
      ∧ (List.replicate ((M - charges.getD i 0).toNat) (1 : Nat)
        ++ (List.replicate r ([] : List Nat)).getD i []).sum
      = (M - charges.getD i 0).toNat := by
    intro i _
    rw [getD_replicate_nil, List.append_nil, List.length_replicate, List.sum_replicate]
    simp [smul_eq_mul]
  have hsz : ((((List.range r).map (fun i =>
        List.replicate ((M - charges.getD i 0).toNat) (1 : Nat)
          ++ (List.replicate r ([] : List Nat)).getD i [])).map List.length).sum : Int)
      = (r : Int) * (2 * ((0 : Nat) : Int) + M) := by
    rw [List.map_map]
    rw [List.map_congr_left (fun i hi =>
      show (List.length ∘ fun i => List.replicate ((M - charges.getD i 0).toNat) (1 : Nat)
        ++ (List.replicate r ([] : List Nat)).getD i []) i
        = (M - charges.getD i 0).toNat from (hwire i hi).1)]
    rw [sum_deficits charges r M hlen hsum hmax]
    push_cast
    ring
  have hon : ((((List.range r).map (fun i =>
        List.replicate ((M - charges.getD i 0).toNat) (1 : Nat)
          ++ (List.replicate r ([] : List Nat)).getD i [])).map List.sum).sum : Int)
      = (r : Int) * (((0 : Nat) : Int) + M) := by
    rw [List.map_map]
    rw [List.map_congr_left (fun i hi =>
      show (List.sum ∘ fun i => List.replicate ((M - charges.getD i 0).toNat) (1 : Nat)
        ++ (List.replicate r ([] : List Nat)).getD i []) i
        = (M - charges.getD i 0).toNat from (hwire i hi).2)]
    rw [sum_deficits charges r M hlen hsum hmax]
    push_cast
    ring
  unfold from_G_charges_and_quotient
  dsimp only
  rw [if_neg (show ¬charges.length ≠ r by omega),
    if_neg (show ¬charges.sum ≠ 0 by omega), hmax]
  dsimp only
  rw [hA]
  split
  · next h => exact absurd hsz h
  · split
    · next h2 => exact absurd hon h2
    · rfl

/-! ### Determinism of the merge loop -/

theorem mergeRun_stop (r : Nat) (b : Int) (total f : Nat) (X : MState)
    (h : ¬ X.read < total) : mergeRun r b total f X = some X := by
  cases f with
  | zero => simp only [mergeRun, if_neg h]
  | succ f2 => simp only [mergeRun, if_neg h]

theorem mergeRun_go (r : Nat) (b : Int) (total f : Nat) (X : MState)
    (h : X.read < total) :
    mergeRun r b total (f + 1) X = mergeRun r b total f (mergeStep r b X) := by
  simp only [mergeRun, if_pos h]

/-- The merge loop is fuel-oblivious: two successful runs from the same
state agree, whatever fuel each was given. -/
theorem merge_det (r : Nat) (b : Int) (total : Nat) :
    ∀ (f f' : Nat) (X st st' : MState),
      mergeRun r b total f X = some st → mergeRun r b total f' X = some st' → st = st' := by
  intro f
  induction f with
  | zero =>
    intro f' X st st' h1 h2
    by_cases hrt : X.read < total
    · simp only [mergeRun, if_pos hrt] at h1
      exact absurd h1 (by simp)
    · rw [mergeRun_stop r b total 0 X hrt] at h1
      rw [mergeRun_stop r b total f' X hrt] at h2
      rw [← Option.some.inj h1, ← Option.some.inj h2]
  | succ f ih =>
    intro f' X st st' h1 h2
    by_cases hrt : X.read < total
    · rw [mergeRun_go r b total f X hrt] at h1
      cases f' with
      | zero =>
        simp only [mergeRun, if_pos hrt] at h2
        exact absurd h2 (by simp)
      | succ f2 =>
        rw [mergeRun_go r b total f2 X hrt] at h2
        exact ih f2 (mergeStep r b X) st st' h1 h2
    · rw [mergeRun_stop r b total (f + 1) X hrt] at h1
      rw [mergeRun_stop r b total f' X hrt] at h2
      rw [← Option.some.inj h1, ← Option.some.inj h2]

/-! ### Helpers for assembling padded wires -/

theorem invert_append (s t : List Nat) :
    invert_zero_one (s ++ t) = invert_zero_one s ++ invert_zero_one t := by
  unfold invert_zero_one
  rw [List.map_append]

theorem invert_replicate_one (L : Nat) :
    invert_zero_one (List.replicate L 1) = List.replicate L 0 := by
  unfold invert_zero_one
  rw [List.map_replicate]

/-- Padded forms of the same core word agree up to trailing zeros as soon
as the total padding of leading ones matches. -/
theorem wire_pad_eq (x1 x2 y1 y2 z1 z2 : Nat) (mid : List Nat) (hx : x1 + x2 = y1 + y2) :
    List.replicate x1 1 ++ (List.replicate x2 1 ++ mid ++ List.replicate z1 0)
        ++ List.replicate z2 0
      = List.replicate y1 1 ++ (List.replicate y2 1 ++ mid ++ List.replicate z2 0)
        ++ List.replicate z1 0 := by
  calc
    List.replicate x1 1 ++ (List.replicate x2 1 ++ mid ++ List.replicate z1 0)
        ++ List.replicate z2 0
        = (List.replicate x1 1 ++ List.replicate x2 1) ++ mid
            ++ (List.replicate z1 0 ++ List.replicate z2 0) := by
          simp only [List.append_assoc]
    _ = List.replicate (x1 + x2) 1 ++ mid ++ List.replicate (z1 + z2) 0 := by
          rw [← List.replicate_add, ← List.replicate_add]
    _ = List.replicate (y1 + y2) 1 ++ mid ++ List.replicate (z2 + z1) 0 := by
          rw [hx, Nat.add_comm z1 z2]
    _ = (List.replicate y1 1 ++ List.replicate y2 1) ++ mid
          ++ (List.replicate z2 0 ++ List.replicate z1 0) := by
          rw [List.replicate_add, List.replicate_add]
    _ = List.replicate y1 1 ++ (List.replicate y2 1 ++ mid ++ List.replicate z2 0)
          ++ List.replicate z1 0 := by
          simp only [List.append_assoc]

theorem cqa_length (charges : List Int) (q : List (List Nat)) (r : Nat) :
    (charges_quotient_abacus charges q r).length = r := by
  unfold charges_quotient_abacus
  rw [List.length_map, List.length_range]

theorem cqa_ones_nat (charges : List Int) (q : List (List Nat)) (r : Nat) (M : Int)
    (hr : 1 ≤ r) (hlen : charges.length = r) (hsum : charges.sum = 0)
    (hq : q.length = r) (hparts : ∀ mu ∈ q, isPartition mu)
    (hmax : charges.max? = some M) (hM0 : 0 ≤ M) :
    abacusOnes (charges_quotient_abacus charges q r) = r * (M.toNat + quotient_n q) := by
  have h := cqa_ones charges q r M hr hlen hsum hq hparts hmax
  have hMt : ((M.toNat : Nat) : Int) = M := Int.toNat_of_nonneg hM0
  have hcast : ((abacusOnes (charges_quotient_abacus charges q r) : Nat) : Int)
      = ((r * (M.toNat + quotient_n q) : Nat) : Int) := by
    rw [h]
    push_cast
    rw [hMt]
    ring
  exact_mod_cast hcast

/-- The first symbol of the boundary word is an east step, so the wire
`len(p) mod r` of the abacus starts with a 0 symbol. -/
theorem G_abacus_start_wire_head (p : List Nat) (r : Nat) (b : Int)
    (hp : isPartition p) (hr0 : 0 < r) (hpne : p ≠ []) :
    ((G_abacus p r b).getD (p.length % r) []).headD 2 = 0 := by
  have hslen : 0 < (zero_one_sequence p).length := by
    rw [zero_one_sequence_length]
    cases p with
    | nil => exact absurd rfl hpne
    | cons m t => simp
  have hw0 : (invert_zero_one (zero_one_sequence p)).getD 0 2 = 0 := by
    have h1 := seq_head_one p hp hpne
    unfold invert_zero_one
    rw [getD_map_lt _ _ 0 hslen 2 2]
    show 1 - (zero_one_sequence p).getD 0 2 = 0
    rw [h1]
  obtain ⟨wrest, hwc⟩ : ∃ wrest, invert_zero_one (zero_one_sequence p) = 0 :: wrest := by
    cases hwcase : invert_zero_one (zero_one_sequence p) with
    | nil =>
      rw [hwcase] at hw0
      simp [List.getD] at hw0
    | cons w0 wrest =>
      rw [hwcase, List.getD_cons_zero] at hw0
      exact ⟨wrest, by rw [hw0]⟩
  have hsum0 : (0 :: wrest).sum = p.length := by
    rw [← hwc, seq_ones_count p hp]
  have hGA : G_abacus p r b
      = (distributeFrom r b (invert_zero_one (zero_one_sequence p)) (List.replicate r [])
          (G_abacus_start (invert_zero_one (zero_one_sequence p)) r)).1 := rfl
  rw [hGA, hwc]
  rw [distributeFrom_cons_getD r b hr0 0 wrest _ (G_abacus_start_nonneg _ r hr0)
    (G_abacus_start_lt _ r hr0) (p.length % r)]
  have htn : (G_abacus_start (0 :: wrest) r).toNat = p.length % r := by
    unfold G_abacus_start
    rw [hsum0, cast_mod_cast]
    rfl
  rw [if_pos htn.symm]
  rfl

/-- The padding count of the core abacus is nonnegative: the start wire
holds no leading ones, which bounds the total of ones by `r*(c_max + n)`. -/
theorem core_padding_bound (p : List Nat) (r : Nat) (b : Int) (M : Int)
    (hp : isPartition p) (hr : 1 ≤ r)
    (hmax : (G_charges p r b).max? = some M) (hM0 : 0 ≤ M) :
    p.length ≤ r * (M.toNat + quotient_n (G_quotient p r b false)) := by
  have hr0 : 0 < r := hr
  rcases eq_or_ne p [] with rfl | hpne
  · simp
  · have hi₀ : p.length % r < r := Nat.mod_lt _ hr0
    have hqlen : (G_quotient p r b false).length = r := G_quotient_length p r b
    have hchlen : (G_charges p r b).length = r := G_charges_length p r b
    have hT : abacusOnes (G_abacus p r b) = p.length := by
      rw [G_abacus_ones p r b hr0, seq_ones_count p hp]
    have hAh := G_abacus_start_wire_head p r b hp hr0 hpne
    obtain ⟨hPi, a, e, hform⟩ :=
      wire_canonical _ (G_abacus_getD_binary p r b (p.length % r))
    have ha0 : a = 0 := by
      by_contra hne0
      obtain ⟨a2, ha2⟩ : ∃ a2, a = a2 + 1 := ⟨a - 1, by omega⟩
      rw [hform, ha2, List.replicate_succ] at hAh
      simp at hAh
    have hqD : (G_quotient p r b false).getD (p.length % r) []
        = from_zero_one (invert_zero_one ((G_abacus p r b).getD (p.length % r) [])) :=
      G_quotient_getD p r b _ hi₀
    have hones : ((G_abacus p r b).getD (p.length % r) []).sum
        = ((G_quotient p r b false).getD (p.length % r) []).length := by
      rw [hform, ha0, hqD]
      rw [List.sum_append, List.sum_append, List.sum_replicate, List.sum_replicate,
        seq_ones_count _ hPi]
      simp [smul_eq_mul]
    have hk : ((G_quotient p r b false).getD (p.length % r) []).length
        ≤ quotient_n (G_quotient p r b false) := by
      have hmem := getD_mem_of_lt (G_quotient p r b false) (p.length % r) [] (by omega)
      exact le_trans (dyck_half_ge_length _) (quotient_n_bound _ _ hmem)
    have hchD : (G_charges p r b).getD (p.length % r) 0
        = ((eCount r p.length (p.length % r) : Nat) : Int)
          - (((G_abacus p r b).getD (p.length % r) []).sum : Int) := by
      conv_lhs => rw [G_charges_eq]
      rw [getD_range_map _ r _ 0 hi₀, hT, eCount_formula r hr0 _ hi₀]
    have hchle := int_max?_ge _ M hmax _
      (getD_mem_of_lt (G_charges p r b) (p.length % r) 0 (by omega))
    rw [hchD, hones] at hchle
    have hEv : eCount r p.length (p.length % r)
        = p.length / r + (if 0 < p.length % r then 1 else 0) := by
      rw [eCount_formula r hr0 _ hi₀]
      by_cases h0 : 0 < p.length % r
      · rw [if_pos ⟨h0, le_refl _⟩, if_pos h0]
      · rw [if_neg (by omega), if_neg h0]
    rw [hEv] at hchle
    have hMt : ((M.toNat : Nat) : Int) = M := Int.toNat_of_nonneg hM0
    have hdm := Nat.div_add_mod p.length r
    by_cases h0 : 0 < p.length % r
    · rw [if_pos h0] at hchle
      have hNat : p.length / r + 1
          ≤ M.toNat + quotient_n (G_quotient p r b false) := by omega
      have hmul := Nat.mul_le_mul_left r hNat
      have hexp : r * (p.length / r + 1) = r * (p.length / r) + r := by ring
      omega
    · rw [if_neg h0] at hchle
      have hNat : p.length / r
          ≤ M.toNat + quotient_n (G_quotient p r b false) := by omega
      have hmul := Nat.mul_le_mul_left r hNat
      omega

/-- Distributing the boundary word with `L` extra leading ones: wire `i`
is the abacus wire of `p` with `uCount` extra leading ones. -/
theorem dist_padded_getD (p : List Nat) (r : Nat) (b : Int) (hp : isPartition p)
    (hr0 : 0 < r) (L : Nat) (i : Nat) (hi : i < r) :
    (distributeFrom r b (List.replicate L 1 ++ invert_zero_one (zero_one_sequence p))
        (List.replicate r []) (((p.length + L : Nat) : Int) % (r : Int))).1.getD i []
      = List.replicate (uCount r p.length L i) 1 ++ (G_abacus p r b).getD i [] := by
  rw [distributeFrom_append]
  obtain ⟨hsnd, hfst⟩ := distribute_ones r b hr0 L p.length
  rw [hsnd]
  rw [distributeFrom_getD r b hr0 _ _ _
    (by rw [distributeFrom_fst_length, List.length_replicate])
    (Int.emod_nonneg _ (by exact_mod_cast hr0.ne'))
    (Int.emod_lt_of_pos _ (by exact_mod_cast hr0)) i]
  rw [hfst i hi]
  refine congrArg₂ _ rfl ?_
  have hs : G_abacus_start (invert_zero_one (zero_one_sequence p)) r
      = ((p.length : Nat) : Int) % (r : Int) := by
    unfold G_abacus_start
    rw [seq_ones_count p hp]
  rw [show G_abacus p r b
    = (distributeFrom r b (invert_zero_one (zero_one_sequence p)) (List.replicate r [])
        (G_abacus_start (invert_zero_one (zero_one_sequence p)) r)).1 from rfl, hs]

/-- Reconstruction from the derived charges and quotient recovers the
partition: the composite round trip behind `from_G_core_and_quotient`. -/
theorem reconstruct_charges_quotient (p : List Nat) (r : Nat) (b : Int)
    (hp : isPartition p) (hr : 1 ≤ r) (hgcd : Int.gcd (r : Int) b = 1) :
    from_G_charges_and_quotient (G_charges p r b) (some (G_quotient p r b false)) r b
      = Except.ok p := by
  have hr0 : 0 < r := hr
  have hqlen : (G_quotient p r b false).length = r := G_quotient_length p r b
  have hchlen : (G_charges p r b).length = r := G_charges_length p r b
  have hchsum : (G_charges p r b).sum = 0 := charges_sum_zero p r b hr
  have hqparts := G_quotient_mem_partition p r b
  rw [from_G_charges_and_quotient_unfold _ _ r b hr hchlen hchsum hqlen hqparts]
  obtain ⟨M, hmax⟩ : ∃ M, (G_charges p r b).max? = some M := by
    cases hmx : (G_charges p r b).max? with
    | none =>
      rw [List.max?_eq_none_iff] at hmx
      rw [hmx] at hchlen
      simp at hchlen
      omega
    | some M => exact ⟨M, rfl⟩
  have hMub := int_max?_ge _ M hmax
  have hM0 : 0 ≤ M := by
    have hle := List.sum_le_card_nsmul (G_charges p r b) M hMub
    rw [hchsum, hchlen, nsmul_eq_mul] at hle
    by_contra hneg
    push_neg at hneg
    exact absurd hle (not_le.mpr (mul_neg_of_pos_of_neg (by exact_mod_cast hr0) hneg))
  have hT : abacusOnes (G_abacus p r b) = p.length := by
    rw [G_abacus_ones p r b hr0, seq_ones_count p hp]
  obtain ⟨L, hL⟩ : ∃ L, p.length + L
      = r * (M.toNat + quotient_n (G_quotient p r b false)) := by
    have := core_padding_bound p r b M hp hr hmax hM0
    exact ⟨r * (M.toNat + quotient_n (G_quotient p r b false)) - p.length, by omega⟩
  have hcanon : ∀ i, ∃ a e, (G_abacus p r b).getD i []
      = List.replicate a 1
        ++ invert_zero_one (zero_one_sequence ((G_quotient p r b false).getD i []))
        ++ List.replicate e 0 := by
    intro i
    by_cases hi : i < r
    · obtain ⟨_, a, e, hform⟩ := wire_canonical _ (G_abacus_getD_binary p r b i)
      exact ⟨a, e, by rw [G_quotient_getD p r b i hi]; exact hform⟩
    · refine ⟨0, 0, ?_⟩
      rw [List.getD_eq_default _ [] (by rw [G_abacus_length p r b]; omega),
        List.getD_eq_default _ [] (by rw [hqlen]; omega)]
      rfl
  choose aF eF hFeq using hcanon
  have hqpartD : ∀ i, isPartition ((G_quotient p r b false).getD i []) := by
    intro i
    by_cases hi : i < r
    · exact hqparts _ (getD_mem_of_lt _ _ _ (by omega))
    · rw [List.getD_eq_default _ [] (by rw [hqlen]; omega)]
      exact ⟨fun j hj => absurd hj (by simp), fun x hx => absurd hx (by simp)⟩
  have honesW : ∀ i, ((G_abacus p r b).getD i []).sum
      = aF i + ((G_quotient p r b false).getD i []).length := by
    intro i
    rw [hFeq i, List.sum_append, List.sum_append, List.sum_replicate, List.sum_replicate,
      seq_ones_count _ (hqpartD i)]
    simp [smul_eq_mul]
  have hid : ∀ i, i < r →
      (M - (G_charges p r b).getD i 0).toNat
        + (quotient_n (G_quotient p r b false)
            - ((G_quotient p r b false).getD i []).length)
      = uCount r p.length L i + aF i := by
    intro i hi
    have hchD : (G_charges p r b).getD i 0
        = ((eCount r p.length i : Nat) : Int)
          - (((G_abacus p r b).getD i []).sum : Int) := by
      conv_lhs => rw [G_charges_eq]
      rw [getD_range_map _ r i 0 hi, hT, eCount_formula r hr0 i hi]
    have hMle := hMub _ (getD_mem_of_lt (G_charges p r b) i 0 (by omega))
    have hMt : ((M.toNat : Nat) : Int) = M := Int.toNat_of_nonneg hM0
    have hu : eCount r p.length i + uCount r p.length L i
        = M.toNat + quotient_n (G_quotient p r b false) := by
      rw [← eCount_add r p.length i L, hL, eCount_mul r hr0 i hi]
    have ho := honesW i
    have hk : ((G_quotient p r b false).getD i []).length
        ≤ quotient_n (G_quotient p r b false) := by
      have hmem := getD_mem_of_lt (G_quotient p r b false) i [] (by omega)
      exact le_trans (dyck_half_ge_length _) (quotient_n_bound _ _ hmem)
    omega
  have htot : abacusOnes (charges_quotient_abacus (G_charges p r b)
      (G_quotient p r b false) r) = p.length + L := by
    rw [cqa_ones_nat _ _ r M hr hchlen hchsum hqlen hqparts hmax hM0, hL]
  have hssum : (List.replicate L 1 ++ invert_zero_one (zero_one_sequence p)).sum
      = L + p.length := by
    rw [List.sum_append, List.sum_replicate, seq_ones_count p hp]
    simp [smul_eq_mul]
  have hstart : from_G_abacus_start (charges_quotient_abacus (G_charges p r b)
        (G_quotient p r b false) r) r
      = ((p.length + L : Nat) : Int) % (r : Int) := by
    show ((abacusOnes (charges_quotient_abacus (G_charges p r b)
      (G_quotient p r b false) r) : Nat) : Int) % (r : Int) = _
    rw [htot]
  have hBIG : eqUpToTrailZeros
      (charges_quotient_abacus (G_charges p r b) (G_quotient p r b false) r)
      (distributeFrom r b
        (List.replicate L 1 ++ invert_zero_one (zero_one_sequence p))
        (List.replicate r []) (((p.length + L : Nat) : Int) % (r : Int))).1 := by
    constructor
    · rw [cqa_length, distributeFrom_fst_length, List.length_replicate]
    · intro i
      by_cases hi : i < r
      · have hcqaD : (charges_quotient_abacus (G_charges p r b)
            (G_quotient p r b false) r).getD i []
            = List.replicate ((M - (G_charges p r b).getD i 0).toNat) 1
              ++ to_dyck_word ((G_quotient p r b false).getD i [])
                  (quotient_n (G_quotient p r b false)) := by
          unfold charges_quotient_abacus
          rw [getD_range_map _ r i [] hi, hmax]
          rw [getD_map_lt _ _ i (by omega) ([] : List Nat) ([] : List Nat)]
          simp only [Option.getD_some]
        have hdistD := dist_padded_getD p r b hp hr0 L i hi
        refine ⟨eF i, quotient_n (G_quotient p r b false)
          - ((G_quotient p r b false).getD i []).headD 0, ?_⟩
        rw [hcqaD, hdistD, hFeq i]
        unfold to_dyck_word
        exact wire_pad_eq _ _ _ _ _ _ _ (hid i hi)
      · refine ⟨0, 0, ?_⟩
        rw [List.getD_eq_default _ [] (by rw [cqa_length]; omega),
          List.getD_eq_default _ []
            (by rw [distributeFrom_fst_length, List.length_replicate]; omega)]
  have hstrip : stripTrailingZeros
      (List.replicate L 1 ++ invert_zero_one (zero_one_sequence p))
      = List.replicate L 1 ++ invert_zero_one (zero_one_sequence p) := by
    cases p with
    | nil =>
      rw [show invert_zero_one (zero_one_sequence ([] : List Nat)) = [] from rfl,
        List.append_nil]
      refine stripTrailingZeros_eq_self _ ?_
      intro x hx
      rw [List.eq_of_mem_replicate hx]
      omega
    | cons m q2 =>
      rw [zero_one_sequence_cons m q2 hp, invert_append, invert_append,
        show invert_zero_one [0] = [1] from rfl]
      simp only [← List.append_assoc]
      exact strip_append_one _
  obtain ⟨st, hrun, hout, hread⟩ := mergeRun_lockstep r b hr0
    (List.replicate L 1 ++ invert_zero_one (zero_one_sequence p))
    (((p.length + L : Nat) : Int) % (r : Int))
    (Int.emod_nonneg _ (by exact_mod_cast hr0.ne'))
    (Int.emod_lt_of_pos _ (by exact_mod_cast hr0))
    (charges_quotient_abacus (G_charges p r b) (G_quotient p r b false) r) hBIG
    [] 0
    ((List.map List.sum (charges_quotient_abacus (G_charges p r b)
      (G_quotient p r b false) r)).sum)
    ((stripTrailingZeros
      (List.replicate L 1 ++ invert_zero_one (zero_one_sequence p))).length)
    (by
      show 0 + (List.replicate L 1 ++ invert_zero_one (zero_one_sequence p)).sum
        = abacusOnes (charges_quotient_abacus (G_charges p r b)
            (G_quotient p r b false) r)
      rw [hssum, htot]
      omega)
    (le_refl _)
  obtain ⟨st₁, hrun₁⟩ := mergeRun_completes r b hr0 hgcd
    ((List.map List.sum (charges_quotient_abacus (G_charges p r b)
      (G_quotient p r b false) r)).sum)
    (r * ((List.map List.length (charges_quotient_abacus (G_charges p r b)
      (G_quotient p r b false) r)).sum + 1))
    (MState.mk (charges_quotient_abacus (G_charges p r b) (G_quotient p r b false) r)
      (((p.length + L : Nat) : Int) % (r : Int)) [] 0)
    (cqa_length _ _ _)
    (Int.emod_nonneg _ (by exact_mod_cast hr0.ne'))
    (Int.emod_lt_of_pos _ (by exact_mod_cast hr0))
    (by
      show 0 + abacusOnes (charges_quotient_abacus (G_charges p r b)
          (G_quotient p r b false) r)
        = abacusOnes (charges_quotient_abacus (G_charges p r b)
            (G_quotient p r b false) r)
      omega)
    (by
      have hd := distToNonempty_le r b
        (charges_quotient_abacus (G_charges p r b) (G_quotient p r b false) r)
        (((p.length + L : Nat) : Int) % (r : Int))
      show r * abacusSize (charges_quotient_abacus (G_charges p r b)
            (G_quotient p r b false) r)
          + distToNonempty r b (charges_quotient_abacus (G_charges p r b)
              (G_quotient p r b false) r)
            (((p.length + L : Nat) : Int) % (r : Int))
        ≤ r * (abacusSize (charges_quotient_abacus (G_charges p r b)
            (G_quotient p r b false) r) + 1)
      have hexp : r * (abacusSize (charges_quotient_abacus (G_charges p r b)
          (G_quotient p r b false) r) + 1)
          = r * abacusSize (charges_quotient_abacus (G_charges p r b)
              (G_quotient p r b false) r) + r := by ring
      omega)
  have hdet := merge_det r b _ _ _ _ _ _ hrun₁ hrun
  unfold from_G_abacus
  dsimp only
  rw [Option.getD_some]
  rw [if_neg (by simp [hgcd])]
  rw [if_neg (by omega : ¬ r = 0)]
  rw [hstart, hrun₁]
  show Except.ok (from_zero_one (invert_zero_one st₁.out)) = Except.ok p
  rw [hdet, hout, hstrip, List.nil_append]
  rw [invert_append, invert_replicate_one,
    invert_invert _ (zero_one_sequence_binary p),
    from_zero_one_replicate_zero, from_zero_one_zero_one_sequence p hp]

/-! ### The distribution walk: value formula and wire contents -/

theorem walkFrom_nil (r : Nat) (b : Int) (w0 : Int) : walkFrom r b [] w0 = w0 := rfl

theorem walkFrom_cons (r : Nat) (b : Int) (c : Nat) (s : List Nat) (w0 : Int) :
    walkFrom r b (c :: s) w0 = walkFrom r b s (G_abacus_step r b w0 c) := rfl

theorem emod_absorb_left (r : Nat) (X y : Int) :
    ((X % (r : Int)) + y) % (r : Int) = (X + y) % (r : Int) := by
  rw [Int.add_emod, Int.emod_emod_of_dvd _ dvd_rfl, ← Int.add_emod]

/-- Value of the walk after a binary prefix: start plus `b` per east step
minus one per north step, mod `r`. -/
theorem walkFrom_value (r : Nat) (b : Int) :
    ∀ (u : List Nat), isBinary u → ∀ (X : Int),
      walkFrom r b u (X % (r : Int))
        = (X + b * ((u.length : Int) - (u.sum : Int)) - (u.sum : Int)) % (r : Int) := by
  intro u
  induction u with
  | nil =>
    intro _ X
    rw [walkFrom_nil]
    simp
  | cons c u ih =>
    intro hbin X
    rw [walkFrom_cons]
    have hstep : G_abacus_step r b (X % (r : Int)) c
        = (X + (b * (1 - (c : Int)) - c)) % (r : Int) := by
      unfold G_abacus_step
      rw [show (X % (r : Int)) + b * (1 - (c : Int)) - c
        = (X % (r : Int)) + (b * (1 - (c : Int)) - c) from by ring,
        emod_absorb_left r X _]
    rw [hstep, ih (fun x hx => hbin x (List.mem_cons_of_mem c hx))]
    refine congrArg₂ _ ?_ rfl
    rw [List.length_cons, List.sum_cons]
    push_cast
    ring

theorem take_pred_shift (r : Nat) (b : Int) (c : Nat) (s : List Nat) (w0 : Int) (i : Nat) :
    ((fun t => (walkFrom r b ((c :: s).take t) w0).toNat == i) ∘ Nat.succ)
      = (fun t => (walkFrom r b (s.take t) (G_abacus_step r b w0 c)).toNat == i) := by
  funext t
  show ((walkFrom r b ((c :: s).take (t + 1)) w0).toNat == i) = _
  rw [List.take_succ_cons, walkFrom_cons]

theorem getD_shift (c : Nat) (s : List Nat) :
    ((fun t => (c :: s).getD t 0) ∘ Nat.succ) = (fun t => s.getD t 0) := by
  funext t
  show (c :: s).getD (t + 1) 0 = s.getD t 0
  rw [List.getD_cons_succ]

/-- Wire `i` of the distribution holds, in order, exactly the symbols of
the word whose walk position is `i`. -/
theorem distributeFrom_getD_filter (r : Nat) (b : Int) (hr : 0 < r) :
    ∀ (s : List Nat) (w0 : Int), 0 ≤ w0 → w0 < r → ∀ i, i < r →
      (distributeFrom r b s (List.replicate r []) w0).1.getD i []
        = ((List.range s.length).filter
            (fun t => (walkFrom r b (s.take t) w0).toNat == i)).map
            (fun t => s.getD t 0) := by
  intro s
  induction s with
  | nil =>
    intro w0 _ _ i _
    rw [distributeFrom_nil]
    rw [getD_replicate_nil]
    rfl
  | cons c s ih =>
    intro w0 hw0 hwr i hi
    rw [distributeFrom_cons_getD r b hr c s w0 hw0 hwr i]
    rw [ih (G_abacus_step r b w0 c) (G_abacus_step_nonneg r b w0 c hr)
      (G_abacus_step_lt r b w0 c hr) i hi]
    rw [List.length_cons, List.range_succ_eq_map, List.filter_cons, List.filter_map,
      take_pred_shift, apply_ite (List.map (fun t => (c :: s).getD t 0)),
      List.map_cons, List.map_map, getD_shift]
    have hp0 : ((walkFrom r b ((c :: s).take 0) w0).toNat == i) = (w0.toNat == i) := rfl
    rw [hp0]
    by_cases hcase : i = w0.toNat
    · rw [if_pos hcase, if_pos (by rw [hcase]; exact beq_self_eq_true _)]
      rfl
    · have hne : ¬ ((w0.toNat == i) = true) := by
        rw [beq_iff_eq]
        exact fun h => hcase h.symm
      rw [if_neg hcase, if_neg hne]

/-- An inversion on a wire corresponds to an ordered pair of word
positions routed to that wire carrying an east then a north step. -/
theorem inversion_transfer (s : List Nat) (P : Nat → Bool) :
    hasInversion (((List.range s.length).filter P).map (fun t => s.getD t 0))
      ↔ ∃ t1 t2, t1 < t2 ∧ t2 < s.length ∧ P t1 = true ∧ P t2 = true
          ∧ s.getD t1 0 = 0 ∧ s.getD t2 0 = 1 := by
  have hpw : ((List.range s.length).filter P).Pairwise (· < ·) :=
    (List.pairwise_lt_range s.length).filter P
  constructor
  · rintro ⟨j1, j2, hj12, hj2, hv1, hv2⟩
    rw [List.length_map] at hj2
    have hj1 : j1 < ((List.range s.length).filter P).length := lt_trans hj12 hj2
    have hm1 := List.getElem_mem hj1
    have hm2 := List.getElem_mem hj2
    refine ⟨((List.range s.length).filter P)[j1], ((List.range s.length).filter P)[j2],
      List.pairwise_iff_getElem.mp hpw j1 j2 hj1 hj2 hj12,
      List.mem_range.mp (List.mem_filter.mp hm2).1,
      (List.mem_filter.mp hm1).2, (List.mem_filter.mp hm2).2, ?_, ?_⟩
    · rw [List.getD_eq_getElem _ 9 (by rw [List.length_map]; exact hj1)] at hv1
      rw [List.getElem_map] at hv1
      exact hv1
    · rw [List.getD_eq_getElem _ 9 (by rw [List.length_map]; exact hj2)] at hv2
      rw [List.getElem_map] at hv2
      exact hv2
  · rintro ⟨t1, t2, h12, h2len, hP1, hP2, hc1, hc2⟩
    have h1len : t1 < s.length := lt_trans h12 h2len
    have hm1 : t1 ∈ (List.range s.length).filter P :=
      List.mem_filter.mpr ⟨List.mem_range.mpr h1len, hP1⟩
    have hm2 : t2 ∈ (List.range s.length).filter P :=
      List.mem_filter.mpr ⟨List.mem_range.mpr h2len, hP2⟩
    obtain ⟨j1, hj1, he1⟩ := List.mem_iff_getElem.mp hm1
    obtain ⟨j2, hj2, he2⟩ := List.mem_iff_getElem.mp hm2
    have hj12 : j1 < j2 := by
      rcases Nat.lt_trichotomy j1 j2 with h | h | h
      · exact h
      · exfalso
        subst h
        rw [he2] at he1
        omega
      · exfalso
        have := List.pairwise_iff_getElem.mp hpw j2 j1 hj2 hj1 h
        rw [he1, he2] at this
        omega
    refine ⟨j1, j2, hj12, by rw [List.length_map]; exact hj2, ?_, ?_⟩
    · rw [List.getD_eq_getElem _ 9 (by rw [List.length_map]; exact hj1), List.getElem_map]
      show s.getD (((List.range s.length).filter P)[j1]) 0 = 0
      rw [he1]
      exact hc1
    · rw [List.getD_eq_getElem _ 9 (by rw [List.length_map]; exact hj2), List.getElem_map]
      show s.getD (((List.range s.length).filter P)[j2]) 0 = 1
      rw [he2]
      exact hc2

theorem filter_singleton_length (k : Nat) (p : Nat → Bool) :
    (List.filter p [k]).length = if p k = true then 1 else 0 := by
  by_cases hp : p k = true
  · rw [if_pos hp]
    simp [List.filter_cons, hp]
  · rw [if_neg hp]
    simp [List.filter_cons, Bool.eq_false_iff.mpr hp]

theorem filter_range_unique (p : Nat → Bool) :
    ∀ (k i₀ : Nat), i₀ < k → p i₀ = true → (∀ j, j < k → p j = true → j = i₀) →
      ((List.range k).filter p).length = 1 := by
  intro k
  induction k with
  | zero => intro i₀ h; omega
  | succ k ih =>
    intro i₀ hi₀ hp huniq
    rw [List.range_succ, List.filter_append, List.length_append, filter_singleton_length]
    by_cases hk : p k = true
    · have hki : k = i₀ := huniq k (by omega) hk
      have hnil : (List.range k).filter p = [] := by
        rw [List.filter_eq_nil_iff]
        intro j hj
        rw [List.mem_range] at hj
        intro hpj
        have := huniq j (by omega) hpj
        omega
      rw [hnil, if_pos hk]
      rfl
    · have hik : i₀ < k := by
        rcases Nat.lt_or_ge i₀ k with h | h
        · exact h
        · exfalso
          have : i₀ = k := by omega
          rw [this] at hp
          exact hk hp
      rw [if_neg hk, ih i₀ hik hp (fun j hj hpj => huniq j (by omega) hpj)]

theorem length_filter_range_gt (c : Nat) :
    ∀ (k : Nat), ((List.range k).filter (fun x => decide (c < x))).length = k - (c + 1) := by
  intro k
  induction k with
  | zero => simp
  | succ k ih =>
    rw [List.range_succ, List.filter_append, List.length_append, filter_singleton_length, ih]
    by_cases h : c < k
    · rw [if_pos (by simpa using h)]
      omega
    · rw [if_neg (by simpa using h)]
      omega

theorem length_filter_range_ge (c : Nat) :
    ∀ (k : Nat), ((List.range k).filter (fun x => decide (c ≤ x))).length = k - c := by
  intro k
  induction k with
  | zero => simp
  | succ k ih =>
    rw [List.range_succ, List.filter_append, List.length_append, filter_singleton_length, ih]
    by_cases h : c ≤ k
    · rw [if_pos (by simpa using h)]
      omega
    · rw [if_neg (by simpa using h)]
      omega

theorem length_filter_le_succ (k : Nat) (f : Nat → Nat) (t : Nat) :
    ((List.range k).filter (fun i => decide (f i ≤ t + 1))).length
      = ((List.range k).filter (fun i => decide (f i ≤ t))).length
        + ((List.range k).filter (fun i => decide (f i = t + 1))).length := by
  induction k with
  | zero => rfl
  | succ k ih =>
    rw [List.range_succ, List.filter_append, List.filter_append, List.filter_append,
      List.length_append, List.length_append, List.length_append, ih,
      filter_singleton_length, filter_singleton_length, filter_singleton_length]
    rcases Nat.lt_trichotomy (f k) (t + 1) with h | h | h
    · rw [if_pos (by simpa using (by omega : f k ≤ t + 1)),
        if_pos (by simpa using (by omega : f k ≤ t)),
        if_neg (by simpa using (by omega : ¬ f k = t + 1))]
      omega
    · rw [if_pos (by simpa using (by omega : f k ≤ t + 1)),
        if_neg (by simpa using (by omega : ¬ f k ≤ t)),
        if_pos (by simpa using h)]
      omega
    · rw [if_neg (by simpa using (by omega : ¬ f k ≤ t + 1)),
        if_neg (by simpa using (by omega : ¬ f k ≤ t)),
        if_neg (by simpa using (by omega : ¬ f k = t + 1))]
      omega

/-! ### Position formulas in the boundary word -/

theorem binary_getD_le (s : List Nat) (hs : isBinary s) (t : Nat) : s.getD t 0 ≤ 1 := by
  by_cases ht : t < s.length
  · have hm : s.getD t 0 ∈ s := by
      rw [List.getD_eq_getElem _ 0 ht]
      exact List.getElem_mem ht
    exact hs _ hm
  · rw [List.getD_eq_default _ 0 (by omega)]
    omega

/-- A position of the inverted boundary word holds a 1 (north step)
exactly when it is `p[i] + k - 1 - i` for some row `i`. -/
theorem w_one_iff (p : List Nat) (hp : isPartition p) (t : Nat)
    (ht : t < p.headD 0 + p.length) :
    ((invert_zero_one (zero_one_sequence p)).getD t 0 = 1
      ↔ ∃ i, i < p.length ∧ p.getD i 0 + p.length = t + 1 + i) := by
  have hlen : (zero_one_sequence p).length = p.headD 0 + p.length := zero_one_sequence_length p
  unfold invert_zero_one
  rw [getD_map_lt _ _ t (by omega) 0 2]
  rw [zero_one_sequence_eq, getD_range_map _ _ t 2 ht]
  show 1 - (if (tmpInt p).contains ((t : Int) - (p.length : Int) + 1) then 0 else 1) = 1 ↔ _
  by_cases hc : (tmpInt p).contains ((t : Int) - (p.length : Int) + 1)
  · rw [if_pos hc]
    constructor
    · intro _
      rw [List.contains_eq_any_beq, List.any_eq_true] at hc
      obtain ⟨x, hxm, hxe⟩ := hc
      rw [beq_iff_eq] at hxe
      obtain ⟨i, hik, hie⟩ := (mem_tmpInt p x).mp hxm
      rw [← hxe] at hie
      exact ⟨i, hik, by omega⟩
    · intro _
      rfl
  · rw [if_neg hc]
    constructor
    · intro h
      exact absurd h (by omega)
    · rintro ⟨i, hik, hie⟩
      exfalso
      apply hc
      rw [List.contains_eq_any_beq, List.any_eq_true]
      refine ⟨(p.getD i 0 : Int) - (i : Int), (mem_tmpInt p _).mpr ⟨i, hik, rfl⟩, ?_⟩
      rw [beq_iff_eq]
      omega

theorem w_length (p : List Nat) :
    (invert_zero_one (zero_one_sequence p)).length = p.headD 0 + p.length := by
  unfold invert_zero_one
  rw [List.length_map, zero_one_sequence_length]

theorem sum_take_succ_getD (l : List Nat) (t : Nat) (ht : t < l.length) :
    (l.take (t + 1)).sum = (l.take t).sum + l.getD t 0 := by
  rw [List.take_succ, List.sum_append, List.getElem?_eq_getElem ht,
    List.getD_eq_getElem _ 0 ht]
  show _ = _ + l[t]
  rw [Option.toList_some, List.sum_cons, List.sum_nil]
  omega

/-- Prefix count of north steps: the number of rows whose north-step
position falls before `t`. -/
theorem ones_before (p : List Nat) (hp : isPartition p) :
    ∀ t, t ≤ p.headD 0 + p.length →
      ((invert_zero_one (zero_one_sequence p)).take t).sum
        = ((List.range p.length).filter
            (fun i => decide (p.getD i 0 + p.length - i ≤ t))).length := by
  intro t
  induction t with
  | zero =>
    intro _
    rw [List.take_zero]
    have hnil : (List.range p.length).filter
        (fun i => decide (p.getD i 0 + p.length - i ≤ 0)) = [] := by
      rw [List.filter_eq_nil_iff]
      intro j hj
      rw [List.mem_range] at hj
      simp only [decide_eq_true_eq]
      have hpos : 0 < p.getD j 0 := hp.2 _ (getD_mem_of_lt p j 0 hj)
      omega
    rw [hnil]
    rfl
  | succ t ih =>
    intro ht1
    have ht : t < p.headD 0 + p.length := by omega
    rw [sum_take_succ_getD _ t (by rw [w_length]; omega), ih (by omega),
      length_filter_le_succ p.length (fun i => p.getD i 0 + p.length - i) t]
    refine congrArg₂ _ rfl ?_
    by_cases h1 : (invert_zero_one (zero_one_sequence p)).getD t 0 = 1
    · rw [h1]
      obtain ⟨i₀, hik, hie⟩ := (w_one_iff p hp t ht).mp h1
      symm
      refine filter_range_unique _ p.length i₀ hik ?_ ?_
      · simp only [decide_eq_true_eq]
        omega
      · intro j hj hpj
        simp only [decide_eq_true_eq] at hpj
        rcases Nat.lt_trichotomy j i₀ with h | h | h
        · have hmono := isPartition_getD_mono p hp (i₀ - j) j
          rw [show j + (i₀ - j) = i₀ from by omega] at hmono
          omega
        · exact h
        · have hmono := isPartition_getD_mono p hp (j - i₀) i₀
          rw [show i₀ + (j - i₀) = j from by omega] at hmono
          omega
    · have h0 : (invert_zero_one (zero_one_sequence p)).getD t 0 = 0 := by
        have := binary_getD_le _ (invert_zero_one_binary (zero_one_sequence p)) t
        omega
      rw [h0]
      have hnil : (List.range p.length).filter
          (fun i => decide (p.getD i 0 + p.length - i = t + 1)) = [] := by
        rw [List.filter_eq_nil_iff]
        intro j hj hpj
        rw [List.mem_range] at hj
        simp only [decide_eq_true_eq] at hpj
        have hone : (invert_zero_one (zero_one_sequence p)).getD t 0 = 1 :=
          (w_one_iff p hp t ht).mpr ⟨j, hj, by omega⟩
        omega
      rw [hnil]
      rfl

/-- North-step position counts: before row `i` closes, exactly the lower
rows have closed. -/
theorem counts_at_yPos (p : List Nat) (hp : isPartition p) (i : Nat) (hik : i < p.length) :
    ((invert_zero_one (zero_one_sequence p)).take (p.getD i 0 + p.length - 1 - i)).sum
      = p.length - 1 - i := by
  have hhead := isPartition_getD_le_head p hp i
  have hpos : 0 < p.getD i 0 := hp.2 _ (getD_mem_of_lt p i 0 hik)
  rw [ones_before p hp _ (by omega)]
  have hcongr : ∀ i2 ∈ List.range p.length,
      (decide (p.getD i2 0 + p.length - i2 ≤ p.getD i 0 + p.length - 1 - i))
        = (decide (i < i2)) := by
    intro i2 hi2
    rw [List.mem_range] at hi2
    rw [decide_eq_decide]
    have hpos2 : 0 < p.getD i2 0 := hp.2 _ (getD_mem_of_lt p i2 0 hi2)
    constructor
    · intro hle
      by_contra hni
      push_neg at hni
      have hmono := isPartition_getD_mono p hp (i - i2) i2
      rw [show i2 + (i - i2) = i from by omega] at hmono
      omega
    · intro hlt
      have hmono := isPartition_getD_mono p hp (i2 - i) i
      rw [show i + (i2 - i) = i2 from by omega] at hmono
      omega
  rw [List.filter_congr hcongr, length_filter_range_gt i p.length]
  omega

/-- Prefix one-counts grow at most one per position. -/
theorem ones_before_le_add (s : List Nat) (hs : isBinary s) :
    ∀ (d t : Nat), (s.take (t + d)).sum ≤ (s.take t).sum + d := by
  intro d
  induction d with
  | zero =>
    intro t
    simp
  | succ d ih =>
    intro t
    by_cases hlen : t + d < s.length
    · rw [show t + (d + 1) = (t + d) + 1 from rfl, sum_take_succ_getD _ _ hlen]
      have h1 := ih t
      have hw := binary_getD_le s hs (t + d)
      omega
    · rw [show t + (d + 1) = (t + d) + 1 from rfl]
      have h1 := ih t
      rw [List.take_of_length_le (by omega)] at h1 ⊢
      omega

theorem map_getD_self_nat (l : List Nat) :
    (List.range l.length).map (fun i => l.getD i 0) = l := by
  induction l with
  | nil => rfl
  | cons a l ih =>
    rw [List.length_cons, List.range_succ_eq_map, List.map_cons, List.map_map]
    refine congrArg₂ _ rfl ?_
    rw [show ((fun i => (a :: l).getD i 0) ∘ Nat.succ) = (fun i => l.getD i 0) from rfl, ih]

/-- Column count as an index count over the rows. -/
theorem conj_getD_eq (p : List Nat) (j : Nat) (hj : j < p.headD 0) :
    (conjugate p).getD j 0
      = ((List.range p.length).filter (fun i => decide (j < p.getD i 0))).length := by
  unfold conjugate
  rw [getD_range_map _ _ j 0 hj]
  conv_lhs => rw [← map_getD_self_nat p]
  rw [List.countP_map, List.countP_eq_length_filter]
  rfl

theorem length_filter_add_compl (q : Nat → Bool) :
    ∀ (k : Nat), ((List.range k).filter q).length
      + ((List.range k).filter (fun i => !(q i))).length = k := by
  intro k
  induction k with
  | zero => rfl
  | succ k ih =>
    rw [List.range_succ, List.filter_append, List.filter_append, List.length_append,
      List.length_append, filter_singleton_length, filter_singleton_length]
    by_cases h : q k = true
    · rw [if_pos h, if_neg (by simp [h])]
      omega
    · have hf : q k = false := by
        revert h
        cases q k <;> simp
      rw [if_neg h, if_pos (by simp [hf])]
      omega

theorem downward_count_iff (q : Nat → Bool) :
    ∀ (k : Nat), (∀ i1 i2, i1 ≤ i2 → i2 < k → q i2 = true → q i1 = true) →
    ∀ i, i < k → (q i = true ↔ i < ((List.range k).filter q).length) := by
  intro k
  induction k with
  | zero =>
    intro _ i hi
    omega
  | succ k ih =>
    intro hdc i hi
    rw [List.range_succ, List.filter_append, List.length_append, filter_singleton_length]
    by_cases hik : i < k
    · have hih := ih (fun i1 i2 h1 h2 hq => hdc i1 i2 h1 (by omega) hq) i hik
      constructor
      · intro hq
        have := hih.mp hq
        omega
      · intro hlt
        by_cases hlt2 : i < ((List.range k).filter q).length
        · exact hih.mpr hlt2
        · have hqk : q k = true := by
            by_cases hqk : q k = true
            · exact hqk
            · rw [if_neg hqk] at hlt
              omega
          exact hdc i k (by omega) (by omega) hqk
    · have hieq : i = k := by omega
      subst hieq
      constructor
      · intro hq
        rw [if_pos hq]
        have hall : (List.range i).filter q = List.range i := by
          rw [List.filter_eq_self]
          intro a ha
          rw [List.mem_range] at ha
          exact hdc a i (by omega) (by omega) hq
        rw [hall, List.length_range]
        omega
      · intro hlt
        have hble : ((List.range i).filter q).length ≤ i := by
          calc ((List.range i).filter q).length ≤ (List.range i).length :=
                List.length_filter_le _ _
            _ = i := List.length_range i
        by_cases hqk : q i = true
        · exact hqk
        · rw [if_neg hqk] at hlt
          omega


/-! ### The hook criterion through the abacus wires -/

theorem binary_take_sum_le (s : List Nat) (hs : isBinary s) (t : Nat) :
    (s.take t).sum ≤ t := by
  have hb : isBinary (s.take t) := fun x hx => hs x (List.mem_of_mem_take hx)
  have hz := zeros_add_sum (s.take t) hb
  have hlen : (s.take t).length ≤ t := by
    rw [List.length_take]
    omega
  omega

/-- Column `j` meets exactly the first `conjugate[j]` rows. -/
theorem conj_count_iff (p : List Nat) (hp : isPartition p) (j i : Nat) (hik : i < p.length) :
    j < p.getD i 0
      ↔ i < ((List.range p.length).filter (fun i => decide (j < p.getD i 0))).length := by
  have hd : ∀ i1 i2, i1 ≤ i2 → i2 < p.length →
      (fun i => decide (j < p.getD i 0)) i2 = true
        → (fun i => decide (j < p.getD i 0)) i1 = true := by
    intro i1 i2 h12 h2k hq
    rw [decide_eq_true_eq] at hq ⊢
    have hmono := isPartition_getD_mono p hp (i2 - i1) i1
    rw [show i1 + (i2 - i1) = i2 from by omega] at hmono
    omega
  have h := downward_count_iff (fun i => decide (j < p.getD i 0)) p.length hd i hik
  rw [decide_eq_true_eq] at h
  exact h

/-- The boundary-word position `j + (k - conjugate[j])` carries an east step,
and the count of north steps before it is `k - conjugate[j]`. -/
theorem east_position (p : List Nat) (hp : isPartition p) (j : Nat) (hj : j < p.headD 0) :
    (invert_zero_one (zero_one_sequence p)).getD
        (j + (p.length
          - ((List.range p.length).filter (fun i => decide (j < p.getD i 0))).length)) 0 = 0
    ∧ ((invert_zero_one (zero_one_sequence p)).take
        (j + (p.length
          - ((List.range p.length).filter (fun i => decide (j < p.getD i 0))).length))).sum
      = p.length
        - ((List.range p.length).filter (fun i => decide (j < p.getD i 0))).length := by
  set cJ := ((List.range p.length).filter (fun i => decide (j < p.getD i 0))).length with hcJ
  have hcJk : cJ ≤ p.length := by
    rw [hcJ]
    have h := List.length_filter_le (fun i => decide (j < p.getD i 0)) (List.range p.length)
    rw [List.length_range] at h
    exact h
  have hxlt : j + (p.length - cJ) < p.headD 0 + p.length := by omega
  constructor
  · have hle := binary_getD_le _ (invert_zero_one_binary (zero_one_sequence p))
      (j + (p.length - cJ))
    by_contra hne
    have h1 : (invert_zero_one (zero_one_sequence p)).getD (j + (p.length - cJ)) 0 = 1 := by
      omega
    obtain ⟨i2, hi2k, hie⟩ := (w_one_iff p hp _ hxlt).mp h1
    have hiff := conj_count_iff p hp j i2 hi2k
    rw [← hcJ] at hiff
    by_cases hcase : i2 < cJ
    · have hlt := hiff.mpr hcase
      omega
    · have hnot : ¬ (j < p.getD i2 0) := fun hh => hcase (hiff.mp hh)
      omega
  · rw [ones_before p hp _ (le_of_lt hxlt)]
    have hcongr : ∀ i2 ∈ List.range p.length,
        (decide (p.getD i2 0 + p.length - i2 ≤ j + (p.length - cJ)))
          = (decide (cJ ≤ i2)) := by
      intro i2 hi2
      rw [List.mem_range] at hi2
      rw [decide_eq_decide]
      have hiff := conj_count_iff p hp j i2 hi2
      rw [← hcJ] at hiff
      have hpos2 : 0 < p.getD i2 0 := hp.2 _ (getD_mem_of_lt p i2 0 hi2)
      constructor
      · intro hle
        by_contra hlt2
        push_neg at hlt2
        have hgt := hiff.mpr hlt2
        omega
      · intro hge
        have hnot : ¬ (j < p.getD i2 0) := fun hh => absurd (hiff.mp hh) (by omega)
        omega
    rw [List.filter_congr hcongr, length_filter_range_ge]

/-- Explicit value of the wire-walk after `t` symbols of the boundary word. -/
theorem wire_at (p : List Nat) (hp : isPartition p) (r : Nat) (b : Int) (t : Nat)
    (ht : t ≤ p.headD 0 + p.length) :
    walkFrom r b ((invert_zero_one (zero_one_sequence p)).take t)
        (G_abacus_start (invert_zero_one (zero_one_sequence p)) r)
      = ((p.length : Int)
          + b * ((t : Int) - (((invert_zero_one (zero_one_sequence p)).take t).sum : Int))
          - (((invert_zero_one (zero_one_sequence p)).take t).sum : Int)) % (r : Int) := by
  have hbin : isBinary ((invert_zero_one (zero_one_sequence p)).take t) :=
    fun x hx => invert_zero_one_binary _ x (List.mem_of_mem_take hx)
  have hstart : G_abacus_start (invert_zero_one (zero_one_sequence p)) r
      = ((p.length : Int)) % (r : Int) := by
    show ((((invert_zero_one (zero_one_sequence p)).sum : Nat) : Int)) % (r : Int) = _
    rw [seq_ones_count p hp]
  rw [hstart, walkFrom_value r b _ hbin (p.length : Int)]
  have hlen : ((invert_zero_one (zero_one_sequence p)).take t).length = t := by
    rw [List.length_take, w_length]
    omega
  rw [hlen]

/-- A wire of the abacus has an inversion exactly when two word positions
routed to it carry an east step before a north step. -/
theorem wire_inversion_iff (p : List Nat) (r : Nat) (b : Int) (hr0 : 0 < r)
    (i : Nat) (hi : i < r) :
    hasInversion ((G_abacus p r b).getD i [])
      ↔ ∃ t1 t2, t1 < t2 ∧ t2 < (invert_zero_one (zero_one_sequence p)).length
          ∧ ((walkFrom r b ((invert_zero_one (zero_one_sequence p)).take t1)
                (G_abacus_start (invert_zero_one (zero_one_sequence p)) r)).toNat == i) = true
          ∧ ((walkFrom r b ((invert_zero_one (zero_one_sequence p)).take t2)
                (G_abacus_start (invert_zero_one (zero_one_sequence p)) r)).toNat == i) = true
          ∧ (invert_zero_one (zero_one_sequence p)).getD t1 0 = 0
          ∧ (invert_zero_one (zero_one_sequence p)).getD t2 0 = 1 := by
  have hrz : (0 : Int) < (r : Int) := by exact_mod_cast hr0
  have hstart_eq : G_abacus_start (invert_zero_one (zero_one_sequence p)) r
      = (((invert_zero_one (zero_one_sequence p)).sum : Nat) : Int) % (r : Int) := rfl
  have hnn : 0 ≤ G_abacus_start (invert_zero_one (zero_one_sequence p)) r := by
    rw [hstart_eq]
    exact Int.emod_nonneg _ (ne_of_gt hrz)
  have hlt : G_abacus_start (invert_zero_one (zero_one_sequence p)) r < (r : Int) := by
    rw [hstart_eq]
    exact Int.emod_lt_of_pos _ hrz
  have hGA : G_abacus p r b
      = (distributeFrom r b (invert_zero_one (zero_one_sequence p)) (List.replicate r [])
          (G_abacus_start (invert_zero_one (zero_one_sequence p)) r)).1 := rfl
  rw [hGA, distributeFrom_getD_filter r b hr0 _ _ hnn hlt i hi, inversion_transfer]

/-- An inversion on a wire yields a bad hook cell, so the core test fails. -/
theorem inversion_to_core_false (p : List Nat) (r : Nat) (b : Int)
    (hp : isPartition p) (hr0 : 0 < r)
    (h : ∃ i, i < r ∧ hasInversion ((G_abacus p r b).getD i [])) :
    is_G_core p r b = false := by
  obtain ⟨i, hi, hinv⟩ := h
  rw [wire_inversion_iff p r b hr0 i hi] at hinv
  obtain ⟨t1, t2, h12, h2len, hP1, hP2, hc1, hc2⟩ := hinv
  rw [w_length] at h2len
  set w := invert_zero_one (zero_one_sequence p) with hw
  have hbin : isBinary w := invert_zero_one_binary (zero_one_sequence p)
  have hrz : (0 : Int) < (r : Int) := by exact_mod_cast hr0
  obtain ⟨I, hIk, hIe⟩ := (w_one_iff p hp t2 h2len).mp hc2
  have hpIpos : 0 < p.getD I 0 := hp.2 _ (getD_mem_of_lt p I 0 hIk)
  have ho2 : (w.take t2).sum = p.length - 1 - I := by
    have hy := counts_at_yPos p hp I hIk
    rw [← hw, show p.getD I 0 + p.length - 1 - I = t2 from by omega] at hy
    exact hy
  have ho1le : (w.take t1).sum ≤ t1 := binary_take_sum_le w hbin t1
  have hst1 : (w.take (t1 + 1)).sum = (w.take t1).sum := by
    have hlt1 : t1 < w.length := by
      rw [hw, w_length]
      omega
    rw [sum_take_succ_getD w t1 hlt1, hc1]
    omega
  have hmono := ones_before_le_add w hbin (t2 - (t1 + 1)) (t1 + 1)
  rw [show t1 + 1 + (t2 - (t1 + 1)) = t2 from by omega, hst1] at hmono
  have hJlt : t1 - (w.take t1).sum < p.getD I 0 := by omega
  have hJhead : t1 - (w.take t1).sum < p.headD 0 :=
    lt_of_lt_of_le hJlt (isPartition_getD_le_head p hp I)
  have hσ1k : (w.take t1).sum ≤ p.length := by
    have hob := ones_before p hp t1 (by omega)
    rw [← hw] at hob
    have hfl := List.length_filter_le (fun i => decide (p.getD i 0 + p.length - i ≤ t1))
      (List.range p.length)
    rw [List.length_range] at hfl
    omega
  have hconj : (conjugate p).getD (t1 - (w.take t1).sum) 0 = p.length - (w.take t1).sum := by
    rw [conj_getD_eq p _ hJhead]
    have hcongr : ∀ i2 ∈ List.range p.length,
        (decide (t1 - (w.take t1).sum < p.getD i2 0))
          = !(decide (p.getD i2 0 + p.length - i2 ≤ t1)) := by
      intro i2 hi2
      rw [List.mem_range] at hi2
      rw [← decide_not, decide_eq_decide]
      have hpos2 : 0 < p.getD i2 0 := hp.2 _ (getD_mem_of_lt p i2 0 hi2)
      constructor
      · intro hlt hle
        have hy := counts_at_yPos p hp i2 hi2
        rw [← hw] at hy
        have hm := ones_before_le_add w hbin (t1 - (p.getD i2 0 + p.length - 1 - i2))
          (p.getD i2 0 + p.length - 1 - i2)
        rw [show p.getD i2 0 + p.length - 1 - i2
            + (t1 - (p.getD i2 0 + p.length - 1 - i2)) = t1 from by omega, hy] at hm
        omega
      · intro hnle
        by_cases hedge : p.getD i2 0 + p.length - i2 = t1 + 1
        · exfalso
          have h1 : w.getD t1 0 = 1 := by
            have h2 := (w_one_iff p hp t1 (by omega)).mpr ⟨i2, hi2, by omega⟩
            rw [← hw] at h2
            exact h2
          omega
        · have hy := counts_at_yPos p hp i2 hi2
          rw [← hw] at hy
          have hge2 : t1 + 1 ≤ p.getD i2 0 + p.length - 1 - i2 := by omega
          have hm := ones_before_le_add w hbin
            ((p.getD i2 0 + p.length - 1 - i2) - (t1 + 1)) (t1 + 1)
          rw [show t1 + 1 + ((p.getD i2 0 + p.length - 1 - i2) - (t1 + 1))
              = p.getD i2 0 + p.length - 1 - i2 from by omega, hy, hst1] at hm
          omega
    rw [List.filter_congr hcongr]
    have hob : (w.take t1).sum = ((List.range p.length).filter
        (fun i => decide (p.getD i 0 + p.length - i ≤ t1))).length := by
      have h2 := ones_before p hp t1 (by omega)
      rw [← hw] at h2
      exact h2
    have hcompl : ((List.range p.length).filter
          (fun i => decide (p.getD i 0 + p.length - i ≤ t1))).length
        + ((List.range p.length).filter
            (fun i => !(decide (p.getD i 0 + p.length - i ≤ t1)))).length = p.length :=
      length_filter_add_compl (fun i => decide (p.getD i 0 + p.length - i ≤ t1)) p.length
    omega
  have hW1 : walkFrom r b (w.take t1) (G_abacus_start w r)
      = ((p.length : Int) + b * ((t1 : Int) - ((w.take t1).sum : Int))
          - ((w.take t1).sum : Int)) % (r : Int) := by
    have h2 := wire_at p hp r b t1 (by omega)
    rw [← hw] at h2
    exact h2
  have hW2 : walkFrom r b (w.take t2) (G_abacus_start w r)
      = ((p.length : Int) + b * ((t2 : Int) - ((w.take t2).sum : Int))
          - ((w.take t2).sum : Int)) % (r : Int) := by
    have h2 := wire_at p hp r b t2 (by omega)
    rw [← hw] at h2
    exact h2
  rw [beq_iff_eq] at hP1 hP2
  have hnn1 : 0 ≤ walkFrom r b (w.take t1) (G_abacus_start w r) := by
    rw [hW1]
    exact Int.emod_nonneg _ (ne_of_gt hrz)
  have hnn2 : 0 ≤ walkFrom r b (w.take t2) (G_abacus_start w r) := by
    rw [hW2]
    exact Int.emod_nonneg _ (ne_of_gt hrz)
  have hWeq : walkFrom r b (w.take t1) (G_abacus_start w r)
      = walkFrom r b (w.take t2) (G_abacus_start w r) := by
    have htn : (walkFrom r b (w.take t1) (G_abacus_start w r)).toNat
        = (walkFrom r b (w.take t2) (G_abacus_start w r)).toNat := by
      rw [hP1, hP2]
    omega
  rw [hW1, hW2, Int.emod_eq_emod_iff_emod_sub_eq_zero] at hWeq
  rw [← Bool.not_eq_true, is_G_core_iff_cells]
  intro hall
  refine hall I hIk (t1 - (w.take t1).sum) hJlt ?_
  have g1 : ((p.length - (w.take t1).sum : Nat) : Int)
      = (p.length : Int) - ((w.take t1).sum : Int) := by omega
  have g2 : ((t1 - (w.take t1).sum : Nat) : Int)
      = (t1 : Int) - ((w.take t1).sum : Int) := by omega
  have g3 : ((p.getD I 0 : Nat) : Int)
      = (t2 : Int) + 1 + (I : Int) - (p.length : Int) := by omega
  have g4 : (((w.take t2).sum : Nat) : Int) = (p.length : Int) - 1 - (I : Int) := by omega
  rw [hconj, g1, g2, g3]
  rw [g4] at hWeq
  convert hWeq using 2
  ring

/-- A bad hook cell yields an inversion on the wire through which both its
arm-end and leg-end boundary positions pass. -/
theorem core_false_to_inversion (p : List Nat) (r : Nat) (b : Int)
    (hp : isPartition p) (hr0 : 0 < r)
    (h : is_G_core p r b = false) :
    ∃ i, i < r ∧ hasInversion ((G_abacus p r b).getD i []) := by
  rw [← Bool.not_eq_true, is_G_core_iff_cells] at h
  push_neg at h
  obtain ⟨I, hIk, J, hJlt, hcell⟩ := h
  set w := invert_zero_one (zero_one_sequence p) with hw
  have hbin : isBinary w := invert_zero_one_binary (zero_one_sequence p)
  have hrz : (0 : Int) < (r : Int) := by exact_mod_cast hr0
  have hpIpos : 0 < p.getD I 0 := hp.2 _ (getD_mem_of_lt p I 0 hIk)
  have hIhead : p.getD I 0 ≤ p.headD 0 := isPartition_getD_le_head p hp I
  have hJhead : J < p.headD 0 := lt_of_lt_of_le hJlt hIhead
  set cJ := ((List.range p.length).filter (fun i => decide (J < p.getD i 0))).length with hcJ
  have hcJk : cJ ≤ p.length := by
    rw [hcJ]
    have h2 := List.length_filter_le (fun i => decide (J < p.getD i 0)) (List.range p.length)
    rw [List.length_range] at h2
    exact h2
  have hIcJ : I < cJ := by
    have h2 := (conj_count_iff p hp J I hIk).mp hJlt
    rw [← hcJ] at h2
    exact h2
  obtain ⟨hx0, hxsum⟩ := east_position p hp J hJhead
  rw [← hw, ← hcJ] at hx0 hxsum
  have ht2head : p.getD I 0 + p.length - 1 - I < p.headD 0 + p.length := by omega
  have hy1 : w.getD (p.getD I 0 + p.length - 1 - I) 0 = 1 := by
    have h2 := (w_one_iff p hp (p.getD I 0 + p.length - 1 - I) ht2head).mpr
      ⟨I, hIk, by omega⟩
    rw [← hw] at h2
    exact h2
  have hy2 : (w.take (p.getD I 0 + p.length - 1 - I)).sum = p.length - 1 - I := by
    have h2 := counts_at_yPos p hp I hIk
    rw [← hw] at h2
    exact h2
  have h12 : J + (p.length - cJ) < p.getD I 0 + p.length - 1 - I := by omega
  have hW1 : walkFrom r b (w.take (J + (p.length - cJ))) (G_abacus_start w r)
      = ((p.length : Int) + b * (((J + (p.length - cJ) : Nat) : Int)
            - (((p.length - cJ : Nat)) : Int))
          - (((p.length - cJ : Nat)) : Int)) % (r : Int) := by
    have h2 := wire_at p hp r b (J + (p.length - cJ)) (by omega)
    rw [← hw] at h2
    rw [hxsum] at h2
    exact h2
  have hW2 : walkFrom r b (w.take (p.getD I 0 + p.length - 1 - I)) (G_abacus_start w r)
      = ((p.length : Int) + b * (((p.getD I 0 + p.length - 1 - I : Nat) : Int)
            - (((p.length - 1 - I : Nat)) : Int))
          - (((p.length - 1 - I : Nat)) : Int)) % (r : Int) := by
    have h2 := wire_at p hp r b (p.getD I 0 + p.length - 1 - I) (by omega)
    rw [← hw] at h2
    rw [hy2] at h2
    exact h2
  have hcell2 : (((cJ : Nat) : Int) - (I : Int) - 1
      - b * ((((p.getD I 0 : Int) - (J : Int) - 1) + 1))) % (r : Int) = 0 := by
    have h2 := hcell
    rw [conj_getD_eq p J hJhead, ← hcJ] at h2
    exact h2
  have hWeq : walkFrom r b (w.take (J + (p.length - cJ))) (G_abacus_start w r)
      = walkFrom r b (w.take (p.getD I 0 + p.length - 1 - I)) (G_abacus_start w r) := by
    rw [hW1, hW2, Int.emod_eq_emod_iff_emod_sub_eq_zero]
    have c1 : ((J + (p.length - cJ) : Nat) : Int)
        = (J : Int) + (p.length : Int) - (cJ : Int) := by omega
    have c2 : ((p.length - cJ : Nat) : Int) = (p.length : Int) - (cJ : Int) := by omega
    have c3 : ((p.getD I 0 + p.length - 1 - I : Nat) : Int)
        = (p.getD I 0 : Int) + (p.length : Int) - 1 - (I : Int) := by omega
    have c4 : ((p.length - 1 - I : Nat) : Int) = (p.length : Int) - 1 - (I : Int) := by omega
    rw [c1, c2, c3, c4]
    convert hcell2 using 2
    ring
  have hint : 0 ≤ walkFrom r b (w.take (J + (p.length - cJ))) (G_abacus_start w r) ∧
      walkFrom r b (w.take (J + (p.length - cJ))) (G_abacus_start w r) < (r : Int) := by
    rw [hW1]
    exact ⟨Int.emod_nonneg _ (ne_of_gt hrz), Int.emod_lt_of_pos _ hrz⟩
  refine ⟨(walkFrom r b (w.take (J + (p.length - cJ))) (G_abacus_start w r)).toNat,
    by omega, ?_⟩
  have hwi := wire_inversion_iff p r b hr0
    ((walkFrom r b (w.take (J + (p.length - cJ))) (G_abacus_start w r)).toNat) (by omega)
  rw [← hw] at hwi
  rw [hwi]
  refine ⟨J + (p.length - cJ), p.getD I 0 + p.length - 1 - I, h12, ?_, ?_, ?_, hx0, hy1⟩
  · rw [hw, w_length]
    omega
  · exact beq_self_eq_true _
  · rw [← hWeq]
    exact beq_self_eq_true _

/-- The core predicate fails exactly when some abacus wire has an inversion. -/
theorem core_false_iff_inversion (p : List Nat) (r : Nat) (b : Int)
    (hp : isPartition p) (hr0 : 0 < r) :
    is_G_core p r b = false ↔ ∃ i, i < r ∧ hasInversion ((G_abacus p r b).getD i []) :=
  ⟨core_false_to_inversion p r b hp hr0, inversion_to_core_false p r b hp hr0⟩

/-! ### Cores have sorted wires and empty quotients -/

theorem no_inversion_sorted (v : List Nat) (hv : isBinary v) (hni : ¬ hasInversion v) :
    ∃ x y, v = List.replicate x 1 ++ List.replicate y 0 := by
  induction v with
  | nil => exact ⟨0, 0, rfl⟩
  | cons c v ih =>
    have hc := hv c (List.mem_cons_self c v)
    rcases Nat.lt_or_ge c 1 with hc0 | hc1
    · have hc0e : c = 0 := by omega
      subst hc0e
      have hzero : ∀ t, t < v.length → v.getD t 9 = 0 := by
        intro t ht
        by_contra hne
        have hb := hv (v.getD t 9) (by
          rw [List.getD_eq_getElem _ 9 ht]
          exact List.mem_cons_of_mem _ (List.getElem_mem ht))
        have h1 : v.getD t 9 = 1 := by omega
        refine hni ⟨0, t + 1, by omega, by rw [List.length_cons]; omega, rfl, ?_⟩
        rw [List.getD_cons_succ]
        exact h1
      have hall : ∀ x ∈ v, x = 0 := by
        intro x hx
        obtain ⟨t, ht, hte⟩ := List.mem_iff_getElem.mp hx
        have h0 := hzero t ht
        rw [List.getD_eq_getElem _ 9 ht] at h0
        omega
      refine ⟨0, v.length + 1, ?_⟩
      show 0 :: v = [] ++ List.replicate (v.length + 1) 0
      rw [List.nil_append, List.replicate_succ]
      exact congrArg (List.cons 0) (List.eq_replicate_of_mem hall)
    · have hc1e : c = 1 := by omega
      subst hc1e
      have hni2 : ¬ hasInversion v := by
        rintro ⟨t1, t2, h12, h2, e1, e2⟩
        refine hni ⟨t1 + 1, t2 + 1, by omega, by rw [List.length_cons]; omega, ?_, ?_⟩
        · rw [List.getD_cons_succ]
          exact e1
        · rw [List.getD_cons_succ]
          exact e2
      obtain ⟨x, y, hxy⟩ := ih (fun z hz => hv z (List.mem_cons_of_mem _ hz)) hni2
      refine ⟨x + 1, y, ?_⟩
      rw [hxy, List.replicate_succ]
      rfl

theorem invert_replicate_zero (L : Nat) :
    invert_zero_one (List.replicate L 0) = List.replicate L 1 := by
  unfold invert_zero_one
  rw [List.map_replicate]

/-- A sorted wire stores no quotient information: it decodes to `[]`. -/
theorem sorted_wire_decode (x y : Nat) :
    from_zero_one (invert_zero_one (List.replicate x 1 ++ List.replicate y 0)) = [] := by
  rw [invert_append, invert_replicate_one, invert_replicate_zero,
    from_zero_one_replicate_zero]
  have h := from_zero_one_append_replicate_one [] y
  rw [List.nil_append] at h
  rw [h]
  rfl

/-- The quotient of an `(r,b)`-core is the `r`-tuple of empty partitions. -/
theorem core_quotient_empty (c : List Nat) (r : Nat) (b : Int)
    (hp : isPartition c) (hr0 : 0 < r) (hcore : is_G_core c r b = true) :
    G_quotient c r b false = List.replicate r [] := by
  have hnoinv : ∀ i, i < r → ¬ hasInversion ((G_abacus c r b).getD i []) := by
    intro i hi hinv
    have hfalse : is_G_core c r b = false :=
      inversion_to_core_false c r b hp hr0 ⟨i, hi, hinv⟩
    rw [hcore] at hfalse
    simp at hfalse
  have hlen : (G_abacus c r b).length = r := by
    have h := distributeFrom_fst_length r b (invert_zero_one (zero_one_sequence c))
      (List.replicate r [])
      (G_abacus_start (invert_zero_one (zero_one_sequence c)) r)
    rw [List.length_replicate] at h
    exact h
  have hq : G_quotient c r b false
      = (G_abacus c r b).map (fun wire => from_zero_one (invert_zero_one wire)) := rfl
  rw [hq]
  have hmem : ∀ v ∈ (G_abacus c r b).map
      (fun wire => from_zero_one (invert_zero_one wire)), v = [] := by
    intro v hv
    rw [List.mem_map] at hv
    obtain ⟨wire, hwmem, hwe⟩ := hv
    obtain ⟨t, ht, hte⟩ := List.mem_iff_getElem.mp hwmem
    have hwire_getD : (G_abacus c r b).getD t [] = wire := by
      rw [List.getD_eq_getElem _ [] ht, hte]
    have hbinw : isBinary wire := by
      have hb := G_abacus_getD_binary c r b t
      rw [hwire_getD] at hb
      exact hb
    have hni := hnoinv t (by rw [hlen] at ht; exact ht)
    rw [hwire_getD] at hni
    obtain ⟨x, y, hxy⟩ := no_inversion_sorted wire hbinw hni
    rw [← hwe, hxy]
    exact sorted_wire_decode x y
  have he := List.eq_replicate_of_mem hmem
  rw [List.length_map, hlen] at he
  exact he

/-- C9 counterexample: `[]` is a valid `(2,0)`-core (the cell test is
vacuous), and with an absent quotient `from_G_core_and_quotient` returns it
unchanged; but with the 2-tuple of empty partitions the call signals
`invalidAction` instead of returning the core, because the delegated
reconstruction rejects the non-coprime pair `(r,b) = (2,0)`. -/
theorem C9_counterexample :
    is_G_core [] 2 0 = true
      ∧ from_G_core_and_quotient [] none 2 0 = Except.ok []
      ∧ from_G_core_and_quotient [] (some [[], []]) 2 0
          = Except.error AbacusError.invalidAction :=
  ⟨rfl, rfl, rfl⟩

/-- C9 (amended): for every `(r,b)`-core `c` with `r ≥ 1` and
`gcd(r,b) = 1`, `from_G_core_and_quotient` returns `c` unchanged both when
the quotient is absent and when it is the `r`-tuple of empty partitions. -/
theorem C9_core_identity (c : List Nat) (r : Nat) (b : Int)
    (hp : isPartition c) (hr : 1 ≤ r) (hgcd : Int.gcd (r : Int) b = 1)
    (hcore : is_G_core c r b = true) :
    from_G_core_and_quotient c none r b = Except.ok c
      ∧ from_G_core_and_quotient c (some (List.replicate r [])) r b = Except.ok c := by
  constructor
  · unfold from_G_core_and_quotient
    rw [if_pos hcore]
  · unfold from_G_core_and_quotient
    rw [if_pos hcore]
    show from_G_charges_and_quotient (G_charges c r b) (some (List.replicate r [])) r b
      = Except.ok c
    rw [← core_quotient_empty c r b hp (by omega) hcore]
    exact reconstruct_charges_quotient c r b hp hr hgcd

theorem C9_core_identity_witness :
    isPartition [1] ∧ 1 ≤ 2 ∧ Int.gcd (2 : Int) 1 = 1 ∧ is_G_core [1] 2 1 = true
      ∧ (from_G_core_and_quotient [1] none 2 1 = Except.ok [1]
          ∧ from_G_core_and_quotient [1] (some (List.replicate 2 [])) 2 1
              = Except.ok [1]) :=
  ⟨by decide, by decide, by decide, by decide,
    C9_core_identity [1] 2 1 (by decide) (by decide) (by decide) (by decide)⟩

/-! ### Soundness of the merge loop: the output word redistributes to the
input abacus -/

theorem merge_final (r : Nat) (b : Int) (total : Nat) (B : List (List Nat))
    (hB : B.length = r) (w0 : Int) (st : MState)
    (hones : st.read + abacusOnes st.abacus = total)
    (hsum : st.out.sum = st.read)
    (hwires : ∀ i, i < r → ∃ z,
        (distributeFrom r b st.out (List.replicate r []) w0).1.getD i []
            ++ st.abacus.getD i []
          = B.getD i [] ++ List.replicate z 0
        ∧ (st.abacus.getD i [] = [] ∨ z = 0))
    (hstop : ¬ st.read < total) :
    st.read = total ∧ st.out.sum = total
      ∧ eqUpToTrailZeros B (distributeFrom r b st.out (List.replicate r []) w0).1 := by
  have habz : abacusOnes st.abacus = 0 := by omega
  have hwzero : ∀ v ∈ st.abacus, v = List.replicate v.length 0 := by
    intro v hv
    have hvs : v.sum = 0 := by
      have hmem : v.sum ∈ st.abacus.map List.sum := List.mem_map.mpr ⟨v, hv, rfl⟩
      have hall := List.sum_eq_zero_iff.mp habz
      exact hall _ hmem
    refine List.eq_replicate_of_mem ?_
    exact List.sum_eq_zero_iff.mp hvs
  refine ⟨by omega, by omega, ?_, ?_⟩
  · rw [hB, distributeFrom_fst_length, List.length_replicate]
  · intro i
    by_cases hi : i < r
    · obtain ⟨z, heq, _⟩ := hwires i hi
      by_cases hil : i < st.abacus.length
      · have hwz := hwzero (st.abacus.getD i []) (getD_mem_of_lt _ i [] hil)
        refine ⟨z, (st.abacus.getD i []).length, ?_⟩
        rw [← heq]
        conv_lhs => rw [hwz]
      · have hnil : st.abacus.getD i [] = [] := List.getD_eq_default _ [] (by omega)
        refine ⟨z, 0, ?_⟩
        rw [← heq, hnil]
        rfl
    · refine ⟨0, 0, ?_⟩
      rw [List.getD_eq_default _ [] (by omega), List.getD_eq_default _ []
        (by rw [distributeFrom_fst_length, List.length_replicate]; omega)]

theorem merge_sound (r : Nat) (b : Int) (hr : 0 < r) (total : Nat) (B : List (List Nat))
    (hB : B.length = r) (w0 : Int) :
    ∀ (fuel : Nat) (st stf : MState),
      st.abacus.length = r →
      0 ≤ st.wire → st.wire < r →
      (∀ v ∈ st.abacus, isBinary v) →
      isBinary st.out →
      st.read + abacusOnes st.abacus = total →
      st.out.sum = st.read →
      (distributeFrom r b st.out (List.replicate r []) w0).2 = st.wire →
      (∀ i, i < r → ∃ z,
        (distributeFrom r b st.out (List.replicate r []) w0).1.getD i []
            ++ st.abacus.getD i []
          = B.getD i [] ++ List.replicate z 0
        ∧ (st.abacus.getD i [] = [] ∨ z = 0)) →
      mergeRun r b total fuel st = some stf →
      stf.read = total ∧ stf.out.sum = total ∧ isBinary stf.out
        ∧ eqUpToTrailZeros B (distributeFrom r b stf.out (List.replicate r []) w0).1 := by
  intro fuel
  induction fuel with
  | zero =>
    intro st stf hlen hw0 hwr habin houtbin hones hsum hsnd hwires hrun
    by_cases hrt : st.read < total
    · simp only [mergeRun, if_pos hrt] at hrun
      exact absurd hrun (by simp)
    · rw [mergeRun_stop r b total 0 st hrt] at hrun
      rw [← Option.some.inj hrun]
      have hf := merge_final r b total B hB w0 st hones hsum hwires hrt
      exact ⟨hf.1, hf.2.1, houtbin, hf.2.2⟩
  | succ f ih =>
    intro st stf hlen hw0 hwr habin houtbin hones hsum hsnd hwires hrun
    by_cases hrt : st.read < total
    · rw [mergeRun_go r b total f st hrt] at hrun
      have hwnat : st.wire.toNat < r := by omega
      have hdistlen : (distributeFrom r b st.out (List.replicate r []) w0).1.length = r := by
        rw [distributeFrom_fst_length, List.length_replicate]
      cases hwire : st.abacus.getD st.wire.toNat [] with
      | nil =>
        have hstep : mergeStep r b st
            = MState.mk st.abacus (from_G_abacus_step r b st.wire 0)
                (st.out ++ [0]) st.read := by
          unfold mergeStep
          dsimp only
          rw [hwire]
        refine ih (mergeStep r b st) stf ?_ ?_ ?_ ?_ ?_ ?_ ?_ ?_ ?_ hrun
        · rw [hstep]
          exact hlen
        · rw [hstep]
          exact G_abacus_step_nonneg r b st.wire 0 hr
        · rw [hstep]
          exact G_abacus_step_lt r b st.wire 0 hr
        · rw [hstep]
          exact habin
        · rw [hstep]
          intro x hx
          rcases List.mem_append.mp hx with hx1 | hx2
          · exact houtbin x hx1
          · rw [List.mem_singleton] at hx2
            omega
        · rw [hstep]
          exact hones
        · rw [hstep]
          show (st.out ++ [0]).sum = st.read
          rw [List.sum_append]
          simp only [List.sum_cons, List.sum_nil]
          omega
        · rw [hstep]
          show (distributeFrom r b (st.out ++ [0]) (List.replicate r []) w0).2
            = from_G_abacus_step r b st.wire 0
          rw [distributeFrom_append, hsnd]
          rfl
        · rw [hstep]
          intro i hi
          dsimp only
          obtain ⟨z, heq, hdisj⟩ := hwires i hi
          rw [distributeFrom_append, hsnd]
          have hD : (distributeFrom r b [0]
              (distributeFrom r b st.out (List.replicate r []) w0).1 st.wire).1
              = appendAt (distributeFrom r b st.out (List.replicate r []) w0).1
                  st.wire.toNat 0 := rfl
          rw [hD, appendAt_getD _ _ _ _ (by rw [hdistlen]; exact hwnat)]
          by_cases hieq : i = st.wire.toNat
          · rw [if_pos hieq]
            subst hieq
            rw [hwire, List.append_nil] at heq
            refine ⟨z + 1, ?_, Or.inl hwire⟩
            rw [hwire, List.append_nil, heq, List.replicate_succ', ← List.append_assoc]
          · rw [if_neg hieq]
            exact ⟨z, heq, hdisj⟩
      | cons code rest =>
        have hstep : mergeStep r b st
            = MState.mk (st.abacus.set st.wire.toNat rest)
                (from_G_abacus_step r b st.wire code)
                (st.out ++ [code]) (st.read + code) := by
          unfold mergeStep
          dsimp only
          rw [hwire]
        have hwl : st.wire.toNat < st.abacus.length := by omega
        have hcode : code ≤ 1 := by
          have hv := habin (st.abacus.getD st.wire.toNat [])
            (getD_mem_of_lt _ _ [] hwl)
          rw [hwire] at hv
          exact hv code (List.mem_cons_self _ _)
        have hrest : isBinary rest := by
          have hv := habin (st.abacus.getD st.wire.toNat [])
            (getD_mem_of_lt _ _ [] hwl)
          rw [hwire] at hv
          exact fun x hx => hv x (List.mem_cons_of_mem _ hx)
        have hOset := abacusOnes_set_cons code rest st.abacus st.wire.toNat hwl hwire
        refine ih (mergeStep r b st) stf ?_ ?_ ?_ ?_ ?_ ?_ ?_ ?_ ?_ hrun
        · rw [hstep]
          show (st.abacus.set st.wire.toNat rest).length = r
          rw [List.length_set]
          exact hlen
        · rw [hstep]
          exact G_abacus_step_nonneg r b st.wire code hr
        · rw [hstep]
          exact G_abacus_step_lt r b st.wire code hr
        · rw [hstep]
          intro v hv
          rcases List.mem_or_eq_of_mem_set hv with hv1 | hv2
          · exact habin v hv1
          · rw [hv2]
            exact hrest
        · rw [hstep]
          intro x hx
          rcases List.mem_append.mp hx with hx1 | hx2
          · exact houtbin x hx1
          · rw [List.mem_singleton] at hx2
            omega
        · rw [hstep]
          show st.read + code + abacusOnes (st.abacus.set st.wire.toNat rest) = total
          omega
        · rw [hstep]
          show (st.out ++ [code]).sum = st.read + code
          rw [List.sum_append]
          simp only [List.sum_cons, List.sum_nil]
          omega
        · rw [hstep]
          show (distributeFrom r b (st.out ++ [code]) (List.replicate r []) w0).2
            = from_G_abacus_step r b st.wire code
          rw [distributeFrom_append, hsnd]
          rfl
        · rw [hstep]
          intro i hi
          dsimp only
          obtain ⟨z, heq, hdisj⟩ := hwires i hi
          rw [distributeFrom_append, hsnd]
          have hD : (distributeFrom r b [code]
              (distributeFrom r b st.out (List.replicate r []) w0).1 st.wire).1
              = appendAt (distributeFrom r b st.out (List.replicate r []) w0).1
                  st.wire.toNat code := rfl
          rw [hD, appendAt_getD _ _ _ _ (by rw [hdistlen]; exact hwnat)]
          by_cases hieq : i = st.wire.toNat
          · rw [if_pos hieq]
            subst hieq
            have hz0 : z = 0 := by
              rcases hdisj with hdisj | hdisj
              · rw [hwire] at hdisj
                exact absurd hdisj (by simp)
              · exact hdisj
            subst hz0
            rw [hwire, List.replicate_zero, List.append_nil] at heq
            refine ⟨0, ?_, Or.inr rfl⟩
            rw [getD_set_self _ _ _ hwl, List.replicate_zero, List.append_nil,
              List.append_assoc, List.singleton_append]
            exact heq
          · rw [if_neg hieq]
            rw [getD_set_other _ _ _ _ hieq]
            exact ⟨z, heq, hdisj⟩
    · rw [mergeRun_stop r b total (f + 1) st hrt] at hrun
      rw [← Option.some.inj hrun]
      have hf := merge_final r b total B hB w0 st hones hsum hwires hrt
      exact ⟨hf.1, hf.2.1, houtbin, hf.2.2⟩

/-- While ones remain to be read, the merge loop keeps running, so the last
symbol it emits before stopping is the 1 that completed the count. -/
theorem merge_last_one (r : Nat) (b : Int) (total : Nat) :
    ∀ (fuel : Nat) (st stf : MState),
      (∀ v ∈ st.abacus, isBinary v) →
      st.read < total →
      mergeRun r b total fuel st = some stf →
      stf.out.getLast? = some 1 := by
  intro fuel
  induction fuel with
  | zero =>
    intro st stf _ hrt hrun
    simp only [mergeRun, if_pos hrt] at hrun
    exact absurd hrun (by simp)
  | succ f ih =>
    intro st stf habin hrt hrun
    rw [mergeRun_go r b total f st hrt] at hrun
    cases hwire : st.abacus.getD st.wire.toNat [] with
    | nil =>
      have hstep : mergeStep r b st
          = MState.mk st.abacus (from_G_abacus_step r b st.wire 0)
              (st.out ++ [0]) st.read := by
        unfold mergeStep
        dsimp only
        rw [hwire]
      refine ih (mergeStep r b st) stf ?_ ?_ hrun
      · rw [hstep]
        exact habin
      · rw [hstep]
        exact hrt
    | cons code rest =>
      have hstep : mergeStep r b st
          = MState.mk (st.abacus.set st.wire.toNat rest)
              (from_G_abacus_step r b st.wire code)
              (st.out ++ [code]) (st.read + code) := by
        unfold mergeStep
        dsimp only
        rw [hwire]
      have habin2 : ∀ v ∈ (mergeStep r b st).abacus, isBinary v := by
        rw [hstep]
        intro v hv
        rcases List.mem_or_eq_of_mem_set hv with hv1 | hv2
        · exact habin v hv1
        · rw [hv2]
          intro x hx
          by_cases hwl : st.wire.toNat < st.abacus.length
          · have hb := habin (st.abacus.getD st.wire.toNat []) (getD_mem_of_lt _ _ [] hwl)
            rw [hwire] at hb
            exact hb x (List.mem_cons_of_mem _ hx)
          · have hd : st.abacus.getD st.wire.toNat [] = [] :=
              List.getD_eq_default _ [] (by omega)
            rw [hwire] at hd
            exact absurd hd (by simp)
      by_cases hrt2 : st.read + code < total
      · refine ih (mergeStep r b st) stf habin2 ?_ hrun
        rw [hstep]
        exact hrt2
      · have hstop : ¬ (mergeStep r b st).read < total := by
          rw [hstep]
          exact hrt2
        rw [mergeRun_stop r b total f _ hstop] at hrun
        rw [← Option.some.inj hrun]
        have hcode : code ≤ 1 := by
          by_cases hwl : st.wire.toNat < st.abacus.length
          · have hb := habin (st.abacus.getD st.wire.toNat []) (getD_mem_of_lt _ _ [] hwl)
            rw [hwire] at hb
            exact hb code (List.mem_cons_self _ _)
          · have hd : st.abacus.getD st.wire.toNat [] = [] :=
              List.getD_eq_default _ [] (by omega)
            rw [hwire] at hd
            exact absurd hd (by simp)
        have hc1 : code = 1 := by omega
        rw [hstep]
        show (st.out ++ [code]).getLast? = some 1
        rw [hc1, List.getLast?_concat]

/-- A factor of a word of the shape `1^d 0^x` has no inversion. -/
theorem slice_no_inversion (a y d x : Nat) (v : List Nat)
    (h : List.replicate d 1 ++ List.replicate x 0
        = (List.replicate a 1 ++ v) ++ List.replicate y 0) :
    ¬ hasInversion v := by
  rintro ⟨t1, t2, h12, h2len, e1, e2⟩
  have hlens := congrArg List.length h
  simp only [List.length_append, List.length_replicate] at hlens
  have hword : ∀ n, n < d + x →
      (List.replicate d 1 ++ List.replicate x 0).getD n 9 = if n < d then 1 else 0 := by
    intro n hn
    by_cases hnd : n < d
    · rw [List.getD_append _ _ 9 n (by rw [List.length_replicate]; exact hnd), if_pos hnd]
      rw [List.getD_eq_getElem _ 9 (by rw [List.length_replicate]; exact hnd),
        List.getElem_replicate]
    · rw [List.getD_append_right _ _ 9 n (by rw [List.length_replicate]; omega),
        if_neg hnd]
      rw [List.getD_eq_getElem _ 9 (by simp only [List.length_replicate]; omega),
        List.getElem_replicate]
  have hval : ∀ t, t < v.length →
      v.getD t 9 = (List.replicate d 1 ++ List.replicate x 0).getD (a + t) 9 := by
    intro t ht
    rw [h, List.append_assoc,
      List.getD_append_right _ _ 9 (a + t) (by rw [List.length_replicate]; omega),
      List.length_replicate, Nat.add_sub_cancel_left, List.getD_append _ _ 9 t ht]
  have h1len : t1 < v.length := by omega
  have hv1 := hval t1 h1len
  have hv2 := hval t2 h2len
  rw [e1, hword (a + t1) (by omega)] at hv1
  rw [e2, hword (a + t2) (by omega)] at hv2
  by_cases hc1 : a + t1 < d
  · rw [if_pos hc1] at hv1
    omega
  · by_cases hc2 : a + t2 < d
    · omega
    · rw [if_neg hc2] at hv2
      omega

/-- The `quotient = None` branch of the reconstructor always produces an
`(r,b)`-core carrying the given charges: it succeeds, and its output is a
partition that passes `is_G_core` and whose `G_charges` are the input. -/
theorem core_exists (charges : List Int) (r : Nat) (b : Int) (hr : 1 ≤ r)
    (hgcd : Int.gcd (r : Int) b = 1)
    (hlen : charges.length = r) (hsum : charges.sum = 0) :
    ∃ c, from_G_charges_and_quotient charges none r b = Except.ok c
      ∧ isPartition c ∧ is_G_core c r b = true ∧ G_charges c r b = charges := by
  have hr0 : 0 < r := hr
  have hrz : (0 : Int) < (r : Int) := by exact_mod_cast hr0
  obtain ⟨M, hmax⟩ : ∃ M, charges.max? = some M := by
    cases hmx : charges.max? with
    | none =>
      rw [List.max?_eq_none_iff] at hmx
      rw [hmx] at hlen
      simp at hlen
      omega
    | some M => exact ⟨M, rfl⟩
  have hA : charges_quotient_abacus charges [] r
      = (List.range r).map (fun i =>
          List.replicate ((M - charges.getD i 0).toNat) (1 : Nat)) := by
    unfold charges_quotient_abacus
    rw [hmax]
    refine List.map_congr_left ?_
    intro i _
    simp only [Option.getD_some, List.map_nil, List.getD_nil, List.append_nil]
  rw [from_G_charges_none_unfold charges r b hr hlen hsum, hA]
  set B := (List.range r).map (fun i =>
      List.replicate ((M - charges.getD i 0).toNat) (1 : Nat)) with hBdef
  have hBlen : B.length = r := by
    rw [hBdef, List.length_map, List.length_range]
  have hBgetD : ∀ i, i < r → B.getD i []
      = List.replicate ((M - charges.getD i 0).toNat) (1 : Nat) := by
    intro i hi
    rw [hBdef, getD_range_map _ r i [] hi]
  have hBbin : ∀ v ∈ B, isBinary v := by
    intro v hv
    rw [hBdef, List.mem_map] at hv
    obtain ⟨i, _, rfl⟩ := hv
    intro x hx
    rw [List.eq_of_mem_replicate hx]
  have hBones : (B.map List.sum).sum
      = ((List.range r).map (fun i => (M - charges.getD i 0).toNat)).sum := by
    rw [hBdef, List.map_map]
    refine congrArg List.sum (List.map_congr_left ?_)
    intro i _
    show (List.replicate ((M - charges.getD i 0).toNat) (1 : Nat)).sum = _
    rw [List.sum_replicate]
    simp [smul_eq_mul]
  have htotI : (((B.map List.sum).sum : Nat) : Int) = (r : Int) * M := by
    rw [hBones]
    exact sum_deficits charges r M hlen hsum hmax
  have hM0 : 0 ≤ M := by
    by_contra hneg
    push_neg at hneg
    have hlt := mul_neg_of_pos_of_neg hrz hneg
    rw [← htotI] at hlt
    omega
  have htotN : (B.map List.sum).sum = r * M.toNat := by
    have h2 : (((B.map List.sum).sum : Nat) : Int) = ((r * M.toNat : Nat) : Int) := by
      rw [htotI]
      push_cast
      rw [Int.toNat_of_nonneg hM0]
    exact_mod_cast h2
  have hstart_eq : from_G_abacus_start B r
      = (((B.map List.sum).sum : Nat) : Int) % (r : Int) := rfl
  have hw00 : 0 ≤ from_G_abacus_start B r := by
    rw [hstart_eq]
    exact Int.emod_nonneg _ (ne_of_gt hrz)
  have hw0r : from_G_abacus_start B r < (r : Int) := by
    rw [hstart_eq]
    exact Int.emod_lt_of_pos _ hrz
  obtain ⟨stf, hrun⟩ := mergeRun_completes r b hr0 hgcd ((B.map List.sum).sum)
    (r * ((B.map List.length).sum + 1))
    (MState.mk B (from_G_abacus_start B r) [] 0)
    hBlen hw00 hw0r
    (by
      show 0 + abacusOnes B = (B.map List.sum).sum
      rw [Nat.zero_add]
      rfl)
    (by
      have hd := distToNonempty_le r b B (from_G_abacus_start B r)
      show r * abacusSize B + distToNonempty r b B (from_G_abacus_start B r)
        ≤ r * ((B.map List.length).sum + 1)
      have hsz : abacusSize B = (B.map List.length).sum := rfl
      have hexp : r * ((B.map List.length).sum + 1)
          = r * (B.map List.length).sum + r := by ring
      rw [hsz]
      omega)
  have hsound := merge_sound r b hr0 ((B.map List.sum).sum) B hBlen
    (from_G_abacus_start B r)
    (r * ((B.map List.length).sum + 1))
    (MState.mk B (from_G_abacus_start B r) [] 0) stf
    hBlen hw00 hw0r hBbin
    (by
      intro x hx
      simp at hx)
    (by
      show 0 + abacusOnes B = (B.map List.sum).sum
      rw [Nat.zero_add]
      rfl)
    rfl
    rfl
    (by
      intro i hi
      refine ⟨0, ?_, Or.inr rfl⟩
      show (List.replicate r ([] : List Nat)).getD i [] ++ B.getD i []
        = B.getD i [] ++ List.replicate 0 0
      rw [getD_replicate_nil, List.nil_append, List.replicate_zero, List.append_nil])
    hrun
  obtain ⟨hread, hosum, hobin, heqz⟩ := hsound
  obtain ⟨hpc, a, e, hdecomp⟩ := wire_canonical stf.out hobin
  set c := from_zero_one (invert_zero_one stf.out) with hcdef
  have he0 : e = 0 := by
    rcases Nat.eq_zero_or_pos ((B.map List.sum).sum) with htz | htz
    · have hstop : ¬ (MState.mk B (from_G_abacus_start B r) [] 0).read
          < (B.map List.sum).sum := by
        show ¬ 0 < (B.map List.sum).sum
        omega
      have hrun2 := mergeRun_stop r b ((B.map List.sum).sum)
        (r * ((B.map List.length).sum + 1)) _ hstop
      have hst := merge_det r b ((B.map List.sum).sum)
        (r * ((B.map List.length).sum + 1)) (r * ((B.map List.length).sum + 1))
        (MState.mk B (from_G_abacus_start B r) [] 0) stf
        (MState.mk B (from_G_abacus_start B r) [] 0) hrun hrun2
      have hout : stf.out = [] := by rw [hst]
      rw [hout] at hdecomp
      have hlen2 := congrArg List.length hdecomp
      simp only [List.length_nil, List.length_append, List.length_replicate] at hlen2
      omega
    · have hlast := merge_last_one r b ((B.map List.sum).sum)
        (r * ((B.map List.length).sum + 1))
        (MState.mk B (from_G_abacus_start B r) [] 0) stf hBbin
        (by
          show 0 < (B.map List.sum).sum
          omega)
        hrun
      cases e with
      | zero => rfl
      | succ e2 =>
        rw [hdecomp, List.replicate_succ', ← List.append_assoc, List.getLast?_concat]
          at hlast
        exact absurd hlast (by simp)
  subst he0
  rw [List.replicate_zero, List.append_nil] at hdecomp
  have hTz : (B.map List.sum).sum = a + c.length := by
    rw [← hosum, hdecomp, List.sum_append, List.sum_replicate, seq_ones_count c hpc]
    simp [smul_eq_mul]
  have hw0eq : from_G_abacus_start B r = (((c.length + a : Nat) : Int)) % (r : Int) := by
    rw [hstart_eq]
    rw [show (B.map List.sum).sum = c.length + a from by omega]
  have hwireEq : ∀ i, i < r → ∃ x y,
      List.replicate ((M - charges.getD i 0).toNat) (1 : Nat) ++ List.replicate x 0
        = (List.replicate (uCount r c.length a i) 1 ++ (G_abacus c r b).getD i [])
            ++ List.replicate y 0 := by
    intro i hi
    obtain ⟨x, y, hxy⟩ := heqz.2 i
    rw [hBgetD i hi, hdecomp, hw0eq, dist_padded_getD c r b hpc hr0 a i hi] at hxy
    exact ⟨x, y, hxy⟩
  refine ⟨c, ?_, hpc, ?_, ?_⟩
  · show from_G_abacus B (some r) b = Except.ok c
    unfold from_G_abacus
    dsimp only
    rw [Option.getD_some]
    rw [if_neg (by simp [hgcd])]
    rw [if_neg (by omega : ¬ r = 0)]
    rw [hrun]
  · by_contra hfalse
    rw [Bool.not_eq_true] at hfalse
    obtain ⟨i, hi, hinv⟩ := core_false_to_inversion c r b hpc hr0 hfalse
    obtain ⟨x, y, hxy⟩ := hwireEq i hi
    exact slice_no_inversion (uCount r c.length a i) y ((M - charges.getD i 0).toNat) x
      ((G_abacus c r b).getD i []) hxy hinv
  · rw [G_charges_eq c r b]
    have hch : (List.range r).map (fun i => charges.getD i 0) = charges := by
      rw [← hlen]
      exact map_getD_self_int charges
    rw [← hch]
    refine List.map_congr_left ?_
    intro i hir
    rw [List.mem_range] at hir
    have hTc : abacusOnes (G_abacus c r b) = c.length := by
      rw [G_abacus_ones c r b hr0, seq_ones_count c hpc]
    have hE : abacusOnes (G_abacus c r b) / r
        + (if 0 < i ∧ i ≤ abacusOnes (G_abacus c r b) % r then 1 else 0)
        = eCount r c.length i := by
      rw [hTc, ← eCount_formula r hr0 i hir c.length]
    obtain ⟨x, y, hxy⟩ := hwireEq i hir
    have hsums := congrArg List.sum hxy
    simp only [List.sum_append, List.sum_replicate, smul_eq_mul, Nat.mul_one,
      Nat.mul_zero] at hsums
    have hEadd := eCount_add r c.length i a
    have htot2 : c.length + a = r * M.toNat := by
      rw [← htotN, hTz]
      omega
    rw [htot2, eCount_mul r hr0 i hir M.toNat] at hEadd
    have hdI : (((M - charges.getD i 0).toNat : Nat) : Int) = M - charges.getD i 0 := by
      have hmem : charges.getD i 0 ∈ charges := getD_mem_of_lt charges i 0 (by omega)
      have hle := int_max?_ge charges M hmax _ hmem
      omega
    have hMt : ((M.toNat : Nat) : Int) = M := Int.toNat_of_nonneg hM0
    rw [hE]
    omega

/-- C2: for every partition `p`, every `r ≥ 1` and every `b` with
`gcd(r,b) = 1`, reconstructing from the derived core and quotient recovers
`p`: `G_core p r b` succeeds with an `(r,b)`-core `c`, and
`from_G_core_and_quotient c (G_quotient p r b) r b = ok p`. -/
theorem C2_round_trip_core_quotient (p : List Nat) (r : Nat) (b : Int)
    (hp : isPartition p) (hr : 1 ≤ r) (hgcd : Int.gcd (r : Int) b = 1) :
    ∃ c, G_core p r b = Except.ok c
      ∧ from_G_core_and_quotient c (some (G_quotient p r b false)) r b = Except.ok p := by
  obtain ⟨c, hok, hpc, hcore, hch⟩ := core_exists (G_charges p r b) r b hr hgcd
    (G_charges_length p r b) (charges_sum_zero p r b hr)
  refine ⟨c, ?_, ?_⟩
  · show from_G_charges_and_quotient (G_charges p r b) none r b = Except.ok c
    exact hok
  · unfold from_G_core_and_quotient
    rw [if_pos hcore]
    show from_G_charges_and_quotient (G_charges c r b) (some (G_quotient p r b false)) r b
      = Except.ok p
    rw [hch]
    exact reconstruct_charges_quotient p r b hp hr hgcd

theorem C2_round_trip_core_quotient_witness :
    isPartition [3, 1] ∧ 1 ≤ 2 ∧ Int.gcd (2 : Int) 1 = 1
      ∧ ∃ c, G_core [3, 1] 2 1 = Except.ok c
          ∧ from_G_core_and_quotient c (some (G_quotient [3, 1] 2 1 false)) 2 1
              = Except.ok [3, 1] :=
  ⟨by decide, by decide, by decide,
    C2_round_trip_core_quotient [3, 1] 2 1 (by decide) (by decide) (by decide)⟩

end PyParti
